import Mathlib

/-!
# Relational neural gas (`clustering/nonsupervised/relational_neuralgas.hpp`)

Shallow embedding of the class `relational_neuralgas<T>` and of the parts of
`boost::numeric::ublas` and of the framework's `tools` it calls, and of the
function `convert::getArrayFromMatrix` of `swig/target/java/java.hpp`.

* The number type `T` of the template is an arbitrary linearly ordered field;
  `std::exp` and `std::pow` are parameters. The functions are embedded with the
  arithmetic of the field (`relational_neuralgas`) and once more with every
  arithmetic operation rounded by a parameter `fl` (`rounded`);
  `binary64.round_nearest` is the rounding of `double`.
* A `ublas::matrix<T>` is its two sizes and its element access.
* A member function that can throw returns the outcome together with the
  object as the call leaves it.
-/

/-- Conditions raised by the code: the `exception::runtime` messages of
`relational_neuralgas.hpp`, and the size check of `ublas` on its operands. -/
inductive exception where
  /-- Message "prototype size must be greater than zero" -/
  | prototype_size_zero
  /-- Message "number of prototypes must be greater than zero" -/
  | prototypes_zero
  /-- Message "number of datapoints are less than prototypes" -/
  | datapoints_less
  /-- Message "iterations must be greater than zero" -/
  | iterations_zero
  /-- Message "data and prototype dimension are not equal" -/
  | dimension_not_equal
  /-- Message "lambda must be greater than zero" -/
  | lambda_not_positive
  /-- Message "matrix must be square" -/
  | matrix_not_square
  /-- Condition `ublas::bad_argument`: the operands of a product do not fit
  (`BOOST_UBLAS_SAME (e1.size2 (), e2.size1 ())`). -/
  | bad_argument
  deriving DecidableEq

namespace ublas

/-- Dense matrix `ublas::matrix<T>`: `size1` rows, `size2` columns, element
access `M(i, j)`. Only the entries with `i < size1` and `j < size2` belong to
the matrix. -/
structure matrix (T : Type) where
  size1 : Nat
  size2 : Nat
  data : Nat → Nat → T

variable {T : Type} [LinearOrderedField T]

/-- The row `ublas::row(M, i)` read as a vector. -/
def row (M : matrix T) (i : Nat) : List T :=
  (List.range M.size2).map fun j => M.data i j

/-- The column `ublas::column(M, j)` read as a vector. -/
def column (M : matrix T) (j : Nat) : List T :=
  (List.range M.size1).map fun i => M.data i j

/-- The sum `ublas::sum(v)` of the entries. -/
def sum (v : List T) : T := v.sum

/-- The inner product `ublas::inner_prod(a, b)`; `train` calls it on two rows of the same
length. -/
def inner_prod (a b : List T) : T :=
  (List.zipWith (fun x y => x * y) a b).sum

/-- The product `ublas::prod(A, B)` assigned to a matrix: the operands must fit. -/
def prod (A B : matrix T) : Except exception (matrix T) :=
  if A.size2 = B.size1 then
    .ok ⟨A.size1, B.size2, fun i j =>
      ((List.range A.size2).map fun k => A.data i k * B.data k j).sum⟩
  else .error .bad_argument

/-- The element assignment `M(i, j) = v`. -/
def assign (M : matrix T) (i j : Nat) (v : T) : matrix T :=
  { M with data := fun r c => if r = i ∧ c = j then v else M.data r c }

/-- The assignment `ublas::column(M, n) = v`, for a vector `v` with one entry per row. -/
def assign_column (M : matrix T) (n : Nat) (v : List T) : matrix T :=
  { M with data := fun r c => if c = n ∧ r < M.size1 then v.getD r 0 else M.data r c }

/-- The update `ublas::row(M, i) /= s`. -/
def row_div (M : matrix T) (i : Nat) (s : T) : matrix T :=
  { M with data := fun r c => if r = i ∧ c < M.size2 then M.data r c / s else M.data r c }

end ublas

namespace tools

variable {T : Type} [LinearOrderedField T]

/-- Modelled from the spec: `tools::function::isNumericalZero` is missing from
the sources; the spec describes a "numerically zero" predicate with a fixed
tolerance, here `eps`. -/
def function.isNumericalZero (eps : T) (x : T) : Bool := decide (|x| ≤ eps)

/-- Modelled from the spec: `tools::vector::rank` is missing from the sources;
the spec describes the 0-based rank of each element under ascending order, a
permutation of `0..len-1`, ties in stable order. The ranks are values of the
number type, as in the source. -/
def vector.rank (v : List T) : List T :=
  (List.range v.length).map fun i =>
    ((((List.range v.length).filter fun j =>
        decide (v.getD j 0 < v.getD i 0) ||
          (decide (v.getD j 0 = v.getD i 0) && decide (j < i))).length : Nat) : T)

/-- Modelled from the spec: `tools::vector::rankIndex` is missing from the
sources; the spec describes the indices in ascending order of their values,
ties broken by lowest index (a stable sort of the indices). -/
def vector.rankIndex (v : List T) : List Nat :=
  List.insertionSort (fun a b => v.getD a 0 ≤ v.getD b 0) (List.range v.length)

/-- Modelled from the spec: `tools::matrix::min(M, tools::matrix::column)` is
missing from the sources; the spec describes the minimum entry of every column.
The minimum of a column is found by a scan that starts at its first entry. -/
def matrix.min (M : ublas.matrix T) : List T :=
  (List.range M.size2).map fun j =>
    (List.range M.size1).foldl
      (fun m i => if M.data i j < m then M.data i j else m) (M.data 0 j)

/-- Modelled from the spec: `tools::matrix::random<T>(rows, cols)` is missing from the
sources; the spec describes a matrix of `rows` rows of `cols` random values. The values drawn
are the parameter `values`. -/
def matrix.random (values : Nat → Nat → T) (rows cols : Nat) : ublas.matrix T :=
  ⟨rows, cols, values⟩

end tools

/-- The values of `std::numeric_limits<T>` that the code reads, and the smallest positive
value of the number type. -/
structure numeric_limits (T : Type) where
  /-- Value `epsilon()`: the difference between 1 and the next representable value. -/
  epsilon : T
  /-- Value `denorm_min()`: the smallest positive representable value. -/
  denorm_min : T

/-- The limits of `double` (IEEE 754 binary64): `epsilon() = 2^-52` and
`denorm_min() = 2^-1074`. -/
def numeric_limits.double : numeric_limits ℚ := ⟨1 / 2 ^ 52, 1 / 2 ^ 1074⟩

/-- The helpers of `tools` and of the C++ library that `train` calls. They are
parameters of the training functions: `tools::function::isNumericalZero`,
`tools::vector::rank`, `std::exp` and `std::pow`. -/
structure Tools (T : Type) where
  isNumericalZero : T → Bool
  rank : List T → List T
  exp : T → T
  pow : T → T → T

/-- The helpers of `tools` as the spec describes them, for a tolerance `eps`
and given `std::exp` and `std::pow`. -/
def Tools.ofSpec {T : Type} [LinearOrderedField T] (eps : T) (exp : T → T)
    (pow : T → T → T) : Tools T :=
  ⟨tools.function.isNumericalZero eps, tools.vector.rank, exp, pow⟩

/-- The data members of `relational_neuralgas<T>` (`m_kapprox` is always
`NULL` and is left out). -/
structure relational_neuralgas (T : Type) where
  m_prototypes : ublas.matrix T
  m_logging : Bool
  m_logprototypes : List (ublas.matrix T)
  m_quantizationerror : List T
  m_firstpatch : Bool

namespace relational_neuralgas

variable {T : Type} [LinearOrderedField T]

/-- Member `getPrototypes`. -/
def getPrototypes (self : relational_neuralgas T) : ublas.matrix T := self.m_prototypes

/-- Member `setLogging`. -/
def setLogging (self : relational_neuralgas T) (p : Bool) : relational_neuralgas T :=
  { self with m_logging := p }

/-- Member `getLogging`. -/
def getLogging (self : relational_neuralgas T) : Bool := self.m_logging

/-- Member `getLoggedPrototypes`. -/
def getLoggedPrototypes (self : relational_neuralgas T) : List (ublas.matrix T) :=
  self.m_logprototypes

/-- Member `getPrototypeSize`. -/
def getPrototypeSize (self : relational_neuralgas T) : Nat := self.m_prototypes.size2

/-- Member `getPrototypeCount`. -/
def getPrototypeCount (self : relational_neuralgas T) : Nat := self.m_prototypes.size1

/-- Member `getLoggedQuantizationError`. -/
def getLoggedQuantizationError (self : relational_neuralgas T) : List T :=
  self.m_quantizationerror

/-- Member `calculateQuantizationError`, a `const` member that reads only its
argument. -/
def calculateQuantizationError (_self : relational_neuralgas T)
    (p_distance : ublas.matrix T) : T :=
  (1 / 2) * ublas.sum (tools.matrix.min p_distance)

/-- Body of the loop over `n` in lines 286-291 of `train`: the value `l_val`
of row `n` is computed first, then subtracted from every entry of the row. -/
def train_bias_row (m_prototypes l_adaptmatrix : ublas.matrix T) (n : Nat) :
    ublas.matrix T :=
  let l_val := (1 / 2) * ublas.inner_prod (ublas.row m_prototypes n) (ublas.row l_adaptmatrix n)
  (List.range l_adaptmatrix.size2).foldl
    (fun M j => ublas.assign M n j (M.data n j - l_val)) l_adaptmatrix

/-- Lines 284-291 of `train`: `l_adaptmatrix = prod(m_prototypes, p_data)`
followed by the loop over its rows. -/
def train_adaptmatrix (m_prototypes p_data : ublas.matrix T) :
    Except exception (ublas.matrix T) :=
  match ublas.prod m_prototypes p_data with
  | .error e => .error e
  | .ok l_adaptmatrix =>
    .ok ((List.range l_adaptmatrix.size1).foldl
      (fun M n => train_bias_row m_prototypes M n) l_adaptmatrix)

/-- Body of the loop over `n` in lines 302-312 of `train`: column `n` is
ranked, every rank `p` becomes `exp(-p / l_lambda)`, and the column is written
back. -/
def train_rank_column (tl : Tools T) (l_lambda : T) (l_adaptmatrix : ublas.matrix T)
    (n : Nat) : ublas.matrix T :=
  let l_rank := ublas.column l_adaptmatrix n
  let l_rank := tl.rank l_rank
  let l_rank := l_rank.map fun p => tl.exp (-p / l_lambda)
  ublas.assign_column l_adaptmatrix n l_rank

/-- Body of the loop over `i` in lines 316-321 of `train`. -/
def train_normalize_row (tl : Tools T) (m_prototypes : ublas.matrix T) (i : Nat) :
    ublas.matrix T :=
  let l_sum := ublas.sum (ublas.row m_prototypes i)
  if !tl.isNumericalZero l_sum then ublas.row_div m_prototypes i l_sum else m_prototypes

/-- The value `l_lambda` of iteration `i` (line 279), with
`l_multi = 0.01 / p_lambda` (line 274). -/
def train_lambda (tl : Tools T) (p_iterations : Nat) (p_lambda : T) (i : Nat) : T :=
  let l_multi := (1 / 100) / p_lambda
  p_lambda * tl.pow l_multi ((i : T) / (p_iterations : T))

/-- One pass of the loop of `train` (lines 276-326), iteration `i`. -/
def train_iteration (tl : Tools T) (p_data : ublas.matrix T) (p_iterations : Nat)
    (p_lambda : T) (i : Nat) (self : relational_neuralgas T) :
    Except exception Unit × relational_neuralgas T :=
  let l_lambda := train_lambda tl p_iterations p_lambda i
  match train_adaptmatrix self.m_prototypes p_data with
  | .error e => (.error e, self)
  | .ok l_adaptmatrix =>
    let self1 :=
      if self.m_logging then
        { self with m_quantizationerror :=
            self.m_quantizationerror ++ [calculateQuantizationError self l_adaptmatrix] }
      else self
    let l_adaptmatrix := (List.range l_adaptmatrix.size2).foldl
      (fun M n => train_rank_column tl l_lambda M n) l_adaptmatrix
    let self2 := { self1 with m_prototypes := l_adaptmatrix }
    let l_normalized := (List.range self2.m_prototypes.size1).foldl
      (fun M i => train_normalize_row tl M i) self2.m_prototypes
    let self3 := { self2 with m_prototypes := l_normalized }
    let self4 :=
      if self3.m_logging then
        { self3 with m_logprototypes := self3.m_logprototypes ++ [self3.m_prototypes] }
      else self3
    (.ok (), self4)

/-- The loop `for (i = 0; i < p_iterations; ++i)` of `train`, over the
iterations still to run; an exception leaves the loop. -/
def train_loop (tl : Tools T) (p_data : ublas.matrix T) (p_iterations : Nat)
    (p_lambda : T) : List Nat → relational_neuralgas T →
    Except exception Unit × relational_neuralgas T
  | [], self => (.ok (), self)
  | i :: is, self =>
    match train_iteration tl p_data p_iterations p_lambda i self with
    | (.ok (), self1) => train_loop tl p_data p_iterations p_lambda is self1
    | (.error e, self1) => (.error e, self1)

/-- Member `train(p_data, p_iterations, p_lambda)` (lines 248-327). -/
def train (tl : Tools T) (self : relational_neuralgas T) (p_data : ublas.matrix T)
    (p_iterations : Nat) (p_lambda : T) :
    Except exception Unit × relational_neuralgas T :=
  if self.m_prototypes.size1 = 0 then (.error .prototypes_zero, self)
  else if p_data.size1 < self.m_prototypes.size1 then (.error .datapoints_less, self)
  else if p_iterations = 0 then (.error .iterations_zero, self)
  else if p_data.size2 ≠ self.m_prototypes.size2 then (.error .dimension_not_equal, self)
  else if p_lambda ≤ 0 then (.error .lambda_not_positive, self)
  else if p_data.size1 ≠ p_data.size2 then (.error .matrix_not_square, self)
  else
    let self1 :=
      if self.m_logging then
        { self with m_logprototypes := [], m_quantizationerror := [] }
      else self
    train_loop tl p_data p_iterations p_lambda (List.range p_iterations) self1

/-- Member `train(p_data, p_iterations)` (lines 237-240). -/
def train_default (tl : Tools T) (self : relational_neuralgas T) (p_data : ublas.matrix T)
    (p_iterations : Nat) : Except exception Unit × relational_neuralgas T :=
  train tl self p_data p_iterations ((self.m_prototypes.size1 : T) * (1 / 2))

/-- The index array `l_idx` of `use` as line 352 creates it: `p_data.size1()`
entries (their unspecified initial content is written as `0`). -/
def use_index_array (p_data : ublas.matrix T) : List Nat :=
  List.replicate p_data.size1 0

/-- Member `use(p_data)` (lines 345-362). Entry `i` of the index array is assigned for
every column `i` of the product. -/
def use (self : relational_neuralgas T) (p_data : ublas.matrix T) :
    Except exception (List Nat) :=
  if self.m_prototypes.size1 = 0 then .error .prototypes_zero
  else if p_data.size2 ≠ self.m_prototypes.size2 then .error .dimension_not_equal
  else
    let l_idx := use_index_array p_data
    match ublas.prod self.m_prototypes p_data with
    | .error e => .error e
    | .ok l_distance =>
      .ok ((List.range l_distance.size2).foldl
        (fun idx i =>
          let l_col := ublas.column l_distance i
          let l_rank := tools.vector.rankIndex l_col
          idx.set i (l_rank.getD 0 0)) l_idx)

/-- Body of the loop over `i` in lines 129-134 of the constructor. -/
def construct_normalize_row (tl : Tools T) (m_prototypes : ublas.matrix T) (i : Nat) :
    ublas.matrix T :=
  let l_sum := ublas.sum (ublas.row m_prototypes i)
  if !tl.isNumericalZero l_sum then ublas.row_div m_prototypes i l_sum else m_prototypes

/-- The constructor `relational_neuralgas(p_prototypes, p_prototypesize)` (lines 117-135). The
members are initialised first, `m_prototypes` with the random matrix of the values `values`;
then the body checks the prototype size and normalises the rows. -/
def construct (tl : Tools T) (values : Nat → Nat → T) (p_prototypes p_prototypesize : Nat) :
    Except exception (relational_neuralgas T) :=
  let m_prototypes := tools.matrix.random values p_prototypes p_prototypesize
  if p_prototypesize = 0 then .error .prototype_size_zero
  else
    let l_normalized := (List.range m_prototypes.size1).foldl
      (fun M i => construct_normalize_row tl M i) m_prototypes
    .ok { m_prototypes := l_normalized
          m_logging := false
          m_logprototypes := []
          m_quantizationerror := []
          m_firstpatch := true }

/-- A call of a public member function on an object. -/
inductive call (T : Type) where
  | train (p_data : ublas.matrix T) (p_iterations : Nat) (p_lambda : T)
  | train_default (p_data : ublas.matrix T) (p_iterations : Nat)
  | use (p_data : ublas.matrix T)
  | setLogging (p : Bool)

/-- The object after a call, whether the call returned or threw. -/
def after_call (tl : Tools T) (self : relational_neuralgas T) : call T → relational_neuralgas T
  | .train p_data p_iterations p_lambda => (train tl self p_data p_iterations p_lambda).2
  | .train_default p_data p_iterations => (train_default tl self p_data p_iterations).2
  | .use _ => self
  | .setLogging p => setLogging self p

/-- The object after a sequence of calls. -/
def after_calls (tl : Tools T) (self : relational_neuralgas T) (calls : List (call T)) :
    relational_neuralgas T :=
  calls.foldl (after_call tl) self

/-- Member `train(p_mpi, p_data, p_iterations, p_lambda)` (lines 395-397, compiled with
`MACHINELEARNING_MPI`): the body is empty. The communicator is not read and is left out. -/
def train_mpi (self : relational_neuralgas T) (_p_data : ublas.matrix T) (_p_iterations : Nat)
    (_p_lambda : T) : Except exception Unit × relational_neuralgas T :=
  (.ok (), self)

/-- The argument `p_lambda` that member `train(p_mpi, p_data, p_iterations)` computes in
line 387. -/
def train_mpi_lambda (limits : numeric_limits T) (self : relational_neuralgas T) : T :=
  if self.m_prototypes.size1 = 0 then limits.epsilon
  else (self.m_prototypes.size1 : T) * (1 / 2)

/-- Member `train(p_mpi, p_data, p_iterations)` (lines 384-388). -/
def train_mpi_default (limits : numeric_limits T) (self : relational_neuralgas T)
    (p_data : ublas.matrix T) (p_iterations : Nat) :
    Except exception Unit × relational_neuralgas T :=
  train_mpi self p_data p_iterations (train_mpi_lambda limits self)

/-! ## Closed forms of the loops of `train` -/

/-- The bias value of row `n` (line 287). -/
def bias_val (P A : ublas.matrix T) (n : Nat) : T :=
  (1 / 2) * ublas.inner_prod (ublas.row P n) (ublas.row A n)

/-- The product of `P` and `D` entry by entry. -/
def prod_data (P D : ublas.matrix T) (i j : Nat) : T :=
  ((List.range P.size2).map fun k => P.data i k * D.data k j).sum

/-- The matrix that lines 284-291 build, entry by entry: the product with the bias of the row
subtracted. -/
def adapt_data (P D : ublas.matrix T) (r c : Nat) : T :=
  prod_data P D r c - bias_val P ⟨P.size1, D.size2, prod_data P D⟩ r

/-- The weight that the rank loop writes at row `r` of column `c` of `A`. -/
def rank_weight (tl : Tools T) (l_lambda : T) (A : ublas.matrix T) (r c : Nat) : T :=
  ((tl.rank (ublas.column A c)).map fun p => tl.exp (-p / l_lambda)).getD r 0

/-- The entry that the normalisation loop leaves at `(r, c)` of `A`. -/
def normalized_data (tl : Tools T) (A : ublas.matrix T) (r c : Nat) : T :=
  if tl.isNumericalZero (ublas.sum (ublas.row A r)) then A.data r c
  else A.data r c / ublas.sum (ublas.row A r)

/-- The matrix `l_adaptmatrix` after lines 284-291. -/
def adapt_closed (P D : ublas.matrix T) : ublas.matrix T :=
  ⟨P.size1, D.size2, fun r c =>
    if r < P.size1 ∧ c < D.size2 then adapt_data P D r c else prod_data P D r c⟩

/-- The matrix `l_adaptmatrix` after the rank loop (lines 302-312). -/
def rank_closed (tl : Tools T) (l_lambda : T) (A : ublas.matrix T) : ublas.matrix T :=
  ⟨A.size1, A.size2, fun r c =>
    if r < A.size1 ∧ c < A.size2 then rank_weight tl l_lambda A r c else A.data r c⟩

/-- The matrix `m_prototypes` after the normalisation loop (lines 316-321). -/
def normalize_closed (tl : Tools T) (A : ublas.matrix T) : ublas.matrix T :=
  ⟨A.size1, A.size2, fun r c =>
    if r < A.size1 ∧ c < A.size2 then normalized_data tl A r c else A.data r c⟩

/-- The prototypes that iteration `i` of `train` leaves. -/
def iteration_prototypes (tl : Tools T) (p_data : ublas.matrix T) (p_iterations : Nat)
    (p_lambda : T) (i : Nat) (P : ublas.matrix T) : ublas.matrix T :=
  normalize_closed tl
    (rank_closed tl (train_lambda tl p_iterations p_lambda i) (adapt_closed P p_data))

/-- The object that iteration `i` of `train` leaves. -/
def iteration_closed (tl : Tools T) (p_data : ublas.matrix T) (p_iterations : Nat)
    (p_lambda : T) (i : Nat) (self : relational_neuralgas T) : relational_neuralgas T :=
  { m_prototypes := iteration_prototypes tl p_data p_iterations p_lambda i self.m_prototypes
    m_logging := self.m_logging
    m_logprototypes :=
      if self.m_logging then
        self.m_logprototypes ++
          [iteration_prototypes tl p_data p_iterations p_lambda i self.m_prototypes]
      else self.m_logprototypes
    m_quantizationerror :=
      if self.m_logging then
        self.m_quantizationerror ++
          [calculateQuantizationError self (adapt_closed self.m_prototypes p_data)]
      else self.m_quantizationerror
    m_firstpatch := self.m_firstpatch }

/-- The object after the iterations `l` of the loop of `train`. -/
def loop_closed (tl : Tools T) (p_data : ublas.matrix T) (p_iterations : Nat)
    (p_lambda : T) (l : List Nat) (self : relational_neuralgas T) : relational_neuralgas T :=
  l.foldl (fun s i => iteration_closed tl p_data p_iterations p_lambda i s) self

/-- The object on which the loop of `train` starts: the logs are cleared when logging is on
(lines 265-270). -/
def train_start (self : relational_neuralgas T) : relational_neuralgas T :=
  if self.m_logging then { self with m_logprototypes := [], m_quantizationerror := [] } else self

/-- The conjunction of the conditions that `train` checks in lines 250-261. -/
def train_accepts (self : relational_neuralgas T) (p_data : ublas.matrix T)
    (p_iterations : Nat) (p_lambda : T) : Prop :=
  self.m_prototypes.size1 ≠ 0 ∧ self.m_prototypes.size1 ≤ p_data.size1 ∧ p_iterations ≠ 0 ∧
    p_data.size2 = self.m_prototypes.size2 ∧ 0 < p_lambda ∧ p_data.size1 = p_data.size2

/-- The index that `use` assigns to column `j` of the distances `A`. -/
def use_index (A : ublas.matrix T) (j : Nat) : Nat :=
  (tools.vector.rankIndex (ublas.column A j)).getD 0 0

/-- The prototypes after each of the iterations `l` of the loop of `train`, in order, starting
from the prototypes `P`. -/
def loop_prototypes (tl : Tools T) (p_data : ublas.matrix T) (p_iterations : Nat)
    (p_lambda : T) : List Nat → ublas.matrix T → List (ublas.matrix T)
  | [], _ => []
  | i :: is, P =>
    iteration_prototypes tl p_data p_iterations p_lambda i P ::
      loop_prototypes tl p_data p_iterations p_lambda is
        (iteration_prototypes tl p_data p_iterations p_lambda i P)

/-- The quantization errors of the matrices `l_adaptmatrix` of the iterations `l` of the loop
of `train`, in order, starting from the prototypes `P`. -/
def loop_errors (tl : Tools T) (p_data : ublas.matrix T) (p_iterations : Nat)
    (p_lambda : T) (self : relational_neuralgas T) : List Nat → ublas.matrix T → List T
  | [], _ => []
  | i :: is, P =>
    calculateQuantizationError self (adapt_closed P p_data) ::
      loop_errors tl p_data p_iterations p_lambda self is
        (iteration_prototypes tl p_data p_iterations p_lambda i P)

/-- Two rows of four entries each that are constant along every row. -/
def uniform_rows (P : ublas.matrix T) : Prop :=
  P.size1 = 2 ∧ P.size2 = 4 ∧ ∀ k, k < 2 → ∀ j, j < 4 → P.data k j = P.data k 0

/-- In the `2 x 4` matrix `A` row `a` is strictly smaller than row `b` in the columns 0 and 1,
and row `b` strictly smaller than row `a` in the columns 2 and 3. -/
def separates (A : ublas.matrix T) (a b : Nat) : Prop :=
  A.data a 0 < A.data b 0 ∧ A.data a 1 < A.data b 1 ∧
    A.data b 2 < A.data a 2 ∧ A.data b 3 < A.data a 3

/-- Two prototypes over four objects: prototype `a` weighs the objects 0 and 1 by `p` and the
objects 2 and 3 by `q < p`, prototype `b` the other way round. -/
def cluster_split (P : ublas.matrix T) (a b : Nat) : Prop :=
  P.size1 = 2 ∧ P.size2 = 4 ∧ ∃ p q, q < p ∧
    P.data a 0 = p ∧ P.data a 1 = p ∧ P.data a 2 = q ∧ P.data a 3 = q ∧
    P.data b 0 = q ∧ P.data b 1 = q ∧ P.data b 2 = p ∧ P.data b 3 = p

end relational_neuralgas

/-! ## The conversion of a matrix to a Java array (`swig/target/java/java.hpp`) -/

namespace ublas

/-- Condition `ublas::bad_index`: an element access outside the matrix
(`BOOST_UBLAS_CHECK (i < size1_, bad_index ())`). -/
inductive index_error where
  | bad_index
  deriving DecidableEq

/-- The element access `M(i, j)` with its bounds check. -/
def element {T : Type} (M : matrix T) (i j : Nat) : Except index_error T :=
  if i < M.size1 ∧ j < M.size2 then .ok (M.data i j) else .error .bad_index

end ublas

namespace convert

variable {T : Type} [LinearOrderedField T]

/-- The `enum rowtype` of the class `convert`. -/
inductive rowtype where
  | row
  | column
  deriving DecidableEq

/-- The inner loop of `getArrayFromMatrix`, in both cases of the `switch`: the array `l_col`
of `len` elements, element `j` built from `p_data(i, j)`, a numerically zero value replaced
by 0. An exception of the element access leaves the loop. -/
def getArrayFromMatrix_col (isNumericalZero : T → Bool) (p_data : ublas.matrix T)
    (i len : Nat) : Except ublas.index_error (List T) :=
  (List.range len).foldl
    (fun l_col j =>
      match l_col with
      | .error e => .error e
      | .ok l_col =>
        match ublas.element p_data i j with
        | .error e => .error e
        | .ok x => .ok (l_col ++ [if isNumericalZero x then 0 else x]))
    (.ok [])

/-- The outer loop of `getArrayFromMatrix`, in both cases of the `switch`: the array `l_row`
of `len1` arrays `l_col` of `len2` elements each. -/
def getArrayFromMatrix_row (isNumericalZero : T → Bool) (p_data : ublas.matrix T)
    (len1 len2 : Nat) : Except ublas.index_error (List (List T)) :=
  (List.range len1).foldl
    (fun l_row i =>
      match l_row with
      | .error e => .error e
      | .ok l_row =>
        match getArrayFromMatrix_col isNumericalZero p_data i len2 with
        | .error e => .error e
        | .ok l_col => .ok (l_row ++ [l_col]))
    (.ok [])

/-- Function `convert::getArrayFromMatrix` (lines 228-274 for `double`, 284-330 for `float`).
The Java array of arrays is a list of lists and `none` is the Java `null`. -/
def getArrayFromMatrix (isNumericalZero : T → Bool) (p_data : ublas.matrix T)
    (p_rowtype : rowtype) : Except ublas.index_error (Option (List (List T))) :=
  if p_data.size1 = 0 ∨ p_data.size2 = 0 then .ok none
  else
    match p_rowtype with
    | .row =>
      match getArrayFromMatrix_row isNumericalZero p_data p_data.size1 p_data.size2 with
      | .error e => .error e
      | .ok l_row => .ok (some l_row)
    | .column =>
      match getArrayFromMatrix_row isNumericalZero p_data p_data.size2 p_data.size1 with
      | .error e => .error e
      | .ok l_row => .ok (some l_row)

end convert

/-! ## Rescaled data -/

namespace ublas

/-- The product `c * M` of a number and a matrix. -/
def scale {T : Type} [LinearOrderedField T] (c : T) (M : matrix T) : matrix T :=
  ⟨M.size1, M.size2, fun i j => c * M.data i j⟩

/-- Two matrices have the same shape and the same entries. -/
def same_entries {T : Type} (A B : matrix T) : Prop :=
  A.size1 = B.size1 ∧ A.size2 = B.size2 ∧
    ∀ r c, r < A.size1 → c < A.size2 → A.data r c = B.data r c

end ublas

/-! ## The arithmetic of the number type with rounding

The functions of `relational_neuralgas.hpp` once more, with the arithmetic as the machine
performs it: `fl` is the rounding of the number type `T` and every sum, difference, product
and quotient is rounded. `std::exp` and `std::pow` return values of the number type. With the
identity for `fl` no operation is rounded. -/

namespace rounded

open relational_neuralgas

variable {T : Type} [LinearOrderedField T]

/-- The sum `ublas::sum(v)`: the entries are added to 0 one after the other. -/
def sum (fl : T → T) (v : List T) : T := v.foldl (fun t x => fl (t + x)) 0

/-- The inner product `ublas::inner_prod(a, b)`: the products of the entries are added to 0
one after the other. -/
def inner_prod (fl : T → T) (a b : List T) : T :=
  (List.zipWith (fun x y => fl (x * y)) a b).foldl (fun t x => fl (t + x)) 0

/-- The product `ublas::prod(A, B)` assigned to a matrix: the operands must fit; every entry is
an inner product of a row and a column. -/
def prod (fl : T → T) (A B : ublas.matrix T) : Except exception (ublas.matrix T) :=
  if A.size2 = B.size1 then
    .ok ⟨A.size1, B.size2, fun i j =>
      (List.range A.size2).foldl (fun t k => fl (t + fl (A.data i k * B.data k j))) 0⟩
  else .error .bad_argument

/-- The update `ublas::row(M, i) /= s`. -/
def row_div (fl : T → T) (M : ublas.matrix T) (i : Nat) (s : T) : ublas.matrix T :=
  { M with data := fun r c => if r = i ∧ c < M.size2 then fl (M.data r c / s) else M.data r c }

/-- Member `calculateQuantizationError` (lines 334-337). -/
def calculateQuantizationError (fl : T → T) (_self : relational_neuralgas T)
    (p_distance : ublas.matrix T) : T :=
  fl ((1 / 2) * sum fl (tools.matrix.min p_distance))

/-- Body of the loop over `n` in lines 286-291 of `train`. -/
def train_bias_row (fl : T → T) (m_prototypes l_adaptmatrix : ublas.matrix T) (n : Nat) :
    ublas.matrix T :=
  let l_val :=
    fl ((1 / 2) * inner_prod fl (ublas.row m_prototypes n) (ublas.row l_adaptmatrix n))
  (List.range l_adaptmatrix.size2).foldl
    (fun M j => ublas.assign M n j (fl (M.data n j - l_val))) l_adaptmatrix

/-- Lines 284-291 of `train`. -/
def train_adaptmatrix (fl : T → T) (m_prototypes p_data : ublas.matrix T) :
    Except exception (ublas.matrix T) :=
  match prod fl m_prototypes p_data with
  | .error e => .error e
  | .ok l_adaptmatrix =>
    .ok ((List.range l_adaptmatrix.size1).foldl
      (fun M n => train_bias_row fl m_prototypes M n) l_adaptmatrix)

/-- Body of the loop over `n` in lines 302-312 of `train`. -/
def train_rank_column (fl : T → T) (tl : Tools T) (l_lambda : T) (l_adaptmatrix : ublas.matrix T)
    (n : Nat) : ublas.matrix T :=
  let l_rank := ublas.column l_adaptmatrix n
  let l_rank := tl.rank l_rank
  let l_rank := l_rank.map fun p => tl.exp (fl (-p / l_lambda))
  ublas.assign_column l_adaptmatrix n l_rank

/-- Body of the loop over `i` in lines 316-321 of `train`. -/
def train_normalize_row (fl : T → T) (tl : Tools T) (m_prototypes : ublas.matrix T) (i : Nat) :
    ublas.matrix T :=
  let l_sum := sum fl (ublas.row m_prototypes i)
  if !tl.isNumericalZero l_sum then row_div fl m_prototypes i l_sum else m_prototypes

/-- The value `l_lambda` of iteration `i` (line 279), with `l_multi = 0.01 / p_lambda`
(line 274); the literal `0.01` is rounded to the number type. -/
def train_lambda (fl : T → T) (tl : Tools T) (p_iterations : Nat) (p_lambda : T) (i : Nat) : T :=
  let l_multi := fl (fl (1 / 100) / p_lambda)
  fl (p_lambda * tl.pow l_multi (fl ((i : T) / (p_iterations : T))))

/-- One pass of the loop of `train` (lines 276-326), iteration `i`. -/
def train_iteration (fl : T → T) (tl : Tools T) (p_data : ublas.matrix T) (p_iterations : Nat)
    (p_lambda : T) (i : Nat) (self : relational_neuralgas T) :
    Except exception Unit × relational_neuralgas T :=
  let l_lambda := train_lambda fl tl p_iterations p_lambda i
  match train_adaptmatrix fl self.m_prototypes p_data with
  | .error e => (.error e, self)
  | .ok l_adaptmatrix =>
    let self1 :=
      if self.m_logging then
        { self with m_quantizationerror :=
            self.m_quantizationerror ++ [calculateQuantizationError fl self l_adaptmatrix] }
      else self
    let l_adaptmatrix := (List.range l_adaptmatrix.size2).foldl
      (fun M n => train_rank_column fl tl l_lambda M n) l_adaptmatrix
    let self2 := { self1 with m_prototypes := l_adaptmatrix }
    let l_normalized := (List.range self2.m_prototypes.size1).foldl
      (fun M i => train_normalize_row fl tl M i) self2.m_prototypes
    let self3 := { self2 with m_prototypes := l_normalized }
    let self4 :=
      if self3.m_logging then
        { self3 with m_logprototypes := self3.m_logprototypes ++ [self3.m_prototypes] }
      else self3
    (.ok (), self4)

/-- The loop `for (i = 0; i < p_iterations; ++i)` of `train`, over the iterations still to
run; an exception leaves the loop. -/
def train_loop (fl : T → T) (tl : Tools T) (p_data : ublas.matrix T) (p_iterations : Nat)
    (p_lambda : T) : List Nat → relational_neuralgas T →
    Except exception Unit × relational_neuralgas T
  | [], self => (.ok (), self)
  | i :: is, self =>
    match train_iteration fl tl p_data p_iterations p_lambda i self with
    | (.ok (), self1) => train_loop fl tl p_data p_iterations p_lambda is self1
    | (.error e, self1) => (.error e, self1)

/-- Member `train(p_data, p_iterations, p_lambda)` (lines 248-327). -/
def train (fl : T → T) (tl : Tools T) (self : relational_neuralgas T) (p_data : ublas.matrix T)
    (p_iterations : Nat) (p_lambda : T) :
    Except exception Unit × relational_neuralgas T :=
  if self.m_prototypes.size1 = 0 then (.error .prototypes_zero, self)
  else if p_data.size1 < self.m_prototypes.size1 then (.error .datapoints_less, self)
  else if p_iterations = 0 then (.error .iterations_zero, self)
  else if p_data.size2 ≠ self.m_prototypes.size2 then (.error .dimension_not_equal, self)
  else if p_lambda ≤ 0 then (.error .lambda_not_positive, self)
  else if p_data.size1 ≠ p_data.size2 then (.error .matrix_not_square, self)
  else
    let self1 :=
      if self.m_logging then
        { self with m_logprototypes := [], m_quantizationerror := [] }
      else self
    train_loop fl tl p_data p_iterations p_lambda (List.range p_iterations) self1

/-- Body of the loop over `i` in lines 129-134 of the constructor. -/
def construct_normalize_row (fl : T → T) (tl : Tools T) (m_prototypes : ublas.matrix T)
    (i : Nat) : ublas.matrix T :=
  let l_sum := sum fl (ublas.row m_prototypes i)
  if !tl.isNumericalZero l_sum then row_div fl m_prototypes i l_sum else m_prototypes

/-- The constructor `relational_neuralgas(p_prototypes, p_prototypesize)` (lines 117-135). -/
def construct (fl : T → T) (tl : Tools T) (values : Nat → Nat → T)
    (p_prototypes p_prototypesize : Nat) : Except exception (relational_neuralgas T) :=
  let m_prototypes := tools.matrix.random values p_prototypes p_prototypesize
  if p_prototypesize = 0 then .error .prototype_size_zero
  else
    let l_normalized := (List.range m_prototypes.size1).foldl
      (fun M i => construct_normalize_row fl tl M i) m_prototypes
    .ok { m_prototypes := l_normalized
          m_logging := false
          m_logprototypes := []
          m_quantizationerror := []
          m_firstpatch := true }

/-! ### Closed forms of the loops -/

/-- The helpers with `exp` applied to the rounded argument. -/
def exp_tools (fl : T → T) (tl : Tools T) : Tools T :=
  ⟨tl.isNumericalZero, tl.rank, fun x => tl.exp (fl x), tl.pow⟩

/-- The product of `P` and `D` entry by entry. -/
def prod_data (fl : T → T) (P D : ublas.matrix T) (i j : Nat) : T :=
  (List.range P.size2).foldl (fun t k => fl (t + fl (P.data i k * D.data k j))) 0

/-- The bias value of row `n` (line 287). -/
def bias_val (fl : T → T) (P A : ublas.matrix T) (n : Nat) : T :=
  fl ((1 / 2) * inner_prod fl (ublas.row P n) (ublas.row A n))

/-- The matrix that lines 284-291 build, entry by entry. -/
def adapt_data (fl : T → T) (P D : ublas.matrix T) (r c : Nat) : T :=
  fl (prod_data fl P D r c - bias_val fl P ⟨P.size1, D.size2, prod_data fl P D⟩ r)

/-- The matrix `l_adaptmatrix` after lines 284-291. -/
def adapt_closed (fl : T → T) (P D : ublas.matrix T) : ublas.matrix T :=
  ⟨P.size1, D.size2, fun r c =>
    if r < P.size1 ∧ c < D.size2 then adapt_data fl P D r c else prod_data fl P D r c⟩

/-- The entry that the normalisation loop leaves at `(r, c)` of `A`. -/
def normalized_data (fl : T → T) (tl : Tools T) (A : ublas.matrix T) (r c : Nat) : T :=
  if tl.isNumericalZero (sum fl (ublas.row A r)) then A.data r c
  else fl (A.data r c / sum fl (ublas.row A r))

/-- The matrix `m_prototypes` after the normalisation loop (lines 316-321). -/
def normalize_closed (fl : T → T) (tl : Tools T) (A : ublas.matrix T) : ublas.matrix T :=
  ⟨A.size1, A.size2, fun r c =>
    if r < A.size1 ∧ c < A.size2 then normalized_data fl tl A r c else A.data r c⟩

/-- The prototypes that iteration `i` of `train` leaves. -/
def iteration_prototypes (fl : T → T) (tl : Tools T) (p_data : ublas.matrix T)
    (p_iterations : Nat) (p_lambda : T) (i : Nat) (P : ublas.matrix T) : ublas.matrix T :=
  normalize_closed fl tl
    (rank_closed (exp_tools fl tl) (train_lambda fl tl p_iterations p_lambda i)
      (adapt_closed fl P p_data))

/-- The object that iteration `i` of `train` leaves. -/
def iteration_closed (fl : T → T) (tl : Tools T) (p_data : ublas.matrix T) (p_iterations : Nat)
    (p_lambda : T) (i : Nat) (self : relational_neuralgas T) : relational_neuralgas T :=
  { m_prototypes := iteration_prototypes fl tl p_data p_iterations p_lambda i self.m_prototypes
    m_logging := self.m_logging
    m_logprototypes :=
      if self.m_logging then
        self.m_logprototypes ++
          [iteration_prototypes fl tl p_data p_iterations p_lambda i self.m_prototypes]
      else self.m_logprototypes
    m_quantizationerror :=
      if self.m_logging then
        self.m_quantizationerror ++
          [calculateQuantizationError fl self (adapt_closed fl self.m_prototypes p_data)]
      else self.m_quantizationerror
    m_firstpatch := self.m_firstpatch }

/-- The object after the iterations `l` of the loop of `train`. -/
def loop_closed (fl : T → T) (tl : Tools T) (p_data : ublas.matrix T) (p_iterations : Nat)
    (p_lambda : T) (l : List Nat) (self : relational_neuralgas T) : relational_neuralgas T :=
  l.foldl (fun s i => iteration_closed fl tl p_data p_iterations p_lambda i s) self

/-! ### Tolerances of the sum of a normalised row -/

/-- The bound on the distance from 1 of the sum of a row of `N` entries that the
normalisation loop has divided by its computed sum: `u` and `eta` bound the relative and the
absolute error of a rounding, `tau` is a lower bound of the sums that are not numerically
zero. The bound is 0 for `u = eta = 0`. -/
def row_sum_tolerance (u eta tau : T) (N : Nat) : T :=
  2 * (u + ((1 + u) ^ N - 1)) * (1 + N * (1 + u) ^ N * eta / tau) + N * eta +
    N * (1 + u) ^ N * eta / tau

/-- The distance from 1 that the analysis of the roundings allows to the sum, as the machine
computes it, of a row of `N` entries that was divided by its computed sum. -/
def computed_sum_tolerance (u eta tau : T) (N : Nat) : T :=
  ((1 + u) ^ N - 1) * (1 + row_sum_tolerance u eta tau N) + N * (1 + u) ^ N * eta +
    row_sum_tolerance u eta tau N

end rounded

/-! ## The rounding of `double` -/

namespace binary64

variable {T : Type} [LinearOrderedField T] [FloorRing T]

/-- The integer nearest to `q`; the even one of the two nearest when `q` lies half way
between them. -/
def nearest_even (q : T) : ℤ :=
  if q - ⌊q⌋ < 1 / 2 then ⌊q⌋
  else if 1 / 2 < q - ⌊q⌋ then ⌊q⌋ + 1
  else if ⌊q⌋ % 2 = 0 then ⌊q⌋ else ⌊q⌋ + 1

/-- The exponent of the unit in the last place of the `double` values around `x`: 53
significant bits, and `-1074` in the subnormal range. -/
def ulp_exponent (x : T) : ℤ := max (Int.log 2 |x|) (-1022) - 52

/-- The `double` nearest to `x` (IEEE 754 binary64, round to nearest, ties to even), the
result of every arithmetic operation of the number type `double`. Overflow is not modelled. -/
def round_nearest (x : T) : T := (nearest_even (x / 2 ^ ulp_exponent x) : T) * 2 ^ ulp_exponent x

end binary64

/-! ## The training step as the specification words it -/

namespace spec
variable {T : Type} [LinearOrderedField T]

/-- Entry `(k, j)` of the product `alpha * D`. -/
def product (alpha D : ublas.matrix T) (k j : Nat) : T :=
  Finset.sum (Finset.range alpha.size2) fun m => alpha.data k m * D.data m j

/-- The bias of row `n`: `0.5 * <alpha[n], (alpha * D)[n]>`. -/
def bias (alpha D : ublas.matrix T) (n : Nat) : T :=
  (1 / 2) * Finset.sum (Finset.range alpha.size2) fun j => alpha.data n j * product alpha D n j

/-- Entry `(k, j)` of the bias-corrected adaptation matrix `A`. -/
def adaptation (alpha D : ublas.matrix T) (k j : Nat) : T :=
  product alpha D k j - bias alpha D k

end spec

/-! ## Concrete inputs -/

namespace example_input

/-- The matrix with the given rows. -/
def ofRows {T : Type} [Zero T] (l : List (List T)) : ublas.matrix T :=
  ⟨l.length, (l.headD []).length, fun i j => (l.getD i []).getD j 0⟩

/-- Squared distances of the three points `0`, `1`, `2` of the line. -/
def line_data (T : Type) [LinearOrderedField T] : ublas.matrix T :=
  ofRows [[0, 1, 4], [1, 0, 1], [4, 1, 0]]

/-- Three prototypes over the three points: the points `0` and `1`, and the point half way
between them. -/
def line_prototypes (T : Type) [LinearOrderedField T] : ublas.matrix T :=
  ofRows [[1, 0, 0], [0, 1, 0], [1 / 2, 1 / 2, 0]]

/-- An object with the prototypes `line_prototypes`, logging off. -/
def line_object (T : Type) [LinearOrderedField T] : relational_neuralgas T :=
  ⟨line_prototypes T, false, [], [], true⟩

/-- An object with the prototypes `line_prototypes`, logging on and logs of an earlier run. -/
def logged_object (T : Type) [LinearOrderedField T] : relational_neuralgas T :=
  ⟨line_prototypes T, true, [line_prototypes T], [1], true⟩

/-- One prototype over two objects. -/
def pair_object (T : Type) [LinearOrderedField T] : relational_neuralgas T :=
  ⟨ofRows [[1 / 2, 1 / 2]], false, [], [], true⟩

/-- Data with three rows and two columns. -/
def tall_data (T : Type) [LinearOrderedField T] : ublas.matrix T :=
  ofRows [[0, 1], [1, 0], [2, 2]]

/-- Data with one row and two columns. -/
def flat_data (T : Type) [LinearOrderedField T] : ublas.matrix T :=
  ofRows [[0, 1]]

/-- The scenario of the spec (section 8): four objects in two tight clusters `{0, 1}` and
`{2, 3}`, distance `0.1` inside a cluster and `5` across. -/
def cluster_data (T : Type) [LinearOrderedField T] : ublas.matrix T :=
  ofRows [[0, 1 / 10, 5, 5], [1 / 10, 0, 5, 5], [5, 5, 0, 1 / 10], [5, 5, 1 / 10, 0]]

/-- Two prototypes over the four objects of `cluster_data`: object 0 and object 2. -/
def cluster_object (T : Type) [LinearOrderedField T] : relational_neuralgas T :=
  ⟨ofRows [[1, 0, 0, 0], [0, 0, 1, 0]], false, [], [], true⟩

/-- Squared distances of the three points `0`, `3`, `-3` of the line. -/
def spread_data (T : Type) [LinearOrderedField T] : ublas.matrix T :=
  ofRows [[0, 9, 9], [9, 0, 36], [9, 36, 0]]

/-- Two prototypes over the three points of `spread_data`: the point half way between the
first two (at `3/2`) and the point half way between the last two (at `0`). -/
def spread_object (T : Type) [LinearOrderedField T] : relational_neuralgas T :=
  ⟨ofRows [[1 / 2, 1 / 2, 0], [0, 1 / 2, 1 / 2]], false, [], [], true⟩

/-- An object without prototypes, of prototype size 3. -/
def empty_object (T : Type) [LinearOrderedField T] : relational_neuralgas T :=
  ⟨⟨0, 3, fun _ _ => 0⟩, false, [], [], true⟩

/-- A square matrix that is not symmetric. -/
def square_matrix (T : Type) [LinearOrderedField T] : ublas.matrix T :=
  ofRows [[1, 2], [3, 4]]

/-- One row of ten random values that are all 1. -/
def ten_ones (T : Type) [LinearOrderedField T] : ublas.matrix T :=
  ⟨1, 10, fun _ _ => 1⟩

/-- Data of two objects at distance 1. -/
def two_data (T : Type) [LinearOrderedField T] : ublas.matrix T :=
  ofRows [[0, 1], [1, 0]]

/-- Two prototypes over two objects, logging off. -/
def two_object (T : Type) [LinearOrderedField T] : relational_neuralgas T :=
  ⟨ofRows [[1, 0], [1 / 2, 1 / 2]], false, [], [], true⟩

/-- One row of two ones. -/
def pair_ones (T : Type) [LinearOrderedField T] : ublas.matrix T :=
  ⟨1, 2, fun _ _ => 1⟩

end example_input

/-! ## The loops of `train` compute their closed forms -/

namespace relational_neuralgas

section lemmas

variable {T : Type}

/-- A loop over `0..k-1` on a matrix `A` whose step `n` rewrites exactly the entries selected by
`sel n`, computing them from entries that the earlier steps left alone. -/
theorem foldl_range_data (A : ublas.matrix T) (f : ublas.matrix T → Nat → ublas.matrix T)
    (sel : Nat → Nat → Nat → Prop) [∀ n r c, Decidable (sel n r c)]
    (g : ublas.matrix T → Nat → Nat → T)
    (hs1 : ∀ M n, (f M n).size1 = M.size1) (hs2 : ∀ M n, (f M n).size2 = M.size2)
    (hf : ∀ M n r c, M.size1 = A.size1 → M.size2 = A.size2 →
      (f M n).data r c = if sel n r c then g M r c else M.data r c)
    (hg : ∀ (M : ublas.matrix T) (n r c : Nat), M.size1 = A.size1 → M.size2 = A.size2 →
      (∀ r' c', (¬ ∃ m, m < n ∧ sel m r' c') → M.data r' c' = A.data r' c') →
      sel n r c → g M r c = g A r c)
    (k : Nat) :
    ((List.range k).foldl f A).size1 = A.size1 ∧
    ((List.range k).foldl f A).size2 = A.size2 ∧
    ∀ r c, ((List.range k).foldl f A).data r c =
      if ∃ n, n < k ∧ sel n r c then g A r c else A.data r c := by
  induction k with
  | zero => simp
  | succ k ih =>
    obtain ⟨h1, h2, h3⟩ := ih
    rw [List.range_succ, List.foldl_append]
    simp only [List.foldl_cons, List.foldl_nil]
    refine ⟨by rw [hs1, h1], by rw [hs2, h2], ?_⟩
    intro r c
    rw [hf _ _ _ _ h1 h2]
    by_cases hk : sel k r c
    · have hex : ∃ n, n < k + 1 ∧ sel n r c := ⟨k, Nat.lt_succ_self k, hk⟩
      rw [if_pos hk, if_pos hex]
      apply hg _ k r c h1 h2 _ hk
      intro r' c' hno
      rw [h3, if_neg hno]
    · rw [if_neg hk, h3]
      by_cases hex : ∃ n, n < k ∧ sel n r c
      · obtain ⟨n, hn, hsn⟩ := hex
        rw [if_pos ⟨n, hn, hsn⟩, if_pos ⟨n, Nat.lt_succ_of_lt hn, hsn⟩]
      · rw [if_neg hex, if_neg]
        rintro ⟨n, hn, hsn⟩
        rcases Nat.lt_succ_iff_lt_or_eq.mp hn with h | h
        · exact hex ⟨n, h, hsn⟩
        · exact hk (h ▸ hsn)

theorem row_congr (M A : ublas.matrix T) (r : Nat) (h2 : M.size2 = A.size2)
    (h : ∀ c, M.data r c = A.data r c) : ublas.row M r = ublas.row A r := by
  unfold ublas.row
  rw [h2]
  exact List.map_congr_left fun c _ => h c

theorem column_congr (M A : ublas.matrix T) (c : Nat) (h1 : M.size1 = A.size1)
    (h : ∀ r, M.data r c = A.data r c) : ublas.column M c = ublas.column A c := by
  unfold ublas.column
  rw [h1]
  exact List.map_congr_left fun r _ => h r

theorem matrix_ext (A B : ublas.matrix T) (h1 : A.size1 = B.size1) (h2 : A.size2 = B.size2)
    (h : ∀ r c, A.data r c = B.data r c) : A = B := by
  cases A
  cases B
  simp only at h1 h2 h
  subst h1
  subst h2
  congr
  funext r c
  exact h r c

theorem train_start_prototypes (self : relational_neuralgas T) :
    (train_start self).m_prototypes = self.m_prototypes := by
  unfold train_start
  split <;> rfl

theorem train_start_logging (self : relational_neuralgas T) :
    (train_start self).m_logging = self.m_logging := by
  unfold train_start
  split <;> rfl

theorem train_start_logs_on (self : relational_neuralgas T) (h : self.m_logging = true) :
    (train_start self).m_logprototypes = [] ∧ (train_start self).m_quantizationerror = [] := by
  unfold train_start
  rw [if_pos h]
  exact ⟨rfl, rfl⟩

theorem train_start_off (self : relational_neuralgas T) (h : self.m_logging = false) :
    train_start self = self := by
  unfold train_start
  rw [if_neg (by rw [h]; exact Bool.false_ne_true)]

theorem column_of_two_rows (A : ublas.matrix T) (hA : A.size1 = 2) (c : Nat) :
    ublas.column A c = [A.data 0 c, A.data 1 c] := by
  simp [ublas.column, hA, List.range_succ]

/-- The row of a matrix with four columns. -/
theorem row_of_four_columns (A : ublas.matrix T) (hA : A.size2 = 4) (r : Nat) :
    ublas.row A r = [A.data r 0, A.data r 1, A.data r 2, A.data r 3] := by
  simp [ublas.row, hA, List.range_succ]

/-- A row depends only on the entries inside the matrix. -/
theorem row_congr_within (M A : ublas.matrix T) (r : Nat) (h2 : M.size2 = A.size2)
    (h : ∀ c, c < A.size2 → M.data r c = A.data r c) : ublas.row M r = ublas.row A r := by
  unfold ublas.row
  rw [h2]
  apply List.map_congr_left
  intro c hc
  exact h c (List.mem_range.mp hc)

/-- A column depends only on the entries inside the matrix. -/
theorem column_congr_within (M A : ublas.matrix T) (c : Nat) (h1 : M.size1 = A.size1)
    (h : ∀ r, r < A.size1 → M.data r c = A.data r c) :
    ublas.column M c = ublas.column A c := by
  unfold ublas.column
  rw [h1]
  apply List.map_congr_left
  intro r hr
  exact h r (List.mem_range.mp hr)

/-- A list is the list of its entries. -/
theorem map_getD_range (l : List T) (d : T) :
    (List.range l.length).map (fun r => l.getD r d) = l := by
  apply List.ext_getElem
  · simp
  · intro n h1 h2
    simp [List.getD_eq_getElem?_getD, List.getElem?_eq_getElem h2]

variable [LinearOrderedField T]

theorem train_bias_row_spec (P A : ublas.matrix T) (n : Nat) :
    (train_bias_row P A n).size1 = A.size1 ∧ (train_bias_row P A n).size2 = A.size2 ∧
    ∀ r c, (train_bias_row P A n).data r c =
      if r = n ∧ c < A.size2 then A.data r c - bias_val P A n else A.data r c := by
  have h := foldl_range_data A
    (fun M j => ublas.assign M n j (M.data n j - bias_val P A n))
    (fun j r c => r = n ∧ c = j) (fun M r c => M.data r c - bias_val P A n)
    (fun _ _ => rfl) (fun _ _ => rfl)
    (by
      intro M j r c _ _
      simp only [ublas.assign]
      by_cases h : r = n ∧ c = j
      · rw [if_pos h, if_pos h, h.1, h.2]
      · rw [if_neg h, if_neg h])
    (by
      intro M j r c _ _ hM hs
      simp only
      rw [hM r c]
      rintro ⟨m, hm, _, hc⟩
      omega)
    A.size2
  obtain ⟨h1, h2, h3⟩ := h
  refine ⟨h1, h2, ?_⟩
  intro r c
  have := h3 r c
  simp only [train_bias_row, bias_val] at this ⊢
  rw [this]
  by_cases hc : r = n ∧ c < A.size2
  · rw [if_pos hc, if_pos ⟨c, hc.2, hc.1, rfl⟩]
  · rw [if_neg hc, if_neg]
    rintro ⟨m, hm, hr, rfl⟩
    exact hc ⟨hr, hm⟩

theorem prod_ok (P D : ublas.matrix T) (h : P.size2 = D.size1) :
    ublas.prod P D = .ok ⟨P.size1, D.size2, prod_data P D⟩ := by
  unfold ublas.prod
  rw [if_pos h]
  rfl

theorem prod_error (P D : ublas.matrix T) (h : P.size2 ≠ D.size1) :
    ublas.prod P D = .error .bad_argument := by
  unfold ublas.prod
  rw [if_neg h]

theorem train_adaptmatrix_spec (P D : ublas.matrix T) (h : P.size2 = D.size1) :
    ∃ A, train_adaptmatrix P D = .ok A ∧ A.size1 = P.size1 ∧ A.size2 = D.size2 ∧
      ∀ r c, A.data r c =
        if r < P.size1 ∧ c < D.size2 then adapt_data P D r c else prod_data P D r c := by
  have hl := foldl_range_data (⟨P.size1, D.size2, prod_data P D⟩ : ublas.matrix T)
    (fun M n => train_bias_row P M n)
    (fun n r c => r = n ∧ c < D.size2)
    (fun M r c => M.data r c - bias_val P M r)
    (fun M n => (train_bias_row_spec P M n).1) (fun M n => (train_bias_row_spec P M n).2.1)
    (by
      intro M n r c _ h2
      rw [(train_bias_row_spec P M n).2.2 r c, h2]
      by_cases hc : r = n ∧ c < D.size2
      · rw [if_pos hc, if_pos hc, hc.1]
      · rw [if_neg hc, if_neg hc])
    (by
      intro M n r c _ h2 hM hs
      have hrow : ublas.row M r = ublas.row ⟨P.size1, D.size2, prod_data P D⟩ r := by
        apply row_congr _ _ _ h2
        intro c'
        apply hM
        rintro ⟨m, hm, hr, _⟩
        omega
      have hrc : M.data r c = prod_data P D r c := by
        apply hM
        rintro ⟨m, hm, hr, _⟩
        omega
      simp only [bias_val, hrow, hrc])
    P.size1
  obtain ⟨h1, h2, h3⟩ := hl
  refine ⟨_, ?_, h1, h2, ?_⟩
  · unfold train_adaptmatrix
    rw [prod_ok P D h]
  · intro r c
    rw [h3]
    by_cases hc : r < P.size1 ∧ c < D.size2
    · rw [if_pos hc, if_pos ⟨r, hc.1, rfl, hc.2⟩]
      rfl
    · rw [if_neg hc, if_neg]
      rintro ⟨m, hm, hr, hc2⟩
      exact hc ⟨hr ▸ hm, hc2⟩

theorem train_rank_loop_spec (tl : Tools T) (l_lambda : T) (A : ublas.matrix T) :
    ((List.range A.size2).foldl (fun M n => train_rank_column tl l_lambda M n) A).size1 = A.size1 ∧
    ((List.range A.size2).foldl (fun M n => train_rank_column tl l_lambda M n) A).size2 = A.size2 ∧
    ∀ r c, ((List.range A.size2).foldl (fun M n => train_rank_column tl l_lambda M n) A).data r c =
      if r < A.size1 ∧ c < A.size2 then rank_weight tl l_lambda A r c else A.data r c := by
  have hl := foldl_range_data A (fun M n => train_rank_column tl l_lambda M n)
    (fun n r c => c = n ∧ r < A.size1)
    (fun M r c => rank_weight tl l_lambda M r c)
    (fun _ _ => rfl) (fun _ _ => rfl)
    (by
      intro M n r c h1 _
      simp only [train_rank_column, ublas.assign_column, rank_weight, h1]
      by_cases hc : c = n ∧ r < A.size1
      · rw [if_pos hc, if_pos hc, hc.1]
      · rw [if_neg hc, if_neg hc])
    (by
      intro M n r c h1 _ hM hs
      have hcol : ublas.column M c = ublas.column A c := by
        apply column_congr _ _ _ h1
        intro r'
        apply hM
        rintro ⟨m, hm, hc, _⟩
        omega
      simp only [rank_weight, hcol])
    A.size2
  obtain ⟨h1, h2, h3⟩ := hl
  refine ⟨h1, h2, ?_⟩
  intro r c
  rw [h3]
  by_cases hc : r < A.size1 ∧ c < A.size2
  · rw [if_pos hc, if_pos ⟨c, hc.2, rfl, hc.1⟩]
  · rw [if_neg hc, if_neg]
    rintro ⟨m, hm, hr, hc2⟩
    exact hc ⟨hc2, hr ▸ hm⟩

theorem train_normalize_loop_spec (tl : Tools T) (A : ublas.matrix T) :
    ((List.range A.size1).foldl (fun M i => train_normalize_row tl M i) A).size1 = A.size1 ∧
    ((List.range A.size1).foldl (fun M i => train_normalize_row tl M i) A).size2 = A.size2 ∧
    ∀ r c, ((List.range A.size1).foldl (fun M i => train_normalize_row tl M i) A).data r c =
      if r < A.size1 ∧ c < A.size2 then normalized_data tl A r c else A.data r c := by
  have hf1 : ∀ (M : ublas.matrix T) n, (train_normalize_row tl M n).size1 = M.size1 := by
    intro M n
    unfold train_normalize_row
    simp only
    split <;> rfl
  have hf2 : ∀ (M : ublas.matrix T) n, (train_normalize_row tl M n).size2 = M.size2 := by
    intro M n
    unfold train_normalize_row
    simp only
    split <;> rfl
  have hl := foldl_range_data A (fun M i => train_normalize_row tl M i)
    (fun n r c => r = n ∧ c < A.size2)
    (fun M r c => normalized_data tl M r c) hf1 hf2
    (by
      intro M n r c _ h2
      simp only [train_normalize_row, normalized_data]
      by_cases hc : r = n ∧ c < A.size2
      · rw [if_pos hc, hc.1]
        cases hz : tl.isNumericalZero (ublas.sum (ublas.row M n))
        · simp [ublas.row_div, h2, hc.2]
        · simp
      · rw [if_neg hc]
        cases hz : tl.isNumericalZero (ublas.sum (ublas.row M n))
        · simp only [Bool.not_false, if_true, ublas.row_div, h2]
          rw [if_neg hc]
        · simp)
    (by
      intro M n r c _ h2 hM hs
      have hrow : ublas.row M r = ublas.row A r := by
        apply row_congr _ _ _ h2
        intro c'
        apply hM
        rintro ⟨m, hm, hr, _⟩
        omega
      have hrc : M.data r c = A.data r c := by
        apply hM
        rintro ⟨m, hm, hr, _⟩
        omega
      simp only [normalized_data, hrow, hrc])
    A.size1
  obtain ⟨h1, h2, h3⟩ := hl
  refine ⟨h1, h2, ?_⟩
  intro r c
  rw [h3]
  by_cases hc : r < A.size1 ∧ c < A.size2
  · rw [if_pos hc, if_pos ⟨r, hc.1, rfl, hc.2⟩]
  · rw [if_neg hc, if_neg]
    rintro ⟨m, hm, hr, hc2⟩
    exact hc ⟨hr ▸ hm, hc2⟩

theorem train_adaptmatrix_eq (P D : ublas.matrix T) (h : P.size2 = D.size1) :
    train_adaptmatrix P D = .ok (adapt_closed P D) := by
  obtain ⟨A, hA, h1, h2, h3⟩ := train_adaptmatrix_spec P D h
  rw [hA]
  congr 1
  exact matrix_ext _ _ h1 h2 h3

theorem train_rank_loop_eq (tl : Tools T) (l_lambda : T) (A : ublas.matrix T) :
    (List.range A.size2).foldl (fun M n => train_rank_column tl l_lambda M n) A =
      rank_closed tl l_lambda A := by
  obtain ⟨h1, h2, h3⟩ := train_rank_loop_spec tl l_lambda A
  exact matrix_ext _ _ h1 h2 h3

theorem train_normalize_loop_eq (tl : Tools T) (A : ublas.matrix T) :
    (List.range A.size1).foldl (fun M i => train_normalize_row tl M i) A =
      normalize_closed tl A := by
  obtain ⟨h1, h2, h3⟩ := train_normalize_loop_spec tl A
  exact matrix_ext _ _ h1 h2 h3

theorem train_iteration_eq (tl : Tools T) (p_data : ublas.matrix T) (p_iterations : Nat)
    (p_lambda : T) (i : Nat) (self : relational_neuralgas T)
    (h : self.m_prototypes.size2 = p_data.size1) :
    train_iteration tl p_data p_iterations p_lambda i self =
      (.ok (), iteration_closed tl p_data p_iterations p_lambda i self) := by
  unfold train_iteration
  rw [train_adaptmatrix_eq _ _ h]
  simp only
  rw [train_rank_loop_eq, train_normalize_loop_eq]
  cases hl : self.m_logging <;> simp [iteration_closed, iteration_prototypes, hl]

theorem iteration_closed_size1 (tl : Tools T) (D : ublas.matrix T) (n : Nat) (lam : T) (i : Nat)
    (self : relational_neuralgas T) :
    (iteration_closed tl D n lam i self).m_prototypes.size1 = self.m_prototypes.size1 := rfl

theorem iteration_closed_size2 (tl : Tools T) (D : ublas.matrix T) (n : Nat) (lam : T) (i : Nat)
    (self : relational_neuralgas T) :
    (iteration_closed tl D n lam i self).m_prototypes.size2 = D.size2 := rfl

theorem loop_closed_size1 (tl : Tools T) (D : ublas.matrix T) (n : Nat) (lam : T) (l : List Nat)
    (self : relational_neuralgas T) :
    (loop_closed tl D n lam l self).m_prototypes.size1 = self.m_prototypes.size1 := by
  induction l generalizing self with
  | nil => rfl
  | cons i is ih =>
    simp only [loop_closed, List.foldl_cons] at ih ⊢
    rw [ih, iteration_closed_size1]

theorem loop_closed_size2 (tl : Tools T) (D : ublas.matrix T) (n : Nat) (lam : T) (l : List Nat)
    (self : relational_neuralgas T) (h : self.m_prototypes.size2 = D.size2) :
    (loop_closed tl D n lam l self).m_prototypes.size2 = D.size2 := by
  induction l generalizing self with
  | nil => exact h
  | cons i is ih =>
    simp only [loop_closed, List.foldl_cons] at ih ⊢
    exact ih _ (iteration_closed_size2 tl D n lam i self)

theorem train_loop_eq (tl : Tools T) (D : ublas.matrix T) (n : Nat) (lam : T)
    (hsq : D.size1 = D.size2) (l : List Nat) (self : relational_neuralgas T)
    (h : self.m_prototypes.size2 = D.size1) :
    train_loop tl D n lam l self = (.ok (), loop_closed tl D n lam l self) := by
  induction l generalizing self with
  | nil => rfl
  | cons i is ih =>
    rw [train_loop, train_iteration_eq tl D n lam i self h]
    simp only
    rw [ih _ (by rw [iteration_closed_size2, hsq])]
    rfl

theorem train_eq (tl : Tools T) (self : relational_neuralgas T) (D : ublas.matrix T) (n : Nat)
    (lam : T) (h : train_accepts self D n lam) :
    train tl self D n lam =
      (.ok (), loop_closed tl D n lam (List.range n) (train_start self)) := by
  obtain ⟨h1, h2, h3, h4, h5, h6⟩ := h
  unfold train
  rw [if_neg h1, if_neg (Nat.not_lt.mpr h2), if_neg h3, if_neg (not_not.mpr h4),
    if_neg (not_le.mpr h5), if_neg (not_not.mpr h6)]
  have hs : (train_start self).m_prototypes.size2 = D.size1 := by
    rw [train_start_prototypes, ← h4, h6]
  exact train_loop_eq tl D n lam h6 _ (train_start self) hs

theorem train_error_of_not_accepts (tl : Tools T) (self : relational_neuralgas T)
    (D : ublas.matrix T) (n : Nat) (lam : T) (h : ¬ train_accepts self D n lam) :
    (∃ e, (train tl self D n lam).1 = .error e) ∧ (train tl self D n lam).2 = self := by
  unfold train
  by_cases h1 : self.m_prototypes.size1 = 0
  · rw [if_pos h1]; exact ⟨⟨_, rfl⟩, rfl⟩
  rw [if_neg h1]
  by_cases h2 : D.size1 < self.m_prototypes.size1
  · rw [if_pos h2]; exact ⟨⟨_, rfl⟩, rfl⟩
  rw [if_neg h2]
  by_cases h3 : n = 0
  · rw [if_pos h3]; exact ⟨⟨_, rfl⟩, rfl⟩
  rw [if_neg h3]
  by_cases h4 : D.size2 ≠ self.m_prototypes.size2
  · rw [if_pos h4]; exact ⟨⟨_, rfl⟩, rfl⟩
  rw [if_neg h4]
  by_cases h5 : lam ≤ 0
  · rw [if_pos h5]; exact ⟨⟨_, rfl⟩, rfl⟩
  rw [if_neg h5]
  by_cases h6 : D.size1 ≠ D.size2
  · rw [if_pos h6]; exact ⟨⟨_, rfl⟩, rfl⟩
  exact absurd ⟨h1, Nat.not_lt.mp h2, h3, not_not.mp h4, not_le.mp h5, not_not.mp h6⟩ h

theorem not_train_accepts_iff (self : relational_neuralgas T) (D : ublas.matrix T) (n : Nat)
    (lam : T) :
    ¬ train_accepts self D n lam ↔
      (self.m_prototypes.size1 = 0 ∨ D.size1 < self.m_prototypes.size1 ∨ n = 0 ∨
        D.size2 ≠ self.m_prototypes.size2 ∨ lam ≤ 0 ∨ D.size1 ≠ D.size2) := by
  unfold train_accepts
  constructor
  · intro h
    by_contra hc
    push_neg at hc
    exact h ⟨hc.1, hc.2.1, hc.2.2.1, hc.2.2.2.1, hc.2.2.2.2.1, hc.2.2.2.2.2⟩
  · rintro h ⟨h1, h2, h3, h4, h5, h6⟩
    rcases h with h | h | h | h | h | h
    · exact h1 h
    · omega
    · exact h3 h
    · exact h h4
    · exact absurd h5 (not_lt.mpr h)
    · exact h h6


/-- A row of the prototypes after the normalisation loop: it sums to one, or its sum was
numerically zero and the row was left as it was. -/
theorem sum_row_normalize_closed (tl : Tools T) (hz : tl.isNumericalZero 0 = true)
    (W : ublas.matrix T) (r : Nat) (hr : r < W.size1) :
    ublas.sum (ublas.row (normalize_closed tl W) r) = 1 ∨
      (tl.isNumericalZero (ublas.sum (ublas.row W r)) = true ∧
        ublas.row (normalize_closed tl W) r = ublas.row W r) := by
  have hrow : ublas.row (normalize_closed tl W) r =
      (List.range W.size2).map fun c => normalized_data tl W r c := by
    unfold ublas.row normalize_closed
    apply List.map_congr_left
    intro c hc
    simp only
    rw [if_pos ⟨hr, List.mem_range.mp hc⟩]
  cases hnz : tl.isNumericalZero (ublas.sum (ublas.row W r))
  · left
    have hs : ublas.sum (ublas.row W r) ≠ 0 := by
      intro h0
      rw [h0, hz] at hnz
      exact Bool.noConfusion hnz
    rw [hrow]
    simp only [normalized_data, hnz, Bool.false_eq_true, if_false]
    simp only [ublas.sum, div_eq_mul_inv] at hs ⊢
    rw [List.sum_map_mul_right]
    exact mul_inv_cancel₀ hs
  · right
    refine ⟨rfl, ?_⟩
    rw [hrow]
    simp only [normalized_data, hnz, if_true]
    rfl

theorem range_one_eq : List.range 1 = [0] := rfl

theorem loop_closed_range_one (tl : Tools T) (D : ublas.matrix T) (n : Nat) (lam : T)
    (self : relational_neuralgas T) :
    (loop_closed tl D n lam (List.range 1) self).m_prototypes =
      iteration_prototypes tl D n lam 0 self.m_prototypes := rfl

theorem list_sum_map_range (f : Nat → T) (n : Nat) :
    ((List.range n).map f).sum = Finset.sum (Finset.range n) f := by
  induction n with
  | zero => simp
  | succ n ih => rw [List.range_succ, List.map_append, List.sum_append, ih, Finset.sum_range_succ]; simp

theorem zipWith_map_same (f g : Nat → T) (l : List Nat) :
    List.zipWith (fun x y => x * y) (l.map f) (l.map g) = l.map fun j => f j * g j := by
  induction l with
  | nil => rfl
  | cons a l ih => simp only [List.map_cons, List.zipWith_cons_cons, ih]

theorem prod_data_eq_spec (P D : ublas.matrix T) (k j : Nat) :
    prod_data P D k j = spec.product P D k j := by
  unfold prod_data spec.product
  exact list_sum_map_range _ _

theorem adapt_data_eq_spec (P D : ublas.matrix T) (h : D.size2 = P.size2) (k j : Nat) :
    adapt_data P D k j = spec.adaptation P D k j := by
  unfold adapt_data spec.adaptation spec.bias bias_val ublas.inner_prod ublas.row
  simp only
  rw [h, zipWith_map_same, list_sum_map_range]
  simp only [prod_data_eq_spec]

/-- The relational identity behind line 282: for coefficients `a` that sum to one and squared
distances `‖x k - x j‖ ^ 2`, the bias-corrected value is the squared distance to the combination. -/
theorem relational_distance {E : Type} [NormedAddCommGroup E] [InnerProductSpace ℝ E]
    (N : Nat) (x : Nat → E) (a : Nat → ℝ) (ha : Finset.sum (Finset.range N) a = 1) (j : Nat) :
    (Finset.sum (Finset.range N) fun k => a k * ‖x k - x j‖ ^ 2) -
      (1 / 2) * (Finset.sum (Finset.range N) fun c => a c *
        Finset.sum (Finset.range N) fun k => a k * ‖x k - x c‖ ^ 2) =
    ‖x j - Finset.sum (Finset.range N) fun k => a k • x k‖ ^ 2 := by
  have key : ∀ c, (Finset.sum (Finset.range N) fun k => a k * ‖x k - x c‖ ^ 2) =
      (Finset.sum (Finset.range N) fun k => a k * ‖x k‖ ^ 2) -
        2 * @inner ℝ E _ (Finset.sum (Finset.range N) fun k => a k • x k) (x c) + ‖x c‖ ^ 2 := by
    intro c
    rw [sum_inner]
    simp only [real_inner_smul_left, norm_sub_sq_real]
    have : ∀ k, a k * (‖x k‖ ^ 2 - 2 * @inner ℝ E _ (x k) (x c) + ‖x c‖ ^ 2) =
        a k * ‖x k‖ ^ 2 - 2 * (a k * @inner ℝ E _ (x k) (x c)) + a k * ‖x c‖ ^ 2 := by
      intro k; ring
    simp only [this]
    rw [Finset.sum_add_distrib, Finset.sum_sub_distrib, ← Finset.mul_sum, ← Finset.sum_mul, ha]
    ring
  have hww : @inner ℝ E _ (Finset.sum (Finset.range N) fun k => a k • x k)
      (Finset.sum (Finset.range N) fun k => a k • x k) =
      Finset.sum (Finset.range N) fun c =>
        a c * @inner ℝ E _ (Finset.sum (Finset.range N) fun k => a k • x k) (x c) := by
    conv_lhs => rw [inner_sum]
    simp only [real_inner_smul_right]
  simp only [key]
  have : ∀ c, a c * ((Finset.sum (Finset.range N) fun k => a k * ‖x k‖ ^ 2) -
        2 * @inner ℝ E _ (Finset.sum (Finset.range N) fun k => a k • x k) (x c) + ‖x c‖ ^ 2) =
      a c * (Finset.sum (Finset.range N) fun k => a k * ‖x k‖ ^ 2) -
        2 * (a c * @inner ℝ E _ (Finset.sum (Finset.range N) fun k => a k • x k) (x c)) +
        a c * ‖x c‖ ^ 2 := by
    intro c; ring
  simp only [this]
  rw [Finset.sum_add_distrib, Finset.sum_sub_distrib, ← Finset.mul_sum, ← Finset.sum_mul, ha,
    ← hww, norm_sub_sq_real, real_inner_self_eq_norm_sq, real_inner_comm]
  ring

theorem column_scan_spec (f : Nat → T) (n : Nat) :
    (∀ i, i < n + 1 → (List.range (n + 1)).foldl (fun m i => if f i < m then f i else m) (f 0) ≤ f i) ∧
    ∃ i, i < n + 1 ∧ (List.range (n + 1)).foldl (fun m i => if f i < m then f i else m) (f 0) = f i := by
  induction n with
  | zero =>
    simp [range_one_eq]
  | succ n ih =>
    obtain ⟨hle, i0, hi0, heq⟩ := ih
    rw [List.range_succ, List.foldl_append]
    simp only [List.foldl_cons, List.foldl_nil]
    generalize (List.range (n + 1)).foldl (fun m i => if f i < m then f i else m) (f 0) = m at *
    by_cases hlt : f (n + 1) < m
    · rw [if_pos hlt]
      refine ⟨?_, n + 1, Nat.lt_succ_self _, rfl⟩
      intro i hi
      rcases Nat.lt_succ_iff_lt_or_eq.mp hi with h | h
      · exact le_trans (le_of_lt hlt) (hle i h)
      · rw [h]
    · rw [if_neg hlt]
      refine ⟨?_, i0, Nat.lt_succ_of_lt hi0, heq⟩
      intro i hi
      rcases Nat.lt_succ_iff_lt_or_eq.mp hi with h | h
      · exact hle i h
      · rw [h]; exact not_lt.mp hlt

theorem column_scan_eq_inf (f : Nat → T) (n : Nat) (H : (Finset.range n).Nonempty) :
    (List.range n).foldl (fun m i => if f i < m then f i else m) (f 0) =
      (Finset.range n).inf' H f := by
  obtain ⟨k, hk⟩ := Nat.exists_eq_succ_of_ne_zero
    (by rintro rfl; simp at H : n ≠ 0)
  subst hk
  obtain ⟨hle, i0, hi0, heq⟩ := column_scan_spec f k
  apply le_antisymm
  · exact (Finset.le_inf'_iff H f).mpr fun i hi => hle i (Finset.mem_range.mp hi)
  · rw [heq]
    exact Finset.inf'_le f (Finset.mem_range.mpr hi0)

theorem exp_neg_100_small : 3 * Real.exp (-100) ≤ 1 / 2 ^ 52 := by
  have h2 : (2 : ℝ) ≤ Real.exp 1 := by
    have := Real.add_one_le_exp (1 : ℝ)
    linarith
  have h100 : (2 : ℝ) ^ 100 ≤ Real.exp 100 := by
    have : Real.exp 100 = Real.exp 1 ^ 100 := by
      rw [← Real.exp_nat_mul]
      norm_num
    rw [this]
    exact pow_le_pow_left₀ (by norm_num) h2 100
  rw [Real.exp_neg]
  have hpos : (0 : ℝ) < 2 ^ 100 := by positivity
  have : (Real.exp 100)⁻¹ ≤ ((2 : ℝ) ^ 100)⁻¹ := inv_anti₀ hpos h100
  calc 3 * (Real.exp 100)⁻¹ ≤ 3 * ((2 : ℝ) ^ 100)⁻¹ := by linarith
    _ ≤ 1 / 2 ^ 52 := by norm_num

theorem line_adapt_col0 : ublas.column (adapt_closed (example_input.line_prototypes ℝ) (example_input.line_data ℝ)) 0 = [0, 1, 1/4] := by
  simp [ublas.column, adapt_closed, adapt_data, prod_data, bias_val, example_input.line_prototypes, example_input.line_data,
    example_input.ofRows,
    List.range_succ, ublas.inner_prod, ublas.row]
  norm_num
theorem line_adapt_col1 : ublas.column (adapt_closed (example_input.line_prototypes ℝ) (example_input.line_data ℝ)) 1 = [1, 0, 1/4] := by
  simp [ublas.column, adapt_closed, adapt_data, prod_data, bias_val, example_input.line_prototypes, example_input.line_data,
    example_input.ofRows,
    List.range_succ, ublas.inner_prod, ublas.row]
  norm_num
theorem line_adapt_col2 : ublas.column (adapt_closed (example_input.line_prototypes ℝ) (example_input.line_data ℝ)) 2 = [4, 1, 9/4] := by
  simp [ublas.column, adapt_closed, adapt_data, prod_data, bias_val, example_input.line_prototypes, example_input.line_data,
    example_input.ofRows,
    List.range_succ, ublas.inner_prod, ublas.row]
  norm_num

theorem line_rank_col0 : tools.vector.rank ([0, 1, 1/4] : List ℝ) = [0, 2, 1] := by
  simp [tools.vector.rank, List.range_succ, List.filter]
  norm_num
theorem line_rank_col1 : tools.vector.rank ([1, 0, 1/4] : List ℝ) = [2, 0, 1] := by
  simp [tools.vector.rank, List.range_succ, List.filter]
  norm_num
theorem line_rank_col2 : tools.vector.rank ([4, 1, 9/4] : List ℝ) = [2, 0, 1] := by
  simp [tools.vector.rank, List.range_succ, List.filter]
  norm_num

theorem line_lambda : train_lambda (Tools.ofSpec (1 / 2 ^ 52) Real.exp Real.rpow) 1 (1 / 100 : ℝ) 0
    = 1 / 100 := by
  simp [train_lambda, Tools.ofSpec]

theorem line_weights (c : Nat) (hc : c < 3) :
    (rank_closed (Tools.ofSpec (1 / 2 ^ 52) Real.exp Real.rpow) (1 / 100 : ℝ)
      (adapt_closed (example_input.line_prototypes ℝ) (example_input.line_data ℝ))).data 2 c = Real.exp (-100) := by
  have h1 : (adapt_closed (example_input.line_prototypes ℝ) (example_input.line_data ℝ)).size1 = 3 := rfl
  have h2 : (adapt_closed (example_input.line_prototypes ℝ) (example_input.line_data ℝ)).size2 = 3 := rfl
  simp only [rank_closed, h1, h2, rank_weight, Tools.ofSpec]
  rw [if_pos ⟨by norm_num, hc⟩]
  interval_cases c
  · rw [line_adapt_col0, line_rank_col0]; norm_num
  · rw [line_adapt_col1, line_rank_col1]; norm_num
  · rw [line_adapt_col2, line_rank_col2]; norm_num


theorem normalize_closed_row_of_zero (tl : Tools T)
    (W : ublas.matrix T) (r : Nat) (hr : r < W.size1)
    (h : tl.isNumericalZero (ublas.sum (ublas.row W r)) = true) :
    ublas.row (normalize_closed tl W) r = ublas.row W r := by
  unfold ublas.row
  apply List.map_congr_left
  intro c hc
  have hc2 : c < W.size2 := List.mem_range.mp hc
  simp only [normalize_closed, normalized_data]
  rw [if_pos ⟨hr, hc2⟩, if_pos h]


/-- The first element of an insertion sort by the key `w` of indices listed in ascending order:
it has the least key, and every smaller index of the list has a strictly larger key. -/
theorem insertionSort_head_least (w : Nat → T) (l : List Nat) (hl : l.Pairwise (fun a b => a < b))
    (h : Nat) (t : List Nat)
    (hs : List.insertionSort (fun a b => w a ≤ w b) l = h :: t) :
    h ∈ l ∧ (∀ x, x ∈ l → w h ≤ w x) ∧ (∀ x, x ∈ l → x < h → w h < w x) := by
  induction l generalizing h t with
  | nil => simp at hs
  | cons a l ih =>
    rw [List.insertionSort] at hs
    rw [List.pairwise_cons] at hl
    cases hsl : List.insertionSort (fun a b => w a ≤ w b) l with
    | nil =>
      have hlen := congrArg List.length hsl
      rw [List.length_insertionSort] at hlen
      have hnil : l = [] := List.length_eq_zero.mp hlen
      subst hnil
      rw [hsl] at hs
      simp only [List.orderedInsert, List.cons.injEq] at hs
      obtain ⟨rfl, _⟩ := hs
      refine ⟨List.mem_singleton.mpr rfl, ?_, ?_⟩
      · intro x hx
        rw [List.mem_singleton.mp hx]
      · intro x hx hlt
        rw [List.mem_singleton.mp hx] at hlt
        exact absurd hlt (lt_irrefl _)
    | cons h' t' =>
      obtain ⟨hmem, hmin, hstrict⟩ := ih hl.2 h' t' hsl
      rw [hsl] at hs
      simp only [List.orderedInsert] at hs
      by_cases hr : w a ≤ w h'
      · rw [if_pos hr] at hs
        obtain ⟨rfl, _⟩ := List.cons.inj hs
        refine ⟨List.mem_cons_self _ _, ?_, ?_⟩
        · intro x hx
          rcases List.mem_cons.mp hx with rfl | hx
          · exact le_refl _
          · exact le_trans hr (hmin x hx)
        · intro x hx hlt
          rcases List.mem_cons.mp hx with rfl | hx
          · exact absurd hlt (lt_irrefl _)
          · exact absurd hlt (not_lt.mpr (le_of_lt (hl.1 x hx)))
      · rw [if_neg hr] at hs
        obtain ⟨rfl, _⟩ := List.cons.inj hs
        refine ⟨List.mem_cons_of_mem _ hmem, ?_, ?_⟩
        · intro x hx
          rcases List.mem_cons.mp hx with rfl | hx
          · exact le_of_lt (not_le.mp hr)
          · exact hmin x hx
        · intro x hx hlt
          rcases List.mem_cons.mp hx with rfl | hx
          · exact not_le.mp hr
          · exact hstrict x hx hlt

theorem range_pairwise_lt (n : Nat) : (List.range n).Pairwise (fun a b => a < b) :=
  List.pairwise_lt_range n

/-- The first index of `rankIndex v` for a non-empty `v`: the least index of a minimum. -/
theorem rankIndex_head (v : List T) (hv : 0 < v.length) :
    (tools.vector.rankIndex v).getD 0 0 < v.length ∧
    (∀ i, i < v.length → v.getD ((tools.vector.rankIndex v).getD 0 0) 0 ≤ v.getD i 0) ∧
    (∀ i, i < (tools.vector.rankIndex v).getD 0 0 →
      v.getD ((tools.vector.rankIndex v).getD 0 0) 0 < v.getD i 0) := by
  unfold tools.vector.rankIndex
  cases hs : List.insertionSort (fun a b => v.getD a 0 ≤ v.getD b 0) (List.range v.length) with
  | nil =>
    have hlen := congrArg List.length hs
    rw [List.length_insertionSort, List.length_range] at hlen
    simp only [List.length_nil] at hlen
    omega
  | cons h t =>
    obtain ⟨hmem, hmin, hstrict⟩ :=
      insertionSort_head_least (fun a => v.getD a 0) _ (range_pairwise_lt v.length) h t hs
    have hh : (h :: t).getD 0 0 = h := rfl
    rw [hh]
    have hlt := List.mem_range.mp hmem
    refine ⟨hlt, fun i hi => hmin i (List.mem_range.mpr hi), ?_⟩
    intro i hi
    exact hstrict i (List.mem_range.mpr (lt_trans hi hlt)) hi

/-- The loop of `use` over the columns fills the first entries of the index array. -/
theorem use_loop_eq (g : Nat → Nat) (l : List Nat) (k : Nat) (hk : k ≤ l.length) :
    (List.range k).foldl (fun idx i => idx.set i (g i)) l = (List.range k).map g ++ l.drop k := by
  induction k with
  | zero => simp
  | succ k ih =>
    rw [List.range_succ, List.foldl_append, ih (Nat.le_of_succ_le hk)]
    simp only [List.foldl_cons, List.foldl_nil, List.map_append, List.map_cons, List.map_nil]
    have hlen : ((List.range k).map g).length = k := by simp
    rw [List.set_append_right _ _ (by rw [hlen]), hlen, Nat.sub_self, List.append_assoc]
    congr 1
    have hd : l.drop k = l[k] :: l.drop (k + 1) := by
      rw [List.drop_eq_getElem_cons]
    rw [hd]
    rfl

theorem use_eq_of_square (self : relational_neuralgas T) (D : ublas.matrix T)
    (hK : self.m_prototypes.size1 ≠ 0) (hc : D.size2 = self.m_prototypes.size2)
    (hr : D.size1 = self.m_prototypes.size2) :
    use self D = .ok ((List.range D.size2).map
      (use_index ⟨self.m_prototypes.size1, D.size2, prod_data self.m_prototypes D⟩)) := by
  unfold use
  rw [if_neg hK, if_neg (not_not.mpr hc), prod_ok _ _ hr.symm]
  simp only
  have := use_loop_eq (use_index ⟨self.m_prototypes.size1, D.size2, prod_data self.m_prototypes D⟩)
    (use_index_array D) D.size2 (by simp [use_index_array, hr, hc])
  unfold use_index at this ⊢
  rw [this]
  simp [use_index_array, hr, hc]

theorem use_error_of_not_square (self : relational_neuralgas T) (D : ublas.matrix T)
    (hK : self.m_prototypes.size1 ≠ 0) (hc : D.size2 = self.m_prototypes.size2)
    (hr : D.size1 ≠ self.m_prototypes.size2) :
    use self D = .error .bad_argument := by
  unfold use
  rw [if_neg hK, if_neg (not_not.mpr hc), prod_error _ _ (Ne.symm hr)]

theorem calculateQuantizationError_self (s s' : relational_neuralgas T) (A : ublas.matrix T) :
    calculateQuantizationError s A = calculateQuantizationError s' A := rfl

theorem loop_errors_self (tl : Tools T) (D : ublas.matrix T) (n : Nat) (lam : T)
    (s s' : relational_neuralgas T) (l : List Nat) (P : ublas.matrix T) :
    loop_errors tl D n lam s l P = loop_errors tl D n lam s' l P := by
  induction l generalizing P with
  | nil => rfl
  | cons i l ih =>
    simp only [loop_errors]
    rw [ih, calculateQuantizationError_self s s']

theorem loop_closed_nil (tl : Tools T) (D : ublas.matrix T) (n : Nat) (lam : T)
    (s : relational_neuralgas T) : loop_closed tl D n lam [] s = s := rfl

theorem loop_closed_cons (tl : Tools T) (D : ublas.matrix T) (n : Nat) (lam : T) (i : Nat)
    (l : List Nat) (s : relational_neuralgas T) :
    loop_closed tl D n lam (i :: l) s =
      loop_closed tl D n lam l (iteration_closed tl D n lam i s) := rfl

theorem loop_closed_append (tl : Tools T) (D : ublas.matrix T) (n : Nat) (lam : T)
    (l l2 : List Nat) (s : relational_neuralgas T) :
    loop_closed tl D n lam (l ++ l2) s =
      loop_closed tl D n lam l2 (loop_closed tl D n lam l s) := by
  unfold loop_closed
  rw [List.foldl_append]

theorem loop_closed_logging (tl : Tools T) (D : ublas.matrix T) (n : Nat) (lam : T)
    (l : List Nat) (s : relational_neuralgas T) :
    (loop_closed tl D n lam l s).m_logging = s.m_logging := by
  induction l generalizing s with
  | nil => rfl
  | cons i l ih => rw [loop_closed_cons, ih]; rfl

/-- With logging off the loop of `train` leaves both logs as they are. -/
theorem loop_closed_logs_off (tl : Tools T) (D : ublas.matrix T) (n : Nat) (lam : T)
    (l : List Nat) (s : relational_neuralgas T) (h : s.m_logging = false) :
    (loop_closed tl D n lam l s).m_logprototypes = s.m_logprototypes ∧
    (loop_closed tl D n lam l s).m_quantizationerror = s.m_quantizationerror := by
  induction l generalizing s with
  | nil => exact ⟨rfl, rfl⟩
  | cons i l ih =>
    rw [loop_closed_cons]
    have hl : (iteration_closed tl D n lam i s).m_logging = false := h
    obtain ⟨h1, h2⟩ := ih _ hl
    rw [h1, h2]
    simp [iteration_closed, h]

/-- The prototypes after the loop are those that the list of the prototypes after each
iteration ends with. -/
theorem loop_closed_prototypes (tl : Tools T) (D : ublas.matrix T) (n : Nat) (lam : T)
    (l : List Nat) (s : relational_neuralgas T) :
    (loop_closed tl D n lam l s).m_prototypes =
      (loop_prototypes tl D n lam l s.m_prototypes).getLastD s.m_prototypes := by
  induction l generalizing s with
  | nil => rfl
  | cons i l ih =>
    rw [loop_closed_cons, ih]
    cases l with
    | nil => rfl
    | cons j l2 => rfl

/-- With logging on the loop of `train` appends the prototypes after each iteration and the
quantization error of each iteration. -/
theorem loop_closed_logs_on (tl : Tools T) (D : ublas.matrix T) (n : Nat) (lam : T)
    (l : List Nat) (s : relational_neuralgas T) (h : s.m_logging = true) :
    (loop_closed tl D n lam l s).m_logprototypes =
      s.m_logprototypes ++ loop_prototypes tl D n lam l s.m_prototypes ∧
    (loop_closed tl D n lam l s).m_quantizationerror =
      s.m_quantizationerror ++ loop_errors tl D n lam s l s.m_prototypes := by
  induction l generalizing s with
  | nil => simp [loop_closed_nil, loop_prototypes, loop_errors]
  | cons i l ih =>
    rw [loop_closed_cons]
    have hl : (iteration_closed tl D n lam i s).m_logging = true := h
    obtain ⟨h1, h2⟩ := ih _ hl
    rw [h1, h2]
    constructor
    · simp [iteration_closed, h, loop_prototypes]
    · simp only [iteration_closed, h, if_true, loop_errors, List.append_assoc,
        List.singleton_append]
      rw [loop_errors_self tl D n lam _ s]


theorem loop_prototypes_length (tl : Tools T) (D : ublas.matrix T) (n : Nat) (lam : T)
    (l : List Nat) (P : ublas.matrix T) :
    (loop_prototypes tl D n lam l P).length = l.length := by
  induction l generalizing P with
  | nil => rfl
  | cons i l ih => simp only [loop_prototypes, List.length_cons, ih]

theorem loop_errors_length (tl : Tools T) (D : ublas.matrix T) (n : Nat) (lam : T)
    (s : relational_neuralgas T) (l : List Nat) (P : ublas.matrix T) :
    (loop_errors tl D n lam s l P).length = l.length := by
  induction l generalizing P with
  | nil => rfl
  | cons i l ih => simp only [loop_errors, List.length_cons, ih]

/-- Entry `k` of the list of the prototypes after each iteration: the prototypes after the first
`k + 1` iterations. -/
theorem loop_prototypes_getElem (tl : Tools T) (D : ublas.matrix T) (n : Nat) (lam : T)
    (l : List Nat) (s : relational_neuralgas T) (k : Nat) (hk : k < l.length) :
    (loop_prototypes tl D n lam l s.m_prototypes)[k]? =
      some (loop_closed tl D n lam (l.take (k + 1)) s).m_prototypes := by
  induction l generalizing s k with
  | nil => simp at hk
  | cons i l ih =>
    cases k with
    | zero =>
      simp only [loop_prototypes, List.getElem?_cons_zero, List.take_succ_cons, List.take_zero,
        loop_closed_cons, loop_closed_nil]
      rfl
    | succ k =>
      simp only [loop_prototypes, List.getElem?_cons_succ, List.take_succ_cons, loop_closed_cons]
      exact ih (iteration_closed tl D n lam i s) k (Nat.lt_of_succ_lt_succ hk)

/-- Entry `k` of the list of the quantization errors: the error of the matrix built from the
prototypes after the first `k` iterations. -/
theorem loop_errors_getElem (tl : Tools T) (D : ublas.matrix T) (n : Nat) (lam : T)
    (l : List Nat) (s : relational_neuralgas T) (k : Nat) (hk : k < l.length) :
    (loop_errors tl D n lam s l s.m_prototypes)[k]? =
      some (calculateQuantizationError s
        (adapt_closed (loop_closed tl D n lam (l.take k) s).m_prototypes D)) := by
  induction l generalizing s k with
  | nil => simp at hk
  | cons i l ih =>
    cases k with
    | zero =>
      simp only [loop_errors, List.getElem?_cons_zero, List.take_zero, loop_closed_nil]
    | succ k =>
      simp only [loop_errors, List.getElem?_cons_succ, List.take_succ_cons, loop_closed_cons]
      rw [loop_errors_self tl D n lam s (iteration_closed tl D n lam i s)]
      exact ih (iteration_closed tl D n lam i s) k (Nat.lt_of_succ_lt_succ hk)

/-- Running only the first iterations `l` of the loop of `train` on accepted data. -/
theorem train_loop_prefix_eq (tl : Tools T) (self : relational_neuralgas T)
    (D : ublas.matrix T) (n : Nat) (lam : T) (h : train_accepts self D n lam) (l : List Nat) :
    train_loop tl D n lam l (train_start self) =
      (.ok (), loop_closed tl D n lam l (train_start self)) := by
  obtain ⟨_, _, _, h4, _, h6⟩ := h
  exact train_loop_eq tl D n lam h6 l (train_start self)
    (by rw [train_start_prototypes, ← h4, h6])

theorem construct_normalize_row_eq (tl : Tools T) (M : ublas.matrix T) (i : Nat) :
    construct_normalize_row tl M i = train_normalize_row tl M i := rfl

/-- The object that the constructor builds for a positive prototype size. -/
theorem construct_eq (tl : Tools T) (values : Nat → Nat → T) (K N : Nat) (hN : N ≠ 0) :
    construct tl values K N =
      .ok ⟨normalize_closed tl ⟨K, N, values⟩, false, [], [], true⟩ := by
  unfold construct
  rw [if_neg hN]
  simp only [tools.matrix.random]
  have h := train_normalize_loop_eq tl (⟨K, N, values⟩ : ublas.matrix T)
  simp only [← construct_normalize_row_eq] at h
  rw [h]

theorem construct_error (tl : Tools T) (values : Nat → Nat → T) (K : Nat) :
    construct tl values K 0 = .error .prototype_size_zero := by
  unfold construct
  rw [if_pos rfl]

/-- A successful `train` keeps the shape of the prototypes and the logging flag. -/
theorem train_shape (tl : Tools T) (self : relational_neuralgas T) (D : ublas.matrix T)
    (n : Nat) (lam : T) (h : train_accepts self D n lam) :
    (train tl self D n lam).2.m_prototypes.size1 = self.m_prototypes.size1 ∧
    (train tl self D n lam).2.m_prototypes.size2 = self.m_prototypes.size2 ∧
    (train tl self D n lam).2.m_logging = self.m_logging := by
  rw [train_eq tl self D n lam h]
  simp only
  refine ⟨?_, ?_, ?_⟩
  · rw [loop_closed_size1, train_start_prototypes]
  · rw [loop_closed_size2 _ _ _ _ _ _ (by rw [train_start_prototypes]; exact h.2.2.2.1.symm)]
    exact h.2.2.2.1
  · rw [loop_closed_logging, train_start_logging]

/-- The logs after a successful `train` with logging on. -/
theorem train_logs_on (tl : Tools T) (self : relational_neuralgas T) (D : ublas.matrix T)
    (n : Nat) (lam : T) (h : train_accepts self D n lam) (hlog : self.m_logging = true) :
    (train tl self D n lam).2.m_logprototypes =
      loop_prototypes tl D n lam (List.range n) self.m_prototypes ∧
    (train tl self D n lam).2.m_quantizationerror =
      loop_errors tl D n lam self (List.range n) self.m_prototypes := by
  rw [train_eq tl self D n lam h]
  simp only
  have hl : (train_start self).m_logging = true := by rw [train_start_logging]; exact hlog
  obtain ⟨h1, h2⟩ := loop_closed_logs_on tl D n lam (List.range n) (train_start self) hl
  obtain ⟨h3, h4⟩ := train_start_logs_on self hlog
  rw [h1, h2, h3, h4, train_start_prototypes, List.nil_append, List.nil_append,
    loop_errors_self tl D n lam (train_start self) self]
  exact ⟨rfl, rfl⟩

/-- The logs after a successful `train` with logging off. -/
theorem train_logs_off (tl : Tools T) (self : relational_neuralgas T) (D : ublas.matrix T)
    (n : Nat) (lam : T) (h : train_accepts self D n lam) (hlog : self.m_logging = false) :
    (train tl self D n lam).2.m_logprototypes = self.m_logprototypes ∧
    (train tl self D n lam).2.m_quantizationerror = self.m_quantizationerror := by
  rw [train_eq tl self D n lam h, train_start_off self hlog]
  exact loop_closed_logs_off tl D n lam (List.range n) self hlog

theorem train_ok (tl : Tools T) (self : relational_neuralgas T) (D : ublas.matrix T)
    (n : Nat) (lam : T) (h : train_accepts self D n lam) :
    (train tl self D n lam).1 = .ok () := by
  rw [train_eq tl self D n lam h]

/-- On an object without prototypes `train` throws the zero-prototypes error and leaves the
object as it is. -/
theorem train_of_no_prototypes (tl : Tools T) (self : relational_neuralgas T)
    (D : ublas.matrix T) (n : Nat) (lam : T) (h : self.m_prototypes.size1 = 0) :
    train tl self D n lam = (.error .prototypes_zero, self) := by
  unfold train
  rw [if_pos h]

theorem use_of_no_prototypes (self : relational_neuralgas T) (D : ublas.matrix T)
    (h : self.m_prototypes.size1 = 0) : use self D = .error .prototypes_zero := by
  unfold use
  rw [if_pos h]

/-- No sequence of calls gives prototypes to an object without prototypes. -/
theorem after_calls_of_no_prototypes (tl : Tools T) (calls : List (call T))
    (self : relational_neuralgas T) (h : self.m_prototypes.size1 = 0) :
    (after_calls tl self calls).m_prototypes.size1 = 0 := by
  induction calls generalizing self with
  | nil => exact h
  | cons c cs ih =>
    simp only [after_calls, List.foldl_cons] at ih ⊢
    apply ih
    cases c with
    | train D n lam =>
      simp only [after_call]
      rw [train_of_no_prototypes tl self D n lam h]
      exact h
    | train_default D n =>
      simp only [after_call, train_default]
      rw [train_of_no_prototypes tl self D n _ h]
      exact h
    | use D => exact h
    | setLogging p => exact h

/-- The entries of a row of the constructed prototypes. -/
theorem normalize_closed_data (tl : Tools T) (R : ublas.matrix T) (k j : Nat)
    (hk : k < R.size1) (hj : j < R.size2) :
    (normalize_closed tl R).data k j = normalized_data tl R k j := by
  simp only [normalize_closed]
  rw [if_pos ⟨hk, hj⟩]

/-- The product of four-column prototypes with `cluster_data`, column by column. -/
theorem prod_data_cluster (P : ublas.matrix T) (hs : P.size2 = 4) (k : Nat) :
    prod_data P (example_input.cluster_data T) k 0 =
      P.data k 1 * (1 / 10) + P.data k 2 * 5 + P.data k 3 * 5 ∧
    prod_data P (example_input.cluster_data T) k 1 =
      P.data k 0 * (1 / 10) + P.data k 2 * 5 + P.data k 3 * 5 ∧
    prod_data P (example_input.cluster_data T) k 2 =
      P.data k 0 * 5 + P.data k 1 * 5 + P.data k 3 * (1 / 10) ∧
    prod_data P (example_input.cluster_data T) k 3 =
      P.data k 0 * 5 + P.data k 1 * 5 + P.data k 2 * (1 / 10) := by
  simp [prod_data, hs, List.range_succ, example_input.cluster_data, example_input.ofRows]
  refine ⟨?_, ?_, ?_, ?_⟩ <;> ring

/-- The bias of a row of four-column prototypes on `cluster_data`. -/
theorem bias_val_cluster (P : ublas.matrix T) (hs : P.size2 = 4) (k : Nat) :
    bias_val P ⟨P.size1, (example_input.cluster_data T).size2,
        prod_data P (example_input.cluster_data T)⟩ k =
      (1 / 2) * (P.data k 0 * prod_data P (example_input.cluster_data T) k 0 +
        P.data k 1 * prod_data P (example_input.cluster_data T) k 1 +
        P.data k 2 * prod_data P (example_input.cluster_data T) k 2 +
        P.data k 3 * prod_data P (example_input.cluster_data T) k 3) := by
  have h4 : (example_input.cluster_data T).size2 = 4 := rfl
  simp [bias_val, ublas.inner_prod, ublas.row, hs, h4, List.range_succ]
  ring

theorem adapt_closed_data (P D : ublas.matrix T) (r c : Nat) (hr : r < P.size1)
    (hc : c < D.size2) : (adapt_closed P D).data r c = adapt_data P D r c := by
  simp only [adapt_closed]
  rw [if_pos ⟨hr, hc⟩]

/-- Prototypes split over the two clusters give a matrix `l_adaptmatrix` that separates the
clusters. -/
theorem separates_of_cluster_split (P : ublas.matrix T) (a b : Nat) (ha : a < 2) (hb : b < 2)
    (h : cluster_split P a b) :
    separates (adapt_closed P (example_input.cluster_data T)) a b := by
  obtain ⟨h1, h2, p, q, hpq, a0, a1, a2, a3, b0, b1, b2, b3⟩ := h
  have h4 : (example_input.cluster_data T).size2 = 4 := rfl
  have hd : ∀ r c, r < 2 → c < 4 →
      (adapt_closed P (example_input.cluster_data T)).data r c =
        adapt_data P (example_input.cluster_data T) r c :=
    fun r c hr hc => adapt_closed_data P _ r c (by rw [h1]; exact hr) (by rw [h4]; exact hc)
  obtain ⟨pa0, pa1, pa2, pa3⟩ := prod_data_cluster P h2 a
  obtain ⟨pb0, pb1, pb2, pb3⟩ := prod_data_cluster P h2 b
  have ba := bias_val_cluster P h2 a
  have bb := bias_val_cluster P h2 b
  unfold separates
  rw [hd a 0 ha (by norm_num), hd a 1 ha (by norm_num), hd a 2 ha (by norm_num),
    hd a 3 ha (by norm_num), hd b 0 hb (by norm_num), hd b 1 hb (by norm_num),
    hd b 2 hb (by norm_num), hd b 3 hb (by norm_num)]
  simp only [adapt_data, ba, bb, pa0, pa1, pa2, pa3, pb0, pb1, pb2, pb3,
    a0, a1, a2, a3, b0, b1, b2, b3]
  refine ⟨?_, ?_, ?_, ?_⟩ <;> linarith

/-- Rows that are constant give a matrix `l_adaptmatrix` with constant rows. -/
theorem adapt_closed_uniform (P : ublas.matrix T) (h : uniform_rows P) (k j : Nat)
    (hk : k < 2) (hj : j < 4) :
    (adapt_closed P (example_input.cluster_data T)).data k j =
      (adapt_closed P (example_input.cluster_data T)).data k 0 := by
  obtain ⟨h1, h2, hu⟩ := h
  have h4 : (example_input.cluster_data T).size2 = 4 := rfl
  rw [adapt_closed_data P _ k j (by rw [h1]; exact hk) (by rw [h4]; exact hj),
    adapt_closed_data P _ k 0 (by rw [h1]; exact hk) (by rw [h4]; norm_num)]
  obtain ⟨p0, p1, p2, p3⟩ := prod_data_cluster P h2 k
  have e1 := hu k hk 1 (by norm_num)
  have e2 := hu k hk 2 (by norm_num)
  have e3 := hu k hk 3 (by norm_num)
  simp only [adapt_data]
  congr 1
  interval_cases j
  · rfl
  · rw [p1, p0, e1, e2, e3]
  · rw [p2, p0, e1, e2, e3]; ring
  · rw [p3, p0, e1, e2, e3]; ring

theorem rank_closed_data (tl : Tools T) (l_lambda : T) (A : ublas.matrix T) (r c : Nat)
    (hr : r < A.size1) (hc : c < A.size2) :
    (rank_closed tl l_lambda A).data r c = rank_weight tl l_lambda A r c := by
  simp only [rank_closed]
  rw [if_pos ⟨hr, hc⟩]

/-- The weights that the rank loop writes in a column of a matrix with two rows whose entries
differ: `exp(-0 / l_lambda)` for the smaller entry, `exp(-1 / l_lambda)` for the larger one. -/
theorem rank_weight_of_two_rows (tl : Tools T)
    (hr1 : ∀ x y : T, x < y → tl.rank [x, y] = [0, 1])
    (hr2 : ∀ x y : T, y < x → tl.rank [x, y] = [1, 0])
    (l_lambda : T) (A : ublas.matrix T) (hA : A.size1 = 2) (c : Nat) :
    (A.data 0 c < A.data 1 c →
      rank_weight tl l_lambda A 0 c = tl.exp (-0 / l_lambda) ∧
      rank_weight tl l_lambda A 1 c = tl.exp (-1 / l_lambda)) ∧
    (A.data 1 c < A.data 0 c →
      rank_weight tl l_lambda A 0 c = tl.exp (-1 / l_lambda) ∧
      rank_weight tl l_lambda A 1 c = tl.exp (-0 / l_lambda)) := by
  unfold rank_weight
  rw [column_of_two_rows A hA c]
  constructor
  · intro h
    rw [hr1 _ _ h]
    exact ⟨rfl, rfl⟩
  · intro h
    rw [hr2 _ _ h]
    exact ⟨rfl, rfl⟩

/-- One iteration of `train` on `cluster_data`, from prototypes whose matrix `l_adaptmatrix`
separates the clusters: the new prototypes are split over the two clusters. -/
theorem iteration_cluster_split (tl : Tools T)
    (hr1 : ∀ x y : T, x < y → tl.rank [x, y] = [0, 1])
    (hr2 : ∀ x y : T, y < x → tl.rank [x, y] = [1, 0])
    (he0 : tl.exp 0 = 1) (he : ∀ x : T, x < 0 → 0 ≤ tl.exp x ∧ tl.exp x < 1)
    (hz : ∀ s : T, 1 ≤ s → tl.isNumericalZero s = false)
    (P : ublas.matrix T) (hP : P.size1 = 2) (a b : Nat)
    (hab : (a = 0 ∧ b = 1) ∨ (a = 1 ∧ b = 0))
    (hsep : separates (adapt_closed P (example_input.cluster_data T)) a b)
    (n : Nat) (lam : T) (i : Nat) (hlam : 0 < train_lambda tl n lam i) :
    cluster_split (iteration_prototypes tl (example_input.cluster_data T) n lam i P) a b := by
  have hneg : -1 / train_lambda tl n lam i < 0 := by
    apply div_neg_of_neg_of_pos _ hlam
    norm_num
  obtain ⟨hge, hlt⟩ := he _ hneg
  have h00 : tl.exp (-0 / train_lambda tl n lam i) = 1 := by
    rw [neg_zero, zero_div, he0]
  have hA1 : (adapt_closed P (example_input.cluster_data T)).size1 = 2 := hP
  have hA2 : (adapt_closed P (example_input.cluster_data T)).size2 = 4 := rfl
  have hW : ∀ r c, r < 2 → c < 4 →
      (rank_closed tl (train_lambda tl n lam i)
        (adapt_closed P (example_input.cluster_data T))).data r c =
      rank_weight tl (train_lambda tl n lam i)
        (adapt_closed P (example_input.cluster_data T)) r c :=
    fun r c hr hc => rank_closed_data tl _ _ r c (by rw [hA1]; exact hr) (by rw [hA2]; exact hc)
  have hcol := rank_weight_of_two_rows tl hr1 hr2 (train_lambda tl n lam i)
    (adapt_closed P (example_input.cluster_data T)) hA1
  have hW2 : (rank_closed tl (train_lambda tl n lam i)
      (adapt_closed P (example_input.cluster_data T))).size2 = 4 := rfl
  have hW1 : (rank_closed tl (train_lambda tl n lam i)
      (adapt_closed P (example_input.cluster_data T))).size1 = 2 := hP
  have hN : ∀ r c, r < 2 → c < 4 →
      (iteration_prototypes tl (example_input.cluster_data T) n lam i P).data r c =
      normalized_data tl (rank_closed tl (train_lambda tl n lam i)
        (adapt_closed P (example_input.cluster_data T))) r c := by
    intro r c hr hc
    simp only [iteration_prototypes, normalize_closed]
    rw [if_pos ⟨by rw [hW1]; exact hr, by rw [hW2]; exact hc⟩]
  have hsum : (1 : T) ≤ 1 + 1 + tl.exp (-1 / train_lambda tl n lam i) +
      tl.exp (-1 / train_lambda tl n lam i) := by linarith
  have hsum2 : (1 : T) ≤ tl.exp (-1 / train_lambda tl n lam i) +
      tl.exp (-1 / train_lambda tl n lam i) + 1 + 1 := by linarith
  have hpos : (0 : T) < 1 + 1 + tl.exp (-1 / train_lambda tl n lam i) +
      tl.exp (-1 / train_lambda tl n lam i) := by linarith
  refine ⟨hP, rfl, 1 / (1 + 1 + tl.exp (-1 / train_lambda tl n lam i) +
      tl.exp (-1 / train_lambda tl n lam i)),
    tl.exp (-1 / train_lambda tl n lam i) / (1 + 1 + tl.exp (-1 / train_lambda tl n lam i) +
      tl.exp (-1 / train_lambda tl n lam i)), ?_, ?_⟩
  · exact div_lt_div_of_pos_right hlt hpos
  obtain ⟨s0, s1, s2, s3⟩ := hsep
  rcases hab with ⟨rfl, rfl⟩ | ⟨rfl, rfl⟩
  · obtain ⟨w00, w10⟩ := (hcol 0).1 s0
    obtain ⟨w01, w11⟩ := (hcol 1).1 s1
    obtain ⟨w02, w12⟩ := (hcol 2).2 s2
    obtain ⟨w03, w13⟩ := (hcol 3).2 s3
    rw [h00] at w00 w01 w12 w13
    simp only [hN 0 0 (by norm_num) (by norm_num), hN 0 1 (by norm_num) (by norm_num),
      hN 0 2 (by norm_num) (by norm_num), hN 0 3 (by norm_num) (by norm_num),
      hN 1 0 (by norm_num) (by norm_num), hN 1 1 (by norm_num) (by norm_num),
      hN 1 2 (by norm_num) (by norm_num), hN 1 3 (by norm_num) (by norm_num),
      normalized_data, row_of_four_columns _ hW2, ublas.sum, List.sum_cons, List.sum_nil,
      hW 0 0 (by norm_num) (by norm_num), hW 0 1 (by norm_num) (by norm_num),
      hW 0 2 (by norm_num) (by norm_num), hW 0 3 (by norm_num) (by norm_num),
      hW 1 0 (by norm_num) (by norm_num), hW 1 1 (by norm_num) (by norm_num),
      hW 1 2 (by norm_num) (by norm_num), hW 1 3 (by norm_num) (by norm_num),
      w00, w01, w02, w03, w10, w11, w12, w13, add_zero, ← add_assoc, hz _ hsum, hz _ hsum2,
      Bool.false_eq_true, if_false]
    refine ⟨?_, ?_, ?_, ?_, ?_, ?_, ?_, ?_⟩ <;> first | trivial | rfl | (congr 1; ring)
  · obtain ⟨w00, w10⟩ := (hcol 0).2 s0
    obtain ⟨w01, w11⟩ := (hcol 1).2 s1
    obtain ⟨w02, w12⟩ := (hcol 2).1 s2
    obtain ⟨w03, w13⟩ := (hcol 3).1 s3
    rw [h00] at w10 w11 w02 w03
    simp only [hN 0 0 (by norm_num) (by norm_num), hN 0 1 (by norm_num) (by norm_num),
      hN 0 2 (by norm_num) (by norm_num), hN 0 3 (by norm_num) (by norm_num),
      hN 1 0 (by norm_num) (by norm_num), hN 1 1 (by norm_num) (by norm_num),
      hN 1 2 (by norm_num) (by norm_num), hN 1 3 (by norm_num) (by norm_num),
      normalized_data, row_of_four_columns _ hW2, ublas.sum, List.sum_cons, List.sum_nil,
      hW 0 0 (by norm_num) (by norm_num), hW 0 1 (by norm_num) (by norm_num),
      hW 0 2 (by norm_num) (by norm_num), hW 0 3 (by norm_num) (by norm_num),
      hW 1 0 (by norm_num) (by norm_num), hW 1 1 (by norm_num) (by norm_num),
      hW 1 2 (by norm_num) (by norm_num), hW 1 3 (by norm_num) (by norm_num),
      w00, w01, w02, w03, w10, w11, w12, w13, add_zero, ← add_assoc, hz _ hsum, hz _ hsum2,
      Bool.false_eq_true, if_false]
    refine ⟨?_, ?_, ?_, ?_, ?_, ?_, ?_, ?_⟩ <;> first | trivial | rfl | (congr 1; ring)

/-- The index that `use` assigns in a column of a matrix with two rows whose entries differ: the
row of the smaller entry. -/
theorem use_index_of_two_rows (A : ublas.matrix T) (hA : A.size1 = 2) (j : Nat) :
    (A.data 0 j < A.data 1 j → use_index A j = 0) ∧
    (A.data 1 j < A.data 0 j → use_index A j = 1) := by
  have hlen : (ublas.column A j).length = 2 := by rw [column_of_two_rows A hA j]; rfl
  obtain ⟨h1, h2, h3⟩ := rankIndex_head (ublas.column A j) (by rw [hlen]; norm_num)
  rw [hlen] at h1 h2
  have g0 : (ublas.column A j).getD 0 0 = A.data 0 j := by rw [column_of_two_rows A hA j]; rfl
  have g1 : (ublas.column A j).getD 1 0 = A.data 1 j := by rw [column_of_two_rows A hA j]; rfl
  unfold use_index
  generalize (tools.vector.rankIndex (ublas.column A j)).getD 0 0 = h at h1 h2 h3
  constructor
  · intro hlt
    interval_cases h
    · rfl
    · have := h2 0 (by norm_num)
      rw [g0, g1] at this
      exact absurd hlt (not_lt.mpr this)
  · intro hlt
    interval_cases h
    · have := h2 1 (by norm_num)
      rw [g0, g1] at this
      exact absurd hlt (not_lt.mpr this)
    · rfl

/-- On prototypes split over the two clusters `use` assigns the objects 0 and 1 to one
prototype and the objects 2 and 3 to the other. -/
theorem use_of_cluster_split (self : relational_neuralgas T) (a b : Nat)
    (hab : (a = 0 ∧ b = 1) ∨ (a = 1 ∧ b = 0)) (h : cluster_split self.m_prototypes a b) :
    use self (example_input.cluster_data T) = .ok [a, a, b, b] := by
  obtain ⟨h1, h2, p, q, hpq, a0, a1, a2, a3, b0, b1, b2, b3⟩ := h
  rw [use_eq_of_square self (example_input.cluster_data T) (by rw [h1]; norm_num)
    (by rw [h2]; rfl) (by rw [h2]; rfl)]
  have h4 : (example_input.cluster_data T).size2 = 4 := rfl
  obtain ⟨pa0, pa1, pa2, pa3⟩ := prod_data_cluster self.m_prototypes h2 a
  obtain ⟨pb0, pb1, pb2, pb3⟩ := prod_data_cluster self.m_prototypes h2 b
  simp only [a0, a1, a2, a3] at pa0 pa1 pa2 pa3
  simp only [b0, b1, b2, b3] at pb0 pb1 pb2 pb3
  have hu := use_index_of_two_rows
    (⟨self.m_prototypes.size1, 4,
      prod_data self.m_prototypes (example_input.cluster_data T)⟩ : ublas.matrix T) h1
  simp only [h4, List.range_succ, List.range_zero, List.nil_append, List.map_append,
    List.map_cons, List.map_nil, List.cons_append]
  rcases hab with ⟨rfl, rfl⟩ | ⟨rfl, rfl⟩
  · rw [(hu 0).1 (by show prod_data _ _ 0 0 < prod_data _ _ 1 0; rw [pa0, pb0]; linarith),
      (hu 1).1 (by show prod_data _ _ 0 1 < prod_data _ _ 1 1; rw [pa1, pb1]; linarith),
      (hu 2).2 (by show prod_data _ _ 1 2 < prod_data _ _ 0 2; rw [pa2, pb2]; linarith),
      (hu 3).2 (by show prod_data _ _ 1 3 < prod_data _ _ 0 3; rw [pa3, pb3]; linarith)]
  · rw [(hu 0).2 (by show prod_data _ _ 1 0 < prod_data _ _ 0 0; rw [pa0, pb0]; linarith),
      (hu 1).2 (by show prod_data _ _ 1 1 < prod_data _ _ 0 1; rw [pa1, pb1]; linarith),
      (hu 2).1 (by show prod_data _ _ 0 2 < prod_data _ _ 1 2; rw [pa2, pb2]; linarith),
      (hu 3).1 (by show prod_data _ _ 0 3 < prod_data _ _ 1 3; rw [pa3, pb3]; linarith)]

/-- The loop of `train` on `cluster_data` keeps prototypes split over the two clusters. -/
theorem loop_cluster_split (tl : Tools T)
    (hr1 : ∀ x y : T, x < y → tl.rank [x, y] = [0, 1])
    (hr2 : ∀ x y : T, y < x → tl.rank [x, y] = [1, 0])
    (he0 : tl.exp 0 = 1) (he : ∀ x : T, x < 0 → 0 ≤ tl.exp x ∧ tl.exp x < 1)
    (hz : ∀ s : T, 1 ≤ s → tl.isNumericalZero s = false)
    (a b : Nat) (hab : (a = 0 ∧ b = 1) ∨ (a = 1 ∧ b = 0))
    (n : Nat) (lam : T) (hlam : ∀ i, 0 < train_lambda tl n lam i)
    (l : List Nat) (s : relational_neuralgas T) (h : cluster_split s.m_prototypes a b) :
    cluster_split (loop_closed tl (example_input.cluster_data T) n lam l s).m_prototypes a b := by
  have ha : a < 2 := by rcases hab with ⟨rfl, rfl⟩ | ⟨rfl, rfl⟩ <;> norm_num
  have hb : b < 2 := by rcases hab with ⟨rfl, rfl⟩ | ⟨rfl, rfl⟩ <;> norm_num
  induction l generalizing s with
  | nil => exact h
  | cons i l ih =>
    rw [loop_closed_cons]
    apply ih
    exact iteration_cluster_split tl hr1 hr2 he0 he hz s.m_prototypes h.1 a b hab
      (separates_of_cluster_split s.m_prototypes a b ha hb h) n lam i (hlam i)

/-- One iteration of `train` on `cluster_data` keeps rows that are constant. -/
theorem iteration_uniform_rows (tl : Tools T) (P : ublas.matrix T) (h : uniform_rows P)
    (n : Nat) (lam : T) (i : Nat) :
    uniform_rows (iteration_prototypes tl (example_input.cluster_data T) n lam i P) := by
  have hA1 : (adapt_closed P (example_input.cluster_data T)).size1 = 2 := h.1
  have hA2 : (adapt_closed P (example_input.cluster_data T)).size2 = 4 := rfl
  have hcol : ∀ j, j < 4 → ublas.column (adapt_closed P (example_input.cluster_data T)) j =
      ublas.column (adapt_closed P (example_input.cluster_data T)) 0 := by
    intro j hj
    rw [column_of_two_rows _ hA1, column_of_two_rows _ hA1,
      adapt_closed_uniform P h 0 j (by norm_num) hj, adapt_closed_uniform P h 1 j (by norm_num) hj]
  have hW1 : (rank_closed tl (train_lambda tl n lam i)
      (adapt_closed P (example_input.cluster_data T))).size1 = 2 := h.1
  have hW2 : (rank_closed tl (train_lambda tl n lam i)
      (adapt_closed P (example_input.cluster_data T))).size2 = 4 := rfl
  have hW : ∀ r c, r < 2 → c < 4 →
      (rank_closed tl (train_lambda tl n lam i)
        (adapt_closed P (example_input.cluster_data T))).data r c =
      (rank_closed tl (train_lambda tl n lam i)
        (adapt_closed P (example_input.cluster_data T))).data r 0 := by
    intro r c hr hc
    rw [rank_closed_data tl _ _ r c (by rw [hA1]; exact hr) (by rw [hA2]; exact hc),
      rank_closed_data tl _ _ r 0 (by rw [hA1]; exact hr) (by rw [hA2]; norm_num)]
    unfold rank_weight
    rw [hcol c hc]
  refine ⟨h.1, rfl, ?_⟩
  intro k hk j hj
  simp only [iteration_prototypes]
  rw [normalize_closed_data tl _ k j (by rw [hW1]; exact hk) (by rw [hW2]; exact hj),
    normalize_closed_data tl _ k 0 (by rw [hW1]; exact hk) (by rw [hW2]; norm_num)]
  unfold normalized_data
  rw [hW k j hk hj]

/-- The loop of `train` on `cluster_data` keeps rows that are constant. -/
theorem loop_uniform_rows (tl : Tools T) (n : Nat) (lam : T) (l : List Nat)
    (s : relational_neuralgas T) (h : uniform_rows s.m_prototypes) :
    uniform_rows (loop_closed tl (example_input.cluster_data T) n lam l s).m_prototypes := by
  induction l generalizing s with
  | nil => exact h
  | cons i l ih =>
    rw [loop_closed_cons]
    exact ih _ (iteration_uniform_rows tl s.m_prototypes h n lam i)

/-- On prototypes with constant rows `use` assigns all four objects of `cluster_data` to the
same prototype. -/
theorem use_of_uniform_rows (self : relational_neuralgas T)
    (h : uniform_rows self.m_prototypes) :
    ∃ i, use self (example_input.cluster_data T) = .ok [i, i, i, i] := by
  obtain ⟨h1, h2, hu⟩ := h
  rw [use_eq_of_square self (example_input.cluster_data T) (by rw [h1]; norm_num)
    (by rw [h2]; rfl) (by rw [h2]; rfl)]
  have h4 : (example_input.cluster_data T).size2 = 4 := rfl
  have hcol : ∀ j, j < 4 →
      ublas.column (⟨self.m_prototypes.size1, 4,
        prod_data self.m_prototypes (example_input.cluster_data T)⟩ : ublas.matrix T) j =
      ublas.column (⟨self.m_prototypes.size1, 4,
        prod_data self.m_prototypes (example_input.cluster_data T)⟩ : ublas.matrix T) 0 := by
    intro j hj
    have hc2 := column_of_two_rows (⟨self.m_prototypes.size1, 4,
      prod_data self.m_prototypes (example_input.cluster_data T)⟩ : ublas.matrix T) h1
    rw [hc2 j, hc2 0]
    obtain ⟨p00, p01, p02, p03⟩ := prod_data_cluster self.m_prototypes h2 0
    obtain ⟨p10, p11, p12, p13⟩ := prod_data_cluster self.m_prototypes h2 1
    have e01 := hu 0 (by norm_num) 1 (by norm_num)
    have e02 := hu 0 (by norm_num) 2 (by norm_num)
    have e03 := hu 0 (by norm_num) 3 (by norm_num)
    have e11 := hu 1 (by norm_num) 1 (by norm_num)
    have e12 := hu 1 (by norm_num) 2 (by norm_num)
    have e13 := hu 1 (by norm_num) 3 (by norm_num)
    simp only
    interval_cases j
    · rfl
    · rw [p01, p00, p11, p10, e01, e02, e03, e11, e12, e13]
    · rw [p02, p00, p12, p10, e01, e02, e03, e11, e12, e13]
      congr 1
      · ring
      · congr 1; ring
    · rw [p03, p00, p13, p10, e01, e02, e03, e11, e12, e13]
      congr 1
      · ring
      · congr 1; ring
  refine ⟨use_index ⟨self.m_prototypes.size1, 4,
    prod_data self.m_prototypes (example_input.cluster_data T)⟩ 0, ?_⟩
  simp only [h4, List.range_succ, List.range_zero, List.nil_append, List.map_append,
    List.map_cons, List.map_nil, List.cons_append]
  have hi : ∀ j, j < 4 → use_index (⟨self.m_prototypes.size1, 4,
        prod_data self.m_prototypes (example_input.cluster_data T)⟩ : ublas.matrix T) j =
      use_index (⟨self.m_prototypes.size1, 4,
        prod_data self.m_prototypes (example_input.cluster_data T)⟩ : ublas.matrix T) 0 := by
    intro j hj
    unfold use_index
    rw [hcol j hj]
  rw [hi 1 (by norm_num), hi 2 (by norm_num), hi 3 (by norm_num)]

/-- The ranks of two values in ascending order, as the spec describes `rank`. -/
theorem rank_of_pair_lt (x y : T) (h : x < y) : tools.vector.rank [x, y] = [0, 1] := by
  simp [tools.vector.rank, List.range_succ, List.filter, h, not_lt.mpr (le_of_lt h),
    ne_of_gt h]

/-- The ranks of two values in descending order, as the spec describes `rank`. -/
theorem rank_of_pair_gt (x y : T) (h : y < x) : tools.vector.rank [x, y] = [1, 0] := by
  simp [tools.vector.rank, List.range_succ, List.filter, h, not_lt.mpr (le_of_lt h),
    ne_of_gt h, ne_of_lt h]

/-- With a tolerance below one, no value from one on is numerically zero. -/
theorem isNumericalZero_of_one_le (eps : T) (heps : eps < 1) (s : T) (hs : 1 ≤ s) :
    tools.function.isNumericalZero eps s = false := by
  unfold tools.function.isNumericalZero
  rw [decide_eq_false_iff_not, not_le, abs_of_pos (by linarith)]
  linarith

/-- The matrix `l_adaptmatrix` of the prototypes on object 0 and on object 2 separates the
clusters. -/
theorem cluster_object_separates :
    separates (adapt_closed (example_input.cluster_object T).m_prototypes
      (example_input.cluster_data T)) 0 1 := by
  have h2 : (example_input.cluster_object T).m_prototypes.size2 = 4 := rfl
  have h1 : (example_input.cluster_object T).m_prototypes.size1 = 2 := rfl
  have h4 : (example_input.cluster_data T).size2 = 4 := rfl
  have hd : ∀ r c, r < 2 → c < 4 →
      (adapt_closed (example_input.cluster_object T).m_prototypes
        (example_input.cluster_data T)).data r c =
        adapt_data (example_input.cluster_object T).m_prototypes
          (example_input.cluster_data T) r c :=
    fun r c hr hc => adapt_closed_data _ _ r c (by rw [h1]; exact hr) (by rw [h4]; exact hc)
  obtain ⟨pa0, pa1, pa2, pa3⟩ := prod_data_cluster (example_input.cluster_object T).m_prototypes h2 0
  obtain ⟨pb0, pb1, pb2, pb3⟩ := prod_data_cluster (example_input.cluster_object T).m_prototypes h2 1
  have ba := bias_val_cluster (example_input.cluster_object T).m_prototypes h2 0
  have bb := bias_val_cluster (example_input.cluster_object T).m_prototypes h2 1
  unfold separates
  rw [hd 0 0 (by norm_num) (by norm_num), hd 0 1 (by norm_num) (by norm_num),
    hd 0 2 (by norm_num) (by norm_num), hd 0 3 (by norm_num) (by norm_num),
    hd 1 0 (by norm_num) (by norm_num), hd 1 1 (by norm_num) (by norm_num),
    hd 1 2 (by norm_num) (by norm_num), hd 1 3 (by norm_num) (by norm_num)]
  simp only [adapt_data, ba, bb, pa0, pa1, pa2, pa3, pb0, pb1, pb2, pb3]
  simp [example_input.cluster_object, example_input.ofRows]
  norm_num

/-- From prototypes with constant rows, `train` with the default `lambda` on `cluster_data`
succeeds and `use` then assigns all four objects to the same prototype. -/
theorem train_default_of_uniform_rows (tl : Tools T) (self : relational_neuralgas T)
    (h : uniform_rows self.m_prototypes) (n : Nat) (hn : n ≠ 0) :
    (train_default tl self (example_input.cluster_data T) n).1 = .ok () ∧
    ∃ i, use (train_default tl self (example_input.cluster_data T) n).2
      (example_input.cluster_data T) = .ok [i, i, i, i] := by
  have hlam0 : (0 : T) < ((self.m_prototypes.size1 : ℕ) : T) * (1 / 2) := by
    rw [h.1]; norm_num
  have hacc : train_accepts self (example_input.cluster_data T) n
      (((self.m_prototypes.size1 : ℕ) : T) * (1 / 2)) := by
    refine ⟨by rw [h.1]; norm_num, ?_, hn, by rw [h.2.1]; rfl, hlam0, rfl⟩
    rw [h.1]
    show 2 ≤ 4
    norm_num
  unfold train_default
  rw [train_eq _ _ _ _ _ hacc]
  refine ⟨rfl, ?_⟩
  apply use_of_uniform_rows
  apply loop_uniform_rows
  rw [train_start_prototypes]
  exact h

/-- The sum of a list whose entries are all divided by `s`. -/
theorem list_sum_map_div (l : List T) (s : T) : (l.map fun x => x / s).sum = l.sum / s := by
  induction l with
  | nil => simp
  | cons a l ih => simp only [List.map_cons, List.sum_cons, ih, add_div]

/-- The sum of a row of a normalised matrix whose sum was not numerically zero. -/
theorem sum_row_normalize_closed_of_not_zero (tl : Tools T) (M : ublas.matrix T) (r : Nat)
    (hr : r < M.size1) (h : tl.isNumericalZero (ublas.sum (ublas.row M r)) = false) :
    ublas.sum (ublas.row (normalize_closed tl M) r) =
      ublas.sum (ublas.row M r) / ublas.sum (ublas.row M r) := by
  have hrow : ublas.row (normalize_closed tl M) r =
      (ublas.row M r).map fun x => x / ublas.sum (ublas.row M r) := by
    unfold ublas.row
    rw [List.map_map]
    apply List.map_congr_left
    intro c hc
    have hc2 : c < M.size2 := List.mem_range.mp hc
    show (normalize_closed tl M).data r c = _
    rw [normalize_closed_data tl M r c hr hc2]
    unfold normalized_data
    rw [h]
    simp [ublas.row]
  rw [hrow]
  unfold ublas.sum
  exact list_sum_map_div _ _

/-- Normalising the rows a second time changes nothing, when 1 is not numerically zero. -/
theorem normalize_closed_idem (tl : Tools T) (h1 : tl.isNumericalZero 1 = false)
    (M : ublas.matrix T) :
    normalize_closed tl (normalize_closed tl M) = normalize_closed tl M := by
  refine matrix_ext _ _ (by rfl) (by rfl) ?_
  intro r c
  by_cases hb : r < M.size1 ∧ c < M.size2
  · obtain ⟨hr, hc⟩ := hb
    rw [normalize_closed_data tl (normalize_closed tl M) r c hr hc]
    unfold normalized_data
    cases hz : tl.isNumericalZero (ublas.sum (ublas.row M r)) with
    | true =>
      rw [normalize_closed_row_of_zero tl M r hr hz, hz]
      simp
    | false =>
      rw [sum_row_normalize_closed_of_not_zero tl M r hr hz]
      by_cases hs : ublas.sum (ublas.row M r) = 0
      · rw [hs, div_zero]
        rw [hs] at hz
        rw [hz]
        simp only [Bool.false_eq_true, if_false, div_zero]
        rw [normalize_closed_data tl M r c hr hc]
        unfold normalized_data
        rw [hs, hz]
        simp
      · rw [div_self hs, h1]
        simp
  · have hb2 : ¬ (r < (normalize_closed tl M).size1 ∧ c < (normalize_closed tl M).size2) := hb
    show (if r < (normalize_closed tl M).size1 ∧ c < (normalize_closed tl M).size2 then _
      else (normalize_closed tl M).data r c) = _
    rw [if_neg hb2]

/-- The loop of the constructor and the loop of `train` over the rows are the same function. -/
theorem construct_normalize_loop_eq (tl : Tools T) (M : ublas.matrix T) (l : List Nat) :
    l.foldl (fun M i => construct_normalize_row tl M i) M =
      l.foldl (fun M i => train_normalize_row tl M i) M := rfl

/-- Every matrix that the loop of `train` leaves has the shape of the prototypes. -/
theorem loop_prototypes_shape (tl : Tools T) (D : ublas.matrix T) (n : Nat) (lam : T)
    (l : List Nat) (P : ublas.matrix T) (M : ublas.matrix T)
    (hM : M ∈ loop_prototypes tl D n lam l P) : M.size1 = P.size1 ∧ M.size2 = D.size2 := by
  induction l generalizing P with
  | nil => simp [loop_prototypes] at hM
  | cons i l ih =>
    simp only [loop_prototypes, List.mem_cons] at hM
    rcases hM with h | h
    · subst h
      exact ⟨rfl, rfl⟩
    · exact ih (iteration_prototypes tl D n lam i P) h

/-- A call of `train` keeps the shape of the prototypes and of the logged prototypes. -/
theorem train_keeps_shape (tl : Tools T) (self : relational_neuralgas T) (D : ublas.matrix T)
    (n : Nat) (lam : T) (K N : Nat)
    (h : self.m_prototypes.size1 = K ∧ self.m_prototypes.size2 = N ∧
      ∀ M, M ∈ self.m_logprototypes → M.size1 = K ∧ M.size2 = N) :
    (train tl self D n lam).2.m_prototypes.size1 = K ∧
    (train tl self D n lam).2.m_prototypes.size2 = N ∧
      ∀ M, M ∈ (train tl self D n lam).2.m_logprototypes → M.size1 = K ∧ M.size2 = N := by
  by_cases hacc : train_accepts self D n lam
  · obtain ⟨h1, h2, _⟩ := train_shape tl self D n lam hacc
    refine ⟨h1.trans h.1, h2.trans h.2.1, ?_⟩
    cases hlog : self.m_logging with
    | true =>
      rw [(train_logs_on tl self D n lam hacc hlog).1]
      intro M hM
      have := loop_prototypes_shape tl D n lam _ _ M hM
      exact ⟨this.1.trans h.1, this.2.trans (hacc.2.2.2.1.trans h.2.1)⟩
    | false =>
      rw [(train_logs_off tl self D n lam hacc hlog).1]
      exact h.2.2
  · rw [(train_error_of_not_accepts tl self D n lam hacc).2]
    exact h

/-- Every call keeps the shape of the prototypes and of the logged prototypes. -/
theorem after_calls_keeps_shape (tl : Tools T) (calls : List (call T))
    (self : relational_neuralgas T) (K N : Nat)
    (h : self.m_prototypes.size1 = K ∧ self.m_prototypes.size2 = N ∧
      ∀ M, M ∈ self.m_logprototypes → M.size1 = K ∧ M.size2 = N) :
    (after_calls tl self calls).m_prototypes.size1 = K ∧
    (after_calls tl self calls).m_prototypes.size2 = N ∧
      ∀ M, M ∈ (after_calls tl self calls).m_logprototypes → M.size1 = K ∧ M.size2 = N := by
  induction calls generalizing self with
  | nil => exact h
  | cons c cs ih =>
    simp only [after_calls, List.foldl_cons] at ih ⊢
    apply ih
    cases c with
    | train D n lam => exact train_keeps_shape tl self D n lam K N h
    | train_default D n => exact train_keeps_shape tl self D n _ K N h
    | use D => exact h
    | setLogging p => exact h

/-- The weights that the rank loop writes are not negative when `exp` is not. -/
theorem rank_weight_nonneg (tl : Tools T) (hexp : ∀ x, 0 ≤ tl.exp x) (l_lambda : T)
    (A : ublas.matrix T) (r c : Nat) : 0 ≤ rank_weight tl l_lambda A r c := by
  unfold rank_weight
  rw [List.getD_eq_getElem?_getD, List.getElem?_map]
  cases (tl.rank (ublas.column A c))[r]? with
  | none => exact le_refl 0
  | some p => exact hexp _

/-- The entries of a row without negative entries after the normalisation loop. -/
theorem normalized_data_bounds (tl : Tools T) (A : ublas.matrix T) (r c : Nat)
    (hc : c < A.size2) (hnn : ∀ j, j < A.size2 → 0 ≤ A.data r j) :
    0 ≤ normalized_data tl A r c ∧
    (tl.isNumericalZero (ublas.sum (ublas.row A r)) = false → normalized_data tl A r c ≤ 1) := by
  have hrow : ∀ x, x ∈ ublas.row A r → 0 ≤ x := by
    intro x hx
    unfold ublas.row at hx
    obtain ⟨j, hj, rfl⟩ := List.mem_map.mp hx
    exact hnn j (List.mem_range.mp hj)
  have hs : 0 ≤ ublas.sum (ublas.row A r) := List.sum_nonneg hrow
  have hle : A.data r c ≤ ublas.sum (ublas.row A r) := by
    apply List.single_le_sum hrow
    unfold ublas.row
    exact List.mem_map.mpr ⟨c, List.mem_range.mpr hc, rfl⟩
  unfold normalized_data
  constructor
  · split
    · exact hnn c hc
    · exact div_nonneg (hnn c hc) hs
  · intro hz
    rw [hz]
    simp only [Bool.false_eq_true, if_false]
    exact div_le_one_of_le₀ hle hs

/-- The entries of a matrix without negative entries after the normalisation loop: none is
negative, and none is above 1 in a row that was divided by its sum. -/
theorem normalize_closed_bounds (tl : Tools T) (W : ublas.matrix T)
    (hW : ∀ r c, r < W.size1 → c < W.size2 → 0 ≤ W.data r c) (k j : Nat)
    (hk : k < W.size1) (hj : j < W.size2) :
    0 ≤ (normalize_closed tl W).data k j ∧
    (tl.isNumericalZero (ublas.sum (ublas.row W k)) = false →
      (normalize_closed tl W).data k j ≤ 1) ∧
    (tl.isNumericalZero (ublas.sum (ublas.row (normalize_closed tl W) k)) = false ∨
      ublas.sum (ublas.row (normalize_closed tl W) k) = 1 →
      (normalize_closed tl W).data k j ≤ 1) := by
  have hb := normalized_data_bounds tl W k j hj (fun c hc => hW k c hk hc)
  have hnn : ∀ c, c < W.size2 → 0 ≤ (normalize_closed tl W).data k c := by
    intro c hc
    rw [normalize_closed_data tl W k c hk hc]
    exact (normalized_data_bounds tl W k c hc (fun c hc => hW k c hk hc)).1
  rw [normalize_closed_data tl W k j hk hj]
  refine ⟨hb.1, hb.2, ?_⟩
  intro h
  cases hz : tl.isNumericalZero (ublas.sum (ublas.row W k)) with
  | false => exact hb.2 hz
  | true =>
    rcases h with h | h
    · rw [normalize_closed_row_of_zero tl W k hk hz, hz] at h
      exact Bool.noConfusion h
    · rw [← normalize_closed_data tl W k j hk hj, ← h]
      apply List.single_le_sum
      · intro x hx
        unfold ublas.row at hx
        obtain ⟨c, hc, rfl⟩ := List.mem_map.mp hx
        exact hnn c (List.mem_range.mp hc)
      · unfold ublas.row
        exact List.mem_map.mpr ⟨j, List.mem_range.mpr hj, rfl⟩

/-- The prototypes after a successful `train` are those that its last iteration leaves. -/
theorem train_last_iteration (tl : Tools T) (self : relational_neuralgas T)
    (D : ublas.matrix T) (n : Nat) (lam : T) (h : train_accepts self D n lam) :
    ∃ P, P.size1 = self.m_prototypes.size1 ∧
      (train tl self D n lam).2.m_prototypes = iteration_prototypes tl D n lam (n - 1) P := by
  rw [train_eq tl self D n lam h]
  obtain ⟨m, rfl⟩ : ∃ m, n = m + 1 := ⟨n - 1, by have := h.2.2.1; omega⟩
  refine ⟨(loop_closed tl D (m + 1) lam (List.range m) (train_start self)).m_prototypes, ?_, ?_⟩
  · rw [loop_closed_size1, train_start_prototypes]
  · rw [List.range_succ, loop_closed_append]
    rfl

/-- The lambda that the distributed `train` passes on is positive when `epsilon()` is. -/
theorem train_mpi_lambda_pos (limits : numeric_limits T) (heps : 0 < limits.epsilon)
    (self : relational_neuralgas T) : 0 < train_mpi_lambda limits self := by
  unfold train_mpi_lambda
  split
  · exact heps
  · rename_i hK
    have : (0 : T) < (self.m_prototypes.size1 : T) := Nat.cast_pos.mpr (Nat.pos_of_ne_zero hK)
    positivity

/-- The indices that `use` returns for the data `spread_data`. -/
theorem spread_use :
    use (example_input.spread_object ℚ) (example_input.spread_data ℚ) = .ok [0, 0, 1] := by
  rw [use_eq_of_square (example_input.spread_object ℚ) (example_input.spread_data ℚ)
    (by decide) rfl rfl]
  have h3 : (example_input.spread_data ℚ).size2 = 3 := rfl
  have hK : (example_input.spread_object ℚ).m_prototypes.size1 = 2 := rfl
  simp only [h3, hK, use_index, tools.vector.rankIndex, ublas.column, List.range_succ,
    List.range_zero, List.nil_append, List.map_append, List.map_cons, List.map_nil,
    List.cons_append, List.length_cons, List.length_nil]
  simp [prod_data, example_input.spread_object, example_input.spread_data,
    example_input.ofRows, List.range_succ, List.insertionSort,
    List.orderedInsert]
  norm_num

/-- Column 0 of the matrix `l_adaptmatrix` of `train` for the data `spread_data`. -/
theorem spread_adapt_col0 :
    ublas.column (adapt_closed (example_input.spread_object ℚ).m_prototypes
      (example_input.spread_data ℚ)) 0 = [9 / 4, 0] := by
  simp [ublas.column, adapt_closed, adapt_data, prod_data, bias_val, ublas.inner_prod,
    ublas.row, example_input.spread_object, example_input.spread_data,
    example_input.ofRows, List.range_succ]
  norm_num

/-- The ranks of column 0 of the matrix `l_adaptmatrix` for the data `spread_data`. -/
theorem spread_rank_col0 : tools.vector.rank ([9 / 4, 0] : List ℚ) = [1, 0] :=
  rank_of_pair_gt _ _ (by norm_num)

/-- A column of the matrix after the rank loop is the list that the loop assigned to it. -/
theorem column_rank_closed (tl : Tools T) (l_lambda : T) (A : ublas.matrix T) (j : Nat)
    (hj : j < A.size2) (hlen : (tl.rank (ublas.column A j)).length = A.size1) :
    ublas.column (rank_closed tl l_lambda A) j =
      (tl.rank (ublas.column A j)).map fun p => tl.exp (-p / l_lambda) := by
  have hl : ((tl.rank (ublas.column A j)).map fun p => tl.exp (-p / l_lambda)).length =
      A.size1 := by
    rw [List.length_map, hlen]
  have h := map_getD_range ((tl.rank (ublas.column A j)).map fun p => tl.exp (-p / l_lambda)) 0
  rw [hl] at h
  rw [← h]
  unfold ublas.column
  show (List.range A.size1).map _ = _
  apply List.map_congr_left
  intro r hr
  rw [rank_closed_data tl l_lambda A r j (List.mem_range.mp hr) hj]
  rfl

/-- The temperature of an iteration is positive for a positive `lambda` and a positive
`pow`. -/
theorem train_lambda_pos (tl : Tools T) (hpow : ∀ x y : T, 0 < x → 0 < tl.pow x y)
    (n : Nat) (lam : T) (hlam : 0 < lam) (i : Nat) : 0 < train_lambda tl n lam i := by
  unfold train_lambda
  exact mul_pos hlam (hpow _ _ (div_pos (by norm_num) hlam))

/-- The values `exp(-r / l)`, `r = 0..K-1`, for a positive `l`: they lie in `(0, 1]` and
exactly the first one is 1. -/
theorem exp_ranks_spec (tl : Tools T) (he0 : tl.exp 0 = 1) (hepos : ∀ x, 0 < tl.exp x)
    (he : ∀ x : T, x < 0 → tl.exp x < 1) (l : T) (hl : 0 < l) (K : Nat) (hK : K ≠ 0) :
    (∀ x, x ∈ (List.range K).map (fun r : Nat => tl.exp (-(r : T) / l)) → 0 < x ∧ x ≤ 1) ∧
    ((List.range K).map fun r : Nat => tl.exp (-(r : T) / l)).count 1 = 1 := by
  have hlt : ∀ r : Nat, r ≠ 0 → tl.exp (-(r : T) / l) < 1 := by
    intro r hr
    apply he
    have : (0 : T) < (r : T) := Nat.cast_pos.mpr (Nat.pos_of_ne_zero hr)
    exact div_neg_of_neg_of_pos (by linarith) hl
  have h0 : tl.exp (-((0 : Nat) : T) / l) = 1 := by
    rw [Nat.cast_zero, neg_zero, zero_div, he0]
  constructor
  · intro x hx
    obtain ⟨r, _, rfl⟩ := List.mem_map.mp hx
    refine ⟨hepos _, ?_⟩
    by_cases hr : r = 0
    · subst hr
      exact le_of_eq h0
    · exact le_of_lt (hlt r hr)
  · obtain ⟨m, rfl⟩ : ∃ m, K = m + 1 := ⟨K - 1, by omega⟩
    rw [List.range_succ_eq_map, List.map_cons, h0, List.count_cons_self, List.map_map]
    have : List.count 1 (List.map ((fun r : Nat => tl.exp (-(r : T) / l)) ∘ Nat.succ)
        (List.range m)) = 0 := by
      apply List.count_eq_zero_of_not_mem
      intro hmem
      obtain ⟨r, _, hr⟩ := List.mem_map.mp hmem
      exact absurd hr (ne_of_lt (hlt (r + 1) (Nat.succ_ne_zero r)))
    rw [this]

/-- The product with rescaled data is the rescaled product. -/
theorem prod_data_scale (P Q D : ublas.matrix T) (c : T) (i j : Nat)
    (hsz : P.size2 = Q.size2) (h : ∀ k, k < Q.size2 → P.data i k = Q.data i k) :
    prod_data P (ublas.scale c D) i j = c * prod_data Q D i j := by
  unfold prod_data
  rw [list_sum_map_range, list_sum_map_range, hsz, Finset.mul_sum]
  apply Finset.sum_congr rfl
  intro k hk
  rw [h k (Finset.mem_range.mp hk)]
  show Q.data i k * (c * D.data k j) = _
  ring

/-- The bias value as a sum over the columns. -/
theorem bias_val_eq_sum (P D : ublas.matrix T) (hD : D.size2 = P.size2) (r : Nat) :
    bias_val P ⟨P.size1, D.size2, prod_data P D⟩ r =
      (1 / 2) * Finset.sum (Finset.range P.size2) fun j => P.data r j * prod_data P D r j := by
  unfold bias_val ublas.inner_prod ublas.row
  show (1 / 2) * (List.zipWith (fun x y => x * y)
    ((List.range P.size2).map fun j => P.data r j)
    ((List.range D.size2).map fun j => prod_data P D r j)).sum = _
  rw [hD, zipWith_map_same, list_sum_map_range]

/-- The bias value with rescaled data is the rescaled bias value. -/
theorem bias_val_scale (P Q D : ublas.matrix T) (c : T) (r : Nat)
    (hD : D.size2 = P.size2) (hsz : P.size2 = Q.size2)
    (h : ∀ k, k < Q.size2 → P.data r k = Q.data r k) :
    bias_val P ⟨P.size1, (ublas.scale c D).size2, prod_data P (ublas.scale c D)⟩ r =
      c * bias_val Q ⟨Q.size1, D.size2, prod_data Q D⟩ r := by
  have hsum : (Finset.sum (Finset.range Q.size2) fun j =>
      P.data r j * prod_data P (ublas.scale c D) r j) =
      c * Finset.sum (Finset.range Q.size2) fun j => Q.data r j * prod_data Q D r j := by
    rw [Finset.mul_sum]
    apply Finset.sum_congr rfl
    intro j hj
    rw [prod_data_scale P Q D c r j hsz h, h j (Finset.mem_range.mp hj)]
    ring
  rw [bias_val_eq_sum P (ublas.scale c D) hD r, bias_val_eq_sum Q D (hD.trans hsz) r, hsz,
    hsum]
  ring

/-- The entries of `l_adaptmatrix` with rescaled data are the rescaled entries. -/
theorem adapt_closed_scale (P Q D : ublas.matrix T) (c : T) (hD : D.size2 = P.size2)
    (hPQ : ublas.same_entries P Q) (r j : Nat) (hr : r < P.size1) (hj : j < D.size2) :
    (adapt_closed P (ublas.scale c D)).data r j = c * (adapt_closed Q D).data r j := by
  have hrow : ∀ k, k < Q.size2 → P.data r k = Q.data r k :=
    fun k hk => hPQ.2.2 r k hr (by rw [hPQ.2.1]; exact hk)
  rw [adapt_closed_data P (ublas.scale c D) r j hr hj,
    adapt_closed_data Q D r j (by rw [← hPQ.1]; exact hr) hj]
  unfold adapt_data
  rw [bias_val_scale P Q D c r hD hPQ.2.1 hrow, prod_data_scale P Q D c r j hPQ.2.1 hrow]
  ring

/-- The columns of `l_adaptmatrix` with rescaled data are the rescaled columns. -/
theorem column_adapt_closed_scale (P Q D : ublas.matrix T) (c : T) (hD : D.size2 = P.size2)
    (hPQ : ublas.same_entries P Q) (j : Nat) (hj : j < D.size2) :
    ublas.column (adapt_closed P (ublas.scale c D)) j =
      (ublas.column (adapt_closed Q D) j).map fun x => c * x := by
  unfold ublas.column
  rw [List.map_map]
  show (List.range P.size1).map _ = (List.range Q.size1).map _
  rw [← hPQ.1]
  apply List.map_congr_left
  intro r hr
  exact adapt_closed_scale P Q D c hD hPQ r j (List.mem_range.mp hr) hj

/-- The matrix after the rank loop is the same for rescaled data, for a `rank` that positive
rescaling does not change. -/
theorem rank_closed_scale (tl : Tools T) (c : T) (hc : 0 < c)
    (hrank : ∀ (c : T) (v : List T), 0 < c → tl.rank (v.map fun x => c * x) = tl.rank v)
    (l_lambda : T) (P Q D : ublas.matrix T) (hD : D.size2 = P.size2)
    (hPQ : ublas.same_entries P Q) :
    ublas.same_entries (rank_closed tl l_lambda (adapt_closed P (ublas.scale c D)))
      (rank_closed tl l_lambda (adapt_closed Q D)) := by
  refine ⟨hPQ.1, rfl, ?_⟩
  intro r j hr hj
  have hr2 : r < (adapt_closed Q D).size1 := by
    have : r < P.size1 := hr
    rw [hPQ.1] at this
    exact this
  rw [rank_closed_data tl l_lambda (adapt_closed P (ublas.scale c D)) r j hr hj,
    rank_closed_data tl l_lambda (adapt_closed Q D) r j hr2 hj]
  unfold rank_weight
  rw [column_adapt_closed_scale P Q D c hD hPQ j hj, hrank c _ hc]

/-- The normalisation loop gives the same entries on matrices with the same entries. -/
theorem normalize_closed_same_entries (tl : Tools T) (A B : ublas.matrix T)
    (h : ublas.same_entries A B) :
    ublas.same_entries (normalize_closed tl A) (normalize_closed tl B) := by
  refine ⟨h.1, h.2.1, ?_⟩
  intro r j hr hj
  have hr1 : r < A.size1 := hr
  have hj1 : j < A.size2 := hj
  have hrow : ublas.row A r = ublas.row B r :=
    row_congr_within A B r h.2.1 (fun c hc => h.2.2 r c hr1 (by rw [h.2.1]; exact hc))
  rw [normalize_closed_data tl A r j hr1 hj1,
    normalize_closed_data tl B r j (by rw [← h.1]; exact hr1) (by rw [← h.2.1]; exact hj1)]
  unfold normalized_data
  rw [hrow, h.2.2 r j hr1 hj1]

/-- An iteration on rescaled data leaves the same prototypes. -/
theorem iteration_prototypes_scale (tl : Tools T) (c : T) (hc : 0 < c)
    (hrank : ∀ (c : T) (v : List T), 0 < c → tl.rank (v.map fun x => c * x) = tl.rank v)
    (D : ublas.matrix T) (n : Nat) (lam : T) (i : Nat) (P Q : ublas.matrix T)
    (hD : D.size2 = P.size2) (hPQ : ublas.same_entries P Q) :
    ublas.same_entries (iteration_prototypes tl (ublas.scale c D) n lam i P)
      (iteration_prototypes tl D n lam i Q) := by
  unfold iteration_prototypes
  exact normalize_closed_same_entries tl _ _ (rank_closed_scale tl c hc hrank _ P Q D hD hPQ)

/-- The scan for the minimum of rescaled values gives the rescaled minimum. -/
theorem column_scan_scale (c : T) (hc : 0 < c) (f g : Nat → T) (l : List Nat)
    (h : ∀ i, i ∈ l → f i = c * g i) (init : T) :
    l.foldl (fun m i => if f i < m then f i else m) (c * init) =
      c * l.foldl (fun m i => if g i < m then g i else m) init := by
  induction l generalizing init with
  | nil => rfl
  | cons a l ih =>
    simp only [List.foldl_cons]
    have ha := h a (List.mem_cons_self a l)
    have ih2 := fun init => ih (fun i hi => h i (List.mem_cons_of_mem a hi)) init
    by_cases hlt : g a < init
    · rw [if_pos hlt, ha, if_pos ((mul_lt_mul_left hc).mpr hlt)]
      exact ih2 (g a)
    · rw [if_neg hlt, ha, if_neg (fun hh => hlt ((mul_lt_mul_left hc).mp hh))]
      exact ih2 init

/-- The sum of a list whose entries are all multiplied by `c`. -/
theorem list_sum_map_mul (l : List T) (c : T) : (l.map fun x => c * x).sum = c * l.sum := by
  induction l with
  | nil => simp
  | cons a l ih => simp only [List.map_cons, List.sum_cons, ih, mul_add]

/-- The quantization error with rescaled data is the rescaled quantization error. -/
theorem quantization_error_scale (s s2 : relational_neuralgas T) (c : T) (hc : 0 < c)
    (P Q D : ublas.matrix T) (hK : P.size1 ≠ 0) (hD : D.size2 = P.size2)
    (hPQ : ublas.same_entries P Q) :
    calculateQuantizationError s (adapt_closed P (ublas.scale c D)) =
      c * calculateQuantizationError s2 (adapt_closed Q D) := by
  unfold calculateQuantizationError ublas.sum tools.matrix.min
  have hmin : (List.range (adapt_closed P (ublas.scale c D)).size2).map (fun j =>
      (List.range (adapt_closed P (ublas.scale c D)).size1).foldl
        (fun m i => if (adapt_closed P (ublas.scale c D)).data i j < m then
          (adapt_closed P (ublas.scale c D)).data i j else m)
        ((adapt_closed P (ublas.scale c D)).data 0 j)) =
      ((List.range (adapt_closed Q D).size2).map (fun j =>
        (List.range (adapt_closed Q D).size1).foldl
          (fun m i => if (adapt_closed Q D).data i j < m then
            (adapt_closed Q D).data i j else m)
          ((adapt_closed Q D).data 0 j))).map fun x => c * x := by
    rw [List.map_map]
    show (List.range D.size2).map _ = (List.range D.size2).map _
    apply List.map_congr_left
    intro j hj
    have hj2 : j < D.size2 := List.mem_range.mp hj
    show (List.range P.size1).foldl _ _ = c * (List.range Q.size1).foldl _ _
    rw [adapt_closed_scale P Q D c hD hPQ 0 j (Nat.pos_of_ne_zero hK) hj2, ← hPQ.1]
    apply column_scan_scale c hc
    intro i hi
    exact adapt_closed_scale P Q D c hD hPQ i j (List.mem_range.mp hi) hj2
  rw [hmin, list_sum_map_mul]
  ring

/-- The prototypes that the iterations on rescaled data leave are the same. -/
theorem loop_prototypes_scale (tl : Tools T) (c : T) (hc : 0 < c)
    (hrank : ∀ (c : T) (v : List T), 0 < c → tl.rank (v.map fun x => c * x) = tl.rank v)
    (D : ublas.matrix T) (n : Nat) (lam : T) (l : List Nat) (P Q : ublas.matrix T)
    (hD : D.size2 = P.size2) (hPQ : ublas.same_entries P Q) :
    List.Forall₂ ublas.same_entries (loop_prototypes tl (ublas.scale c D) n lam l P)
      (loop_prototypes tl D n lam l Q) := by
  induction l generalizing P Q with
  | nil => exact List.Forall₂.nil
  | cons i l ih =>
    simp only [loop_prototypes]
    have h1 := iteration_prototypes_scale tl c hc hrank D n lam i P Q hD hPQ
    exact List.Forall₂.cons h1 (ih (iteration_prototypes tl (ublas.scale c D) n lam i P)
      (iteration_prototypes tl D n lam i Q) rfl h1)

/-- The quantization errors of the iterations on rescaled data are the rescaled errors. -/
theorem loop_errors_scale (tl : Tools T) (c : T) (hc : 0 < c)
    (hrank : ∀ (c : T) (v : List T), 0 < c → tl.rank (v.map fun x => c * x) = tl.rank v)
    (s s2 : relational_neuralgas T)
    (D : ublas.matrix T) (n : Nat) (lam : T) (l : List Nat) (P Q : ublas.matrix T)
    (hK : P.size1 ≠ 0) (hD : D.size2 = P.size2) (hPQ : ublas.same_entries P Q) :
    loop_errors tl (ublas.scale c D) n lam s l P =
      (loop_errors tl D n lam s2 l Q).map fun e => c * e := by
  induction l generalizing P Q with
  | nil => rfl
  | cons i l ih =>
    simp only [loop_errors, List.map_cons]
    have h1 := iteration_prototypes_scale tl c hc hrank D n lam i P Q hD hPQ
    rw [quantization_error_scale s s2 c hc P Q D hK hD hPQ,
      ih (iteration_prototypes tl (ublas.scale c D) n lam i P)
        (iteration_prototypes tl D n lam i Q) hK rfl h1]

/-- The prototypes after the iterations on rescaled data are the same. -/
theorem loop_closed_scale (tl : Tools T) (c : T) (hc : 0 < c)
    (hrank : ∀ (c : T) (v : List T), 0 < c → tl.rank (v.map fun x => c * x) = tl.rank v)
    (D : ublas.matrix T) (n : Nat) (lam : T) (l : List Nat) (s s2 : relational_neuralgas T)
    (hD : D.size2 = s.m_prototypes.size2)
    (hPQ : ublas.same_entries s.m_prototypes s2.m_prototypes) :
    ublas.same_entries (loop_closed tl (ublas.scale c D) n lam l s).m_prototypes
      (loop_closed tl D n lam l s2).m_prototypes := by
  induction l generalizing s s2 with
  | nil => exact hPQ
  | cons i l ih =>
    rw [loop_closed_cons, loop_closed_cons]
    exact ih _ _ rfl (iteration_prototypes_scale tl c hc hrank D n lam i _ _ hD hPQ)

theorem isNumericalZero_of_lt (eps x : T) (h : eps < |x|) :
    tools.function.isNumericalZero eps x = false := by
  unfold tools.function.isNumericalZero
  exact decide_eq_false (not_le.mpr h)

theorem lt_of_isNumericalZero_false (eps x : T)
    (h : tools.function.isNumericalZero eps x = false) : eps < |x| := by
  unfold tools.function.isNumericalZero at h
  exact not_le.mp (of_decide_eq_false h)
/-- The row of `ten_ones`. -/
theorem ten_ones_row : ublas.row (example_input.ten_ones T) 0 = List.replicate 10 1 := by
  simp [ublas.row, example_input.ten_ones, List.range_succ, List.replicate]

/-- The ranks of two values are `0` and `1` in one order or the other. -/
theorem rank_of_pair_cases (x y : T) :
    tools.vector.rank [x, y] = [0, 1] ∨ tools.vector.rank [x, y] = [1, 0] := by
  rcases lt_trichotomy x y with h | h | h
  · exact Or.inl (rank_of_pair_lt x y h)
  · subst h
    left
    simp [tools.vector.rank, List.range_succ]
  · exact Or.inr (rank_of_pair_gt x y h)

end lemmas

end relational_neuralgas

/-! ## The loops with rounding compute their closed forms -/

namespace rounded

section rounded_lemmas

open relational_neuralgas

variable {T : Type} [LinearOrderedField T]

theorem train_bias_row_spec_fl (fl : T → T) (P A : ublas.matrix T) (n : Nat) :
    (train_bias_row fl P A n).size1 = A.size1 ∧ (train_bias_row fl P A n).size2 = A.size2 ∧
    ∀ r c, (train_bias_row fl P A n).data r c =
      if r = n ∧ c < A.size2 then fl (A.data r c - bias_val fl P A n) else A.data r c := by
  have h := foldl_range_data A
    (fun M j => ublas.assign M n j (fl (M.data n j - bias_val fl P A n)))
    (fun j r c => r = n ∧ c = j) (fun M r c => fl (M.data r c - bias_val fl P A n))
    (fun _ _ => rfl) (fun _ _ => rfl)
    (by
      intro M j r c _ _
      simp only [ublas.assign]
      by_cases h : r = n ∧ c = j
      · rw [if_pos h, if_pos h, h.1, h.2]
      · rw [if_neg h, if_neg h])
    (by
      intro M j r c _ _ hM hs
      simp only
      rw [hM r c]
      rintro ⟨m, hm, _, hc⟩
      omega)
    A.size2
  obtain ⟨h1, h2, h3⟩ := h
  refine ⟨h1, h2, ?_⟩
  intro r c
  have := h3 r c
  simp only [train_bias_row, bias_val] at this ⊢
  rw [this]
  by_cases hc : r = n ∧ c < A.size2
  · rw [if_pos hc, if_pos ⟨c, hc.2, hc.1, rfl⟩]
  · rw [if_neg hc, if_neg]
    rintro ⟨m, hm, hr, rfl⟩
    exact hc ⟨hr, hm⟩

theorem prod_ok_fl (fl : T → T) (P D : ublas.matrix T) (h : P.size2 = D.size1) :
    prod fl P D = .ok ⟨P.size1, D.size2, prod_data fl P D⟩ := by
  unfold prod
  rw [if_pos h]
  rfl

theorem train_adaptmatrix_spec_fl (fl : T → T) (P D : ublas.matrix T) (h : P.size2 = D.size1) :
    ∃ A, train_adaptmatrix fl P D = .ok A ∧ A.size1 = P.size1 ∧ A.size2 = D.size2 ∧
      ∀ r c, A.data r c =
        if r < P.size1 ∧ c < D.size2 then adapt_data fl P D r c else prod_data fl P D r c := by
  have hl := foldl_range_data (⟨P.size1, D.size2, prod_data fl P D⟩ : ublas.matrix T)
    (fun M n => train_bias_row fl P M n)
    (fun n r c => r = n ∧ c < D.size2)
    (fun M r c => fl (M.data r c - bias_val fl P M r))
    (fun M n => (train_bias_row_spec_fl fl P M n).1) (fun M n => (train_bias_row_spec_fl fl P M n).2.1)
    (by
      intro M n r c _ h2
      rw [(train_bias_row_spec_fl fl P M n).2.2 r c, h2]
      by_cases hc : r = n ∧ c < D.size2
      · rw [if_pos hc, if_pos hc, hc.1]
      · rw [if_neg hc, if_neg hc])
    (by
      intro M n r c _ h2 hM hs
      have hrow : ublas.row M r = ublas.row ⟨P.size1, D.size2, prod_data fl P D⟩ r := by
        apply row_congr _ _ _ h2
        intro c'
        apply hM
        rintro ⟨m, hm, hr, _⟩
        omega
      have hrc : M.data r c = prod_data fl P D r c := by
        apply hM
        rintro ⟨m, hm, hr, _⟩
        omega
      simp only [bias_val, hrow, hrc])
    P.size1
  obtain ⟨h1, h2, h3⟩ := hl
  refine ⟨_, ?_, h1, h2, ?_⟩
  · unfold train_adaptmatrix
    rw [prod_ok_fl fl P D h]
  · intro r c
    rw [h3]
    by_cases hc : r < P.size1 ∧ c < D.size2
    · rw [if_pos hc, if_pos ⟨r, hc.1, rfl, hc.2⟩]
      rfl
    · rw [if_neg hc, if_neg]
      rintro ⟨m, hm, hr, hc2⟩
      exact hc ⟨hr ▸ hm, hc2⟩

theorem train_adaptmatrix_eq_fl (fl : T → T) (P D : ublas.matrix T) (h : P.size2 = D.size1) :
    train_adaptmatrix fl P D = .ok (adapt_closed fl P D) := by
  obtain ⟨A, hA, h1, h2, h3⟩ := train_adaptmatrix_spec_fl fl P D h
  rw [hA]
  congr 1
  exact matrix_ext _ _ h1 h2 h3

theorem train_rank_column_eq_fl (fl : T → T) (tl : Tools T) (l_lambda : T) (M : ublas.matrix T)
    (n : Nat) :
    train_rank_column fl tl l_lambda M n =
      relational_neuralgas.train_rank_column (exp_tools fl tl) l_lambda M n := rfl

theorem train_rank_loop_eq_fl (fl : T → T) (tl : Tools T) (l_lambda : T) (A : ublas.matrix T) :
    (List.range A.size2).foldl (fun M n => train_rank_column fl tl l_lambda M n) A =
      rank_closed (exp_tools fl tl) l_lambda A :=
  relational_neuralgas.train_rank_loop_eq (exp_tools fl tl) l_lambda A

theorem train_normalize_loop_spec_fl (fl : T → T) (tl : Tools T) (A : ublas.matrix T) :
    ((List.range A.size1).foldl (fun M i => train_normalize_row fl tl M i) A).size1 = A.size1 ∧
    ((List.range A.size1).foldl (fun M i => train_normalize_row fl tl M i) A).size2 = A.size2 ∧
    ∀ r c, ((List.range A.size1).foldl (fun M i => train_normalize_row fl tl M i) A).data r c =
      if r < A.size1 ∧ c < A.size2 then normalized_data fl tl A r c else A.data r c := by
  have hf1 : ∀ (M : ublas.matrix T) n, (train_normalize_row fl tl M n).size1 = M.size1 := by
    intro M n
    unfold train_normalize_row
    simp only
    split <;> rfl
  have hf2 : ∀ (M : ublas.matrix T) n, (train_normalize_row fl tl M n).size2 = M.size2 := by
    intro M n
    unfold train_normalize_row
    simp only
    split <;> rfl
  have hl := foldl_range_data A (fun M i => train_normalize_row fl tl M i)
    (fun n r c => r = n ∧ c < A.size2)
    (fun M r c => normalized_data fl tl M r c) hf1 hf2
    (by
      intro M n r c _ h2
      simp only [train_normalize_row, normalized_data]
      by_cases hc : r = n ∧ c < A.size2
      · rw [if_pos hc, hc.1]
        cases hz : tl.isNumericalZero (sum fl (ublas.row M n))
        · simp [row_div, h2, hc.2]
        · simp
      · rw [if_neg hc]
        cases hz : tl.isNumericalZero (sum fl (ublas.row M n))
        · simp only [Bool.not_false, if_true, row_div, h2]
          rw [if_neg hc]
        · simp)
    (by
      intro M n r c _ h2 hM hs
      have hrow : ublas.row M r = ublas.row A r := by
        apply row_congr _ _ _ h2
        intro c'
        apply hM
        rintro ⟨m, hm, hr, _⟩
        omega
      have hrc : M.data r c = A.data r c := by
        apply hM
        rintro ⟨m, hm, hr, _⟩
        omega
      simp only [normalized_data, hrow, hrc])
    A.size1
  obtain ⟨h1, h2, h3⟩ := hl
  refine ⟨h1, h2, ?_⟩
  intro r c
  rw [h3]
  by_cases hc : r < A.size1 ∧ c < A.size2
  · rw [if_pos hc, if_pos ⟨r, hc.1, rfl, hc.2⟩]
  · rw [if_neg hc, if_neg]
    rintro ⟨m, hm, hr, hc2⟩
    exact hc ⟨hr ▸ hm, hc2⟩

theorem train_normalize_loop_eq_fl (fl : T → T) (tl : Tools T) (A : ublas.matrix T) :
    (List.range A.size1).foldl (fun M i => train_normalize_row fl tl M i) A =
      normalize_closed fl tl A := by
  obtain ⟨h1, h2, h3⟩ := train_normalize_loop_spec_fl fl tl A
  exact matrix_ext _ _ h1 h2 h3

theorem train_iteration_eq_fl (fl : T → T) (tl : Tools T) (p_data : ublas.matrix T)
    (p_iterations : Nat) (p_lambda : T) (i : Nat) (self : relational_neuralgas T)
    (h : self.m_prototypes.size2 = p_data.size1) :
    train_iteration fl tl p_data p_iterations p_lambda i self =
      (.ok (), iteration_closed fl tl p_data p_iterations p_lambda i self) := by
  unfold train_iteration
  rw [train_adaptmatrix_eq_fl _ _ _ h]
  simp only
  rw [train_rank_loop_eq_fl, train_normalize_loop_eq_fl]
  cases hl : self.m_logging <;> simp [iteration_closed, iteration_prototypes, hl]

theorem loop_closed_cons_fl (fl : T → T) (tl : Tools T) (D : ublas.matrix T) (n : Nat) (lam : T)
    (i : Nat) (l : List Nat) (s : relational_neuralgas T) :
    loop_closed fl tl D n lam (i :: l) s =
      loop_closed fl tl D n lam l (iteration_closed fl tl D n lam i s) := rfl

theorem loop_closed_append_fl (fl : T → T) (tl : Tools T) (D : ublas.matrix T) (n : Nat) (lam : T)
    (l l2 : List Nat) (s : relational_neuralgas T) :
    loop_closed fl tl D n lam (l ++ l2) s =
      loop_closed fl tl D n lam l2 (loop_closed fl tl D n lam l s) := by
  unfold loop_closed
  rw [List.foldl_append]

theorem loop_closed_size1_fl (fl : T → T) (tl : Tools T) (D : ublas.matrix T) (n : Nat) (lam : T)
    (l : List Nat) (self : relational_neuralgas T) :
    (loop_closed fl tl D n lam l self).m_prototypes.size1 = self.m_prototypes.size1 := by
  induction l generalizing self with
  | nil => rfl
  | cons i l ih =>
    rw [loop_closed_cons_fl, ih]
    rfl

theorem train_loop_eq_fl (fl : T → T) (tl : Tools T) (D : ublas.matrix T) (n : Nat) (lam : T)
    (hsq : D.size1 = D.size2) (l : List Nat) (self : relational_neuralgas T)
    (h : self.m_prototypes.size2 = D.size1) :
    train_loop fl tl D n lam l self = (.ok (), loop_closed fl tl D n lam l self) := by
  induction l generalizing self with
  | nil => rfl
  | cons i l ih =>
    simp only [train_loop]
    rw [train_iteration_eq_fl fl tl D n lam i self h]
    simp only
    rw [ih (iteration_closed fl tl D n lam i self) hsq.symm, loop_closed_cons_fl]

/-- A call of `train` that passes the checks runs all iterations. -/
theorem train_eq_fl (fl : T → T) (tl : Tools T) (self : relational_neuralgas T)
    (D : ublas.matrix T) (n : Nat) (lam : T) (h : train_accepts self D n lam) :
    train fl tl self D n lam =
      (.ok (), loop_closed fl tl D n lam (List.range n) (train_start self)) := by
  obtain ⟨h1, h2, h3, h4, h5, h6⟩ := h
  unfold train
  rw [if_neg h1, if_neg (not_lt.mpr h2), if_neg h3, if_neg (not_not.mpr h4),
    if_neg (not_le.mpr h5), if_neg (not_not.mpr h6)]
  have hs : (train_start self).m_prototypes.size2 = D.size1 := by
    rw [train_start_prototypes, ← h4, h6]
  exact train_loop_eq_fl fl tl D n lam h6 (List.range n) (train_start self) hs

/-- A call of `train` that fails a check throws and leaves the object as it was. -/
theorem train_error_of_not_accepts_fl (fl : T → T) (tl : Tools T) (self : relational_neuralgas T)
    (D : ublas.matrix T) (n : Nat) (lam : T) (h : ¬ train_accepts self D n lam) :
    (∃ e, (train fl tl self D n lam).1 = .error e) ∧ (train fl tl self D n lam).2 = self := by
  rw [not_train_accepts_iff] at h
  unfold train
  by_cases h1 : self.m_prototypes.size1 = 0
  · rw [if_pos h1]; exact ⟨⟨_, rfl⟩, rfl⟩
  rw [if_neg h1]
  by_cases h2 : D.size1 < self.m_prototypes.size1
  · rw [if_pos h2]; exact ⟨⟨_, rfl⟩, rfl⟩
  rw [if_neg h2]
  by_cases h3 : n = 0
  · rw [if_pos h3]; exact ⟨⟨_, rfl⟩, rfl⟩
  rw [if_neg h3]
  by_cases h4 : D.size2 ≠ self.m_prototypes.size2
  · rw [if_pos h4]; exact ⟨⟨_, rfl⟩, rfl⟩
  rw [if_neg h4]
  by_cases h5 : lam ≤ 0
  · rw [if_pos h5]; exact ⟨⟨_, rfl⟩, rfl⟩
  rw [if_neg h5]
  by_cases h6 : D.size1 ≠ D.size2
  · rw [if_pos h6]; exact ⟨⟨_, rfl⟩, rfl⟩
  exfalso
  rcases h with h | h | h | h | h | h
  · exact h1 h
  · exact h2 h
  · exact h3 h
  · exact h4 h
  · exact h5 h
  · exact h6 h

/-- The prototypes after a successful `train` are those that its last iteration leaves. -/
theorem train_last_iteration_fl (fl : T → T) (tl : Tools T) (self : relational_neuralgas T)
    (D : ublas.matrix T) (n : Nat) (lam : T) (h : train_accepts self D n lam) :
    ∃ P, P.size1 = self.m_prototypes.size1 ∧
      (train fl tl self D n lam).2.m_prototypes =
        iteration_prototypes fl tl D n lam (n - 1) P := by
  rw [train_eq_fl fl tl self D n lam h]
  obtain ⟨m, rfl⟩ : ∃ m, n = m + 1 := ⟨n - 1, by have := h.2.2.1; omega⟩
  refine ⟨(loop_closed fl tl D (m + 1) lam (List.range m) (train_start self)).m_prototypes,
    ?_, ?_⟩
  · rw [loop_closed_size1_fl, train_start_prototypes]
  · rw [List.range_succ, loop_closed_append_fl]
    rfl

theorem normalize_closed_data_fl (fl : T → T) (tl : Tools T) (R : ublas.matrix T) (k j : Nat)
    (hk : k < R.size1) (hj : j < R.size2) :
    (normalize_closed fl tl R).data k j = normalized_data fl tl R k j := by
  simp only [normalize_closed]
  rw [if_pos ⟨hk, hj⟩]

/-- The object that the constructor builds for a positive prototype size. -/
theorem construct_eq_fl (fl : T → T) (tl : Tools T) (values : Nat → Nat → T) (K N : Nat)
    (hN : N ≠ 0) :
    construct fl tl values K N =
      .ok ⟨normalize_closed fl tl ⟨K, N, values⟩, false, [], [], true⟩ := by
  unfold construct
  simp only [tools.matrix.random]
  rw [if_neg hN]
  have := train_normalize_loop_eq_fl fl tl (⟨K, N, values⟩ : ublas.matrix T)
  simp only at this
  show Except.ok _ = _
  congr 2

theorem sum_append_fl (fl : T → T) (l : List T) (x : T) :
    sum fl (l ++ [x]) = fl (sum fl l + x) := by
  simp [sum, List.foldl_append]

/-- The error of the computed sum of entries that are not negative. -/
theorem sum_error_fl (fl : T → T) (u eta : T) (hu : 0 ≤ u) (heta : 0 ≤ eta)
    (hfl : ∀ x, |fl x - x| ≤ u * |x| + eta) (v : List T) (hv : ∀ x, x ∈ v → 0 ≤ x) :
    |sum fl v - v.sum| ≤
      ((1 + u) ^ v.length - 1) * v.sum + v.length * (1 + u) ^ v.length * eta := by
  induction v using List.reverseRecOn with
  | nil => simp [sum]
  | append_singleton l x ih =>
    have hl : ∀ y, y ∈ l → 0 ≤ y := fun y hy => hv y (List.mem_append_left _ hy)
    have hx : 0 ≤ x := hv x (List.mem_append_right _ (List.mem_singleton_self x))
    have hS : 0 ≤ l.sum := List.sum_nonneg hl
    have ih2 := ih hl
    rw [sum_append_fl, List.sum_append, List.length_append, List.sum_singleton,
      List.length_singleton, pow_succ]
    have hg : 1 ≤ (1 + u) ^ l.length := one_le_pow₀ (by linarith)
    have h1 := hfl (sum fl l + x)
    have h2 : |sum fl l + x| ≤ |sum fl l - l.sum| + (l.sum + x) := by
      have := abs_add (sum fl l - l.sum) (l.sum + x)
      rw [abs_of_nonneg (by linarith : 0 ≤ l.sum + x)] at this
      have e : sum fl l - l.sum + (l.sum + x) = sum fl l + x := by ring
      rw [e] at this
      exact this
    have h3 : |fl (sum fl l + x) - (l.sum + x)| ≤
        |fl (sum fl l + x) - (sum fl l + x)| + |sum fl l - l.sum| := by
      have := abs_add (fl (sum fl l + x) - (sum fl l + x)) (sum fl l - l.sum)
      have e : fl (sum fl l + x) - (sum fl l + x) + (sum fl l - l.sum) =
          fl (sum fl l + x) - (l.sum + x) := by ring
      rw [e] at this
      exact this
    have hE : 0 ≤ |sum fl l - l.sum| := abs_nonneg _
    have h4 : u * |sum fl l + x| ≤ u * (|sum fl l - l.sum| + (l.sum + x)) :=
      mul_le_mul_of_nonneg_left h2 hu
    have h5 : (1 + u) * |sum fl l - l.sum| ≤
        (1 + u) * (((1 + u) ^ l.length - 1) * l.sum + l.length * (1 + u) ^ l.length * eta) :=
      mul_le_mul_of_nonneg_left ih2 (by linarith)
    have h6 : 0 ≤ ((1 + u) ^ l.length - 1) * x := mul_nonneg (by linarith) hx
    have h7 : 0 ≤ (1 + u) ^ l.length * u * x := by positivity
    have h8 : 0 ≤ ((1 + u) ^ l.length - 1) * eta := mul_nonneg (by linarith) heta
    have h9 : 0 ≤ (1 + u) ^ l.length * u * eta := by positivity
    push_cast
    nlinarith [h1, h3, h4, h5, h6, h7, h8, h9]

/-- The sum of the rounded quotients of entries that are not negative by `s`. -/
theorem quotients_sum_fl (fl : T → T) (u eta : T)
    (hfl : ∀ x, |fl x - x| ≤ u * |x| + eta) (s : T) (hs : s ≠ 0) (v : List T)
    (hv : ∀ x, x ∈ v → 0 ≤ x) :
    |(v.map fun x => fl (x / s)).sum * s - v.sum| ≤ u * v.sum + v.length * eta * |s| := by
  induction v with
  | nil => simp
  | cons x l ih =>
    have hl : ∀ y, y ∈ l → 0 ≤ y := fun y hy => hv y (List.mem_cons_of_mem _ hy)
    have hx : 0 ≤ x := hv x (List.mem_cons_self x l)
    have ih2 := ih hl
    rw [List.map_cons, List.sum_cons, List.sum_cons, List.length_cons]
    have h1 := hfl (x / s)
    have hspos : 0 < |s| := abs_pos.mpr hs
    have h2 : |fl (x / s) * s - x| ≤ u * x + eta * |s| := by
      have e : fl (x / s) * s - x = (fl (x / s) - x / s) * s := by field_simp
      rw [e, abs_mul]
      have e2 : |x / s| * |s| = x := by
        rw [← abs_mul, div_mul_cancel₀ x hs, abs_of_nonneg hx]
      calc |fl (x / s) - x / s| * |s| ≤ (u * |x / s| + eta) * |s| :=
            mul_le_mul_of_nonneg_right h1 (le_of_lt hspos)
        _ = u * (|x / s| * |s|) + eta * |s| := by ring
        _ = u * x + eta * |s| := by rw [e2]
    have h3 := abs_add (fl (x / s) * s - x) ((l.map fun x => fl (x / s)).sum * s - l.sum)
    have e3 : fl (x / s) * s - x + ((l.map fun x => fl (x / s)).sum * s - l.sum) =
        (fl (x / s) + (l.map fun x => fl (x / s)).sum) * s - (x + l.sum) := by ring
    rw [e3] at h3
    push_cast
    nlinarith [h2, h3, ih2]

/-- The sum of a row that the normalisation loop has divided by its computed sum is 1 up to
the tolerance. -/
theorem normalized_row_sum_fl (fl : T → T) (tl : Tools T) (u eta tau : T) (hu : 0 ≤ u)
    (heta : 0 ≤ eta) (htau : 0 < tau) (hfl : ∀ x, |fl x - x| ≤ u * |x| + eta)
    (hzero : ∀ x, tl.isNumericalZero x = false → tau ≤ |x|) (A : ublas.matrix T) (r : Nat)
    (hr : r < A.size1) (hrow : ∀ c, c < A.size2 → 0 ≤ A.data r c)
    (hN : (1 + u) ^ A.size2 - 1 ≤ 1 / 2)
    (hz : tl.isNumericalZero (sum fl (ublas.row A r)) = false) :
    |ublas.sum (ublas.row (normalize_closed fl tl A) r) - 1| ≤
      row_sum_tolerance u eta tau A.size2 := by
  have hv : ∀ x, x ∈ ublas.row A r → 0 ≤ x := by
    intro x hx
    unfold ublas.row at hx
    obtain ⟨c, hc, rfl⟩ := List.mem_map.mp hx
    exact hrow c (List.mem_range.mp hc)
  have hlen : (ublas.row A r).length = A.size2 := by simp [ublas.row]
  have hrowN : ublas.row (normalize_closed fl tl A) r =
      (ublas.row A r).map fun x => fl (x / sum fl (ublas.row A r)) := by
    unfold ublas.row
    rw [List.map_map]
    apply List.map_congr_left
    intro c hc
    show (normalize_closed fl tl A).data r c = _
    rw [normalize_closed_data_fl fl tl A r c hr (List.mem_range.mp hc)]
    unfold normalized_data
    rw [hz]
    simp [ublas.row]
  have hs := hzero _ hz
  have hspos : 0 < |sum fl (ublas.row A r)| := lt_of_lt_of_le htau hs
  have hs0 : sum fl (ublas.row A r) ≠ 0 := abs_pos.mp hspos
  have hA := sum_error_fl fl u eta hu heta hfl (ublas.row A r) hv
  have hB := quotients_sum_fl fl u eta hfl (sum fl (ublas.row A r)) hs0 (ublas.row A r) hv
  rw [hlen] at hA hB
  rw [hrowN]
  unfold ublas.sum row_sum_tolerance
  generalize sum fl (ublas.row A r) = s at hs hspos hs0 hA hB ⊢
  generalize ((ublas.row A r).map fun x => fl (x / s)).sum = Y at hB ⊢
  have hS : 0 ≤ (ublas.row A r).sum := List.sum_nonneg hv
  generalize (ublas.row A r).sum = S at hA hB hS
  have hg : 1 ≤ (1 + u) ^ A.size2 := one_le_pow₀ (by linarith)
  generalize (1 + u) ^ A.size2 = g at hA hN hg ⊢
  have hNn : (0 : T) ≤ (A.size2 : T) := Nat.cast_nonneg _
  generalize (A.size2 : T) = n at hA hB hNn ⊢
  -- the absolute error of the computed sum
  have hd : 0 ≤ n * g * eta := by positivity
  have h1 : |s - S| ≤ (g - 1) * S + n * g * eta := hA
  have h2 : S ≤ 2 * |s| + 2 * (n * g * eta) := by
    have h := abs_sub_abs_le_abs_sub S s
    rw [abs_of_nonneg hS, abs_sub_comm] at h
    have h' : (g - 1) * S ≤ 1 / 2 * S := mul_le_mul_of_nonneg_right hN hS
    linarith
  have h3 : |Y - 1| * |s| ≤ (u + (g - 1)) * S + n * eta * |s| + n * g * eta := by
    have e : (Y - 1) * s = (Y * s - S) + (S - s) := by ring
    rw [← abs_mul, e]
    have := abs_add (Y * s - S) (S - s)
    rw [abs_sub_comm S s] at this
    linarith
  have hq : 1 ≤ |s| / tau := by
    rw [le_div_iff₀ htau]
    linarith
  have hgu : 0 ≤ u + (g - 1) := by linarith
  have h5 : n * g * eta ≤ n * g * eta / tau * |s| := by
    have e1 : n * g * eta / tau * |s| = n * g * eta * (|s| / tau) := by
      rw [div_mul_eq_mul_div, mul_div_assoc]
    rw [e1]
    exact le_mul_of_one_le_right hd hq
  have h6 : (u + (g - 1)) * S ≤ (u + (g - 1)) * (2 * |s| + 2 * (n * g * eta)) :=
    mul_le_mul_of_nonneg_left h2 hgu
  have h7 : (u + (g - 1)) * (n * g * eta) ≤ (u + (g - 1)) * (n * g * eta / tau * |s|) :=
    mul_le_mul_of_nonneg_left h5 hgu
  have h4 : |Y - 1| * |s| ≤
      (2 * (u + (g - 1)) * (1 + n * g * eta / tau) + n * eta + n * g * eta / tau) * |s| := by
    have e2 : (2 * (u + (g - 1)) * (1 + n * g * eta / tau) + n * eta + n * g * eta / tau) * |s| =
        2 * (u + (g - 1)) * |s| + 2 * ((u + (g - 1)) * (n * g * eta / tau * |s|)) +
          n * eta * |s| + n * g * eta / tau * |s| := by
      ring
    rw [e2]
    linarith
  exact le_of_mul_le_mul_right h4 hspos

/-- The computed sum of entries that are not negative is not negative. -/
theorem sum_nonneg_fl (fl : T → T) (hnn : ∀ x, 0 ≤ x → 0 ≤ fl x) (v : List T)
    (hv : ∀ x, x ∈ v → 0 ≤ x) : 0 ≤ sum fl v := by
  induction v using List.reverseRecOn with
  | nil => simp [sum]
  | append_singleton l x ih =>
    rw [sum_append_fl]
    exact hnn _ (add_nonneg (ih fun y hy => hv y (List.mem_append_left _ hy))
      (hv x (List.mem_append_right _ (List.mem_singleton_self x))))

/-- The sum that the machine computes of a row without negative entries that was divided by its
computed sum is 1 up to the tolerance. -/
theorem normalized_row_computed_sum_fl (fl : T → T) (tl : Tools T) (u eta tau : T) (hu : 0 ≤ u)
    (heta : 0 ≤ eta) (htau : 0 < tau) (hfl : ∀ x, |fl x - x| ≤ u * |x| + eta)
    (hnn : ∀ x, 0 ≤ x → 0 ≤ fl x)
    (hzero : ∀ x, tl.isNumericalZero x = false → tau ≤ |x|) (A : ublas.matrix T) (r : Nat)
    (hr : r < A.size1) (hrow : ∀ c, c < A.size2 → 0 ≤ A.data r c)
    (hN : (1 + u) ^ A.size2 - 1 ≤ 1 / 2)
    (hz : tl.isNumericalZero (sum fl (ublas.row A r)) = false) :
    |sum fl (ublas.row (normalize_closed fl tl A) r) - 1| ≤
      computed_sum_tolerance u eta tau A.size2 := by
  have hv : ∀ x, x ∈ ublas.row A r → 0 ≤ x := by
    intro x hx
    unfold ublas.row at hx
    obtain ⟨c, hc, rfl⟩ := List.mem_map.mp hx
    exact hrow c (List.mem_range.mp hc)
  have hs0 : 0 ≤ sum fl (ublas.row A r) := sum_nonneg_fl fl hnn _ hv
  have hw : ∀ x, x ∈ ublas.row (normalize_closed fl tl A) r → 0 ≤ x := by
    intro x hx
    unfold ublas.row at hx
    obtain ⟨c, hc, rfl⟩ := List.mem_map.mp hx
    have hc2 : c < A.size2 := List.mem_range.mp hc
    show 0 ≤ (normalize_closed fl tl A).data r c
    rw [normalize_closed_data_fl fl tl A r c hr hc2]
    unfold normalized_data
    rw [hz]
    simp only [Bool.false_eq_true, if_false]
    exact hnn _ (div_nonneg (hrow c hc2) hs0)
  have hlen : (ublas.row (normalize_closed fl tl A) r).length = A.size2 := by
    simp [ublas.row, normalize_closed]
  have h1 := normalized_row_sum_fl fl tl u eta tau hu heta htau hfl hzero A r hr hrow hN hz
  have h2 := sum_error_fl fl u eta hu heta hfl _ hw
  rw [hlen] at h2
  unfold ublas.sum at h1
  unfold computed_sum_tolerance
  have hg : 0 ≤ (1 + u) ^ A.size2 - 1 := by
    have : 1 ≤ (1 + u) ^ A.size2 := one_le_pow₀ (by linarith)
    linarith
  generalize sum fl (ublas.row (normalize_closed fl tl A) r) = Sc at h2 ⊢
  generalize (ublas.row (normalize_closed fl tl A) r).sum = S at h1 h2
  generalize row_sum_tolerance u eta tau A.size2 = t at h1 ⊢
  have hS : S ≤ 1 + t := by
    have := (abs_le.mp h1).2
    linarith
  have h3 : ((1 + u) ^ A.size2 - 1) * S ≤ ((1 + u) ^ A.size2 - 1) * (1 + t) :=
    mul_le_mul_of_nonneg_left hS hg
  have e : Sc - 1 = (Sc - S) + (S - 1) := by ring
  rw [e]
  have := abs_add (Sc - S) (S - 1)
  linarith

/-- A second pass of the normalisation loop leaves a row as it is when the computed sum of
the row after the first pass is 1 or numerically zero. -/
theorem normalize_twice_fl (fl : T → T) (tl : Tools T) (hid : ∀ x, fl (fl x) = fl x)
    (M : ublas.matrix T) (r : Nat) (hr : r < M.size1)
    (hs : sum fl (ublas.row (normalize_closed fl tl M) r) = 1 ∨
      tl.isNumericalZero (sum fl (ublas.row (normalize_closed fl tl M) r)) = true) (c : Nat) :
    (normalize_closed fl tl (normalize_closed fl tl M)).data r c =
      (normalize_closed fl tl M).data r c := by
  by_cases hc : c < M.size2
  · rw [normalize_closed_data_fl fl tl (normalize_closed fl tl M) r c hr hc]
    unfold normalized_data
    cases hz2 : tl.isNumericalZero (sum fl (ublas.row (normalize_closed fl tl M) r)) with
    | true => simp
    | false =>
      have hone : sum fl (ublas.row (normalize_closed fl tl M) r) = 1 := by
        rcases hs with h | h
        · exact h
        · rw [hz2] at h
          exact Bool.noConfusion h
      simp only [Bool.false_eq_true, if_false]
      rw [hone, div_one, normalize_closed_data_fl fl tl M r c hr hc]
      unfold normalized_data
      cases hz : tl.isNumericalZero (sum fl (ublas.row M r)) with
      | false =>
        simp only [Bool.false_eq_true, if_false]
        exact hid _
      | true =>
        exfalso
        have hrow : ublas.row (normalize_closed fl tl M) r = ublas.row M r := by
          apply row_congr_within _ _ _ (by rfl)
          intro c' hc'
          rw [normalize_closed_data_fl fl tl M r c' hr hc']
          unfold normalized_data
          rw [hz]
          simp
        rw [hrow, hz] at hz2
        exact Bool.noConfusion hz2
  · have hb : ¬ (r < (normalize_closed fl tl M).size1 ∧ c < (normalize_closed fl tl M).size2) :=
      fun h => hc h.2
    show (if r < (normalize_closed fl tl M).size1 ∧ c < (normalize_closed fl tl M).size2 then _
      else (normalize_closed fl tl M).data r c) = _
    rw [if_neg hb]

/-- The computed sum of a list given by its entries. -/
theorem sum_map_range_fl (fl : T → T) (f : Nat → T) (n : Nat) :
    sum fl ((List.range n).map f) = (List.range n).foldl (fun t k => fl (t + f k)) 0 := by
  unfold sum
  rw [List.foldl_map]

/-- The temperature of the first iteration is the rounded `lambda`, for a `pow` that is 1 at
the exponent 0. -/
theorem train_lambda_zero_fl (fl : T → T) (hz : fl 0 = 0) (tl : Tools T)
    (hpow : ∀ x, tl.pow x 0 = 1) (n : Nat) (lam : T) :
    train_lambda fl tl n lam 0 = fl lam := by
  unfold train_lambda
  simp [hz, hpow]

/-- A column of the matrix after the rank loop is the list that the loop assigned to it. -/
theorem column_rank_closed_fl (fl : T → T) (tl : Tools T) (l_lambda : T) (A : ublas.matrix T)
    (j : Nat) (hj : j < A.size2) (hlen : (tl.rank (ublas.column A j)).length = A.size1) :
    ublas.column (rank_closed (exp_tools fl tl) l_lambda A) j =
      (tl.rank (ublas.column A j)).map fun p => tl.exp (fl (-p / l_lambda)) :=
  column_rank_closed (exp_tools fl tl) l_lambda A j hj hlen

/-- The values `exp(fl(-r / l))`, `r = 0..K-1`, for a positive `l`: they lie in `[0, 1]` and
the first one is 1. -/
theorem exp_ranks_spec_fl (fl : T → T) (hz : fl 0 = 0) (hneg : ∀ x, x ≤ 0 → fl x ≤ 0)
    (tl : Tools T) (he0 : tl.exp 0 = 1) (henn : ∀ x, 0 ≤ tl.exp x)
    (hele : ∀ x : T, x ≤ 0 → tl.exp x ≤ 1) (l : T) (hl : 0 < l) (K : Nat) (hK : K ≠ 0) :
    (∀ x, x ∈ (List.range K).map (fun r : Nat => tl.exp (fl (-(r : T) / l))) →
      0 ≤ x ∧ x ≤ 1) ∧
    1 ≤ ((List.range K).map fun r : Nat => tl.exp (fl (-(r : T) / l))).count 1 := by
  constructor
  · intro x hx
    obtain ⟨r, _, rfl⟩ := List.mem_map.mp hx
    refine ⟨henn _, hele _ (hneg _ ?_)⟩
    apply div_nonpos_of_nonpos_of_nonneg _ (le_of_lt hl)
    simp
  · apply List.count_pos_iff.mpr
    apply List.mem_map.mpr
    refine ⟨0, List.mem_range.mpr (Nat.pos_of_ne_zero hK), ?_⟩
    simp [hz, he0]

/-- The normalisation loop leaves a row with a numerically zero computed sum as it is. -/
theorem normalize_closed_row_of_zero_fl (fl : T → T) (tl : Tools T) (W : ublas.matrix T)
    (r : Nat) (hr : r < W.size1) (h : tl.isNumericalZero (sum fl (ublas.row W r)) = true) :
    ublas.row (normalize_closed fl tl W) r = ublas.row W r := by
  apply row_congr_within _ _ _ (by rfl)
  intro c hc
  rw [normalize_closed_data_fl fl tl W r c hr hc]
  unfold normalized_data
  rw [h]
  simp

/-- The rows of a matrix without negative entries after the normalisation loop: the sum of a
row, and the sum that the machine computes of it, are 1 up to the tolerances, or the computed
sum of the row is numerically zero. -/
theorem normalize_closed_rows_fl (fl : T → T) (tl : Tools T) (u eta tau : T) (hu : 0 ≤ u)
    (heta : 0 ≤ eta) (htau : 0 < tau) (hfl : ∀ x, |fl x - x| ≤ u * |x| + eta)
    (hnn : ∀ x, 0 ≤ x → 0 ≤ fl x)
    (hzero : ∀ x, tl.isNumericalZero x = false → tau ≤ |x|) (W : ublas.matrix T)
    (hW : ∀ r c, r < W.size1 → c < W.size2 → 0 ≤ W.data r c)
    (hN : (1 + u) ^ W.size2 - 1 ≤ 1 / 2) (k : Nat) (hk : k < W.size1) :
    (|ublas.sum (ublas.row (normalize_closed fl tl W) k) - 1| ≤
          row_sum_tolerance u eta tau W.size2 ∧
        |sum fl (ublas.row (normalize_closed fl tl W) k) - 1| ≤
          computed_sum_tolerance u eta tau W.size2) ∨
      tl.isNumericalZero (sum fl (ublas.row (normalize_closed fl tl W) k)) = true := by
  cases hz : tl.isNumericalZero (sum fl (ublas.row W k)) with
  | false =>
    exact Or.inl ⟨normalized_row_sum_fl fl tl u eta tau hu heta htau hfl hzero W k hk
        (fun c hc => hW k c hk hc) hN hz,
      normalized_row_computed_sum_fl fl tl u eta tau hu heta htau hfl hnn hzero W k hk
        (fun c hc => hW k c hk hc) hN hz⟩
  | true =>
    right
    rw [normalize_closed_row_of_zero_fl fl tl W k hk hz]
    exact hz

end rounded_lemmas

end rounded

/-! ## Roundings of `double` -/

namespace binary64

section binary64_lemmas

open relational_neuralgas

variable {T : Type} [LinearOrderedField T] [FloorRing T]

theorem nearest_even_of_near (q : T) (m : ℤ) (h : |q - m| < 1 / 2) : nearest_even q = m := by
  rw [abs_lt] at h
  unfold nearest_even
  by_cases hq : (m : T) ≤ q
  · have hf : ⌊q⌋ = m := Int.floor_eq_iff.mpr ⟨hq, by linarith⟩
    rw [hf, if_pos (by linarith)]
  · have hq2 : q < m := lt_of_not_le hq
    have hf : ⌊q⌋ = m - 1 := Int.floor_eq_iff.mpr ⟨by push_cast; linarith, by push_cast; linarith⟩
    rw [hf]
    have h1 : ¬ (q - ((m - 1 : ℤ) : T) < 1 / 2) := by push_cast; linarith
    have h2 : (1 : T) / 2 < q - ((m - 1 : ℤ) : T) := by push_cast; linarith
    rw [if_neg h1, if_pos h2]
    ring

theorem nearest_even_intCast (m : ℤ) : nearest_even (m : T) = m :=
  nearest_even_of_near _ m (by simp)

theorem nearest_even_error (q : T) : |(nearest_even q : T) - q| ≤ 1 / 2 := by
  have h1 : (⌊q⌋ : T) ≤ q := Int.floor_le q
  have h2 : q < ⌊q⌋ + 1 := Int.lt_floor_add_one q
  unfold nearest_even
  split_ifs with ha hb hc
  · rw [abs_le]; constructor <;> linarith
  · rw [abs_le]; push_cast; constructor <;> linarith
  · rw [abs_le]; constructor <;> linarith
  · rw [abs_le]; push_cast; constructor <;> linarith

theorem ulp_exponent_of_binade (x : T) (e : ℤ) (he : -1074 ≤ e) (h1 : 2 ^ (e + 52) ≤ |x|)
    (h2 : |x| < 2 ^ (e + 53)) : ulp_exponent x = e := by
  have hpos : (0 : T) < |x| := lt_of_lt_of_le (zpow_pos (by norm_num) _) h1
  have hlog : Int.log 2 |x| = e + 52 := by
    apply le_antisymm
    · have := (Int.lt_zpow_iff_log_lt (R := T) (b := 2) (by norm_num) (x := e + 53) hpos).mp
        (by simpa using h2)
      omega
    · exact (Int.zpow_le_iff_le_log (R := T) (b := 2) (by norm_num) hpos).mp (by simpa using h1)
  unfold ulp_exponent
  rw [hlog]
  omega

/-- The value of `round_nearest` at a number of the binade of exponent `e + 52`. -/
theorem round_nearest_of_near (x : T) (e m : ℤ) (he : -1074 ≤ e) (h1 : 2 ^ (e + 52) ≤ |x|)
    (h2 : |x| < 2 ^ (e + 53)) (hnear : |x / 2 ^ e - m| < 1 / 2) : round_nearest x = m * 2 ^ e := by
  unfold round_nearest
  rw [ulp_exponent_of_binade x e he h1 h2, nearest_even_of_near _ m hnear]

/-- The value of `round_nearest` at zero. -/
theorem round_nearest_zero : round_nearest (0 : T) = 0 := by
  unfold round_nearest
  rw [zero_div]
  have : nearest_even (0 : T) = 0 := by
    have := nearest_even_intCast (T := T) 0
    simpa using this
  rw [this]
  simp

/-- A number with at most 53 significant bits above the least exponent is a `double`. -/
theorem round_nearest_of_representable (m e : ℤ) (hm : |m| < 2 ^ 53) (he : -1074 ≤ e) :
    round_nearest ((m : T) * 2 ^ e) = m * 2 ^ e := by
  have h2pos : ∀ z : ℤ, (0 : T) < 2 ^ z := fun z => zpow_pos (by norm_num) z
  by_cases hm0 : m = 0
  · subst hm0
    simp [round_nearest_zero]
  have hle : ulp_exponent ((m : T) * 2 ^ e) ≤ e := by
    unfold ulp_exponent
    have hlog : Int.log 2 |(m : T) * 2 ^ e| ≤ e + 52 := by
      have hpos : (0 : T) < |(m : T) * 2 ^ e| := by
        apply abs_pos.mpr
        exact mul_ne_zero (Int.cast_ne_zero.mpr hm0) (ne_of_gt (h2pos e))
      have hmT : |(m : T)| < 2 ^ (53 : ℤ) := by
        calc |(m : T)| = ((|m| : ℤ) : T) := by simp
          _ < ((2 ^ 53 : ℤ) : T) := Int.cast_lt.mpr hm
          _ = 2 ^ (53 : ℤ) := by norm_num
      have hlt : |(m : T) * 2 ^ e| < ((2 : ℕ) : T) ^ (e + 53) := by
        rw [abs_mul, abs_of_pos (h2pos e), Nat.cast_ofNat, zpow_add₀ (by norm_num : (2 : T) ≠ 0),
          mul_comm]
        exact mul_lt_mul_of_pos_left hmT (h2pos e)
      have := (Int.lt_zpow_iff_log_lt (R := T) (b := 2) (by norm_num) hpos).mp hlt
      omega
    omega
  unfold round_nearest
  generalize ulp_exponent ((m : T) * 2 ^ e) = ue at hle ⊢
  obtain ⟨d, hd⟩ : ∃ d : ℕ, e = ue + d := ⟨(e - ue).toNat, by omega⟩
  subst hd
  have hq : (m : T) * 2 ^ (ue + (d : ℤ)) / 2 ^ ue = ((m * 2 ^ d : ℤ) : T) := by
    rw [div_eq_iff (ne_of_gt (h2pos _)), zpow_add₀ (by norm_num : (2 : T) ≠ 0)]
    push_cast
    rw [zpow_natCast]
    ring
  rw [hq, nearest_even_intCast, zpow_add₀ (by norm_num : (2 : T) ≠ 0)]
  push_cast
  rw [zpow_natCast]
  ring

/-- The error of `round_nearest`: at most `2^-53` relative to the number, or `2^-1075` in the
subnormal range. -/
theorem round_nearest_error (x : T) : |round_nearest x - x| ≤ 1 / 2 ^ 53 * |x| + 1 / 2 ^ 1075 := by
  have h2pos : ∀ z : ℤ, (0 : T) < 2 ^ z := fun z => zpow_pos (by norm_num) z
  have hd : round_nearest x - x =
      ((nearest_even (x / 2 ^ ulp_exponent x) : T) - x / 2 ^ ulp_exponent x) *
        2 ^ ulp_exponent x := by
    unfold round_nearest
    field_simp
  have hhalf : |round_nearest x - x| ≤ 1 / 2 * 2 ^ ulp_exponent x := by
    rw [hd, abs_mul, abs_of_pos (h2pos _)]
    exact mul_le_mul_of_nonneg_right (nearest_even_error _) (le_of_lt (h2pos _))
  by_cases hx0 : x = 0
  · subst hx0
    rw [round_nearest_zero]
    simp
  by_cases hsmall : Int.log 2 |x| ≤ -1022
  · have he : ulp_exponent x = -1074 := by
      unfold ulp_exponent
      rw [max_eq_right hsmall]
      norm_num
    rw [he] at hhalf
    have : (1 : T) / 2 * 2 ^ (-1074 : ℤ) = 1 / 2 ^ 1075 := by
      rw [zpow_neg, show (1075 : ℕ) = 1074 + 1 from rfl, pow_succ]
      have : (2 : T) ^ (1074 : ℤ) = 2 ^ (1074 : ℕ) := by
        rw [← zpow_natCast]; rfl
      rw [this]
      field_simp
      ring
    rw [this] at hhalf
    have hnn : (0 : T) ≤ 1 / 2 ^ 53 * |x| := by positivity
    linarith
  · have hbig : -1022 ≤ Int.log 2 |x| := by omega
    have hx : (0 : T) < |x| := abs_pos.mpr hx0
    have he : ulp_exponent x = Int.log 2 |x| - 52 := by
      unfold ulp_exponent
      rw [max_eq_left hbig]
    have hlog : (2 : T) ^ Int.log 2 |x| ≤ |x| := by
      have := Int.zpow_log_le_self (R := T) (b := 2) (by norm_num) hx
      simpa using this
    rw [he, zpow_sub₀ (by norm_num : (2 : T) ≠ 0)] at hhalf
    have h52 : (2 : T) ^ (52 : ℤ) = 2 ^ (52 : ℕ) := by
      rw [← zpow_natCast]; rfl
    rw [h52] at hhalf
    have : (1 : T) / 2 * (2 ^ Int.log 2 |x| / 2 ^ 52) ≤ 1 / 2 ^ 53 * |x| := by
      have h53 : (1 : T) / 2 * (2 ^ Int.log 2 |x| / 2 ^ 52) = 1 / 2 ^ 53 * 2 ^ Int.log 2 |x| := by
        have e53 : (2 : T) ^ 53 = 2 * 2 ^ 52 := by norm_num
        rw [e53]
        field_simp
      rw [h53]
      exact mul_le_mul_of_nonneg_left hlog (by positivity)
    have hnn : (0 : T) ≤ 1 / 2 ^ 1075 := by positivity
    linarith


theorem nearest_even_of_tie (q : T) (m : ℤ) (hm : m % 2 = 0) (h : |q - m| = 1 / 2) :
    nearest_even q = m := by
  unfold nearest_even
  rcases abs_eq (by norm_num : (0 : T) ≤ 1 / 2) |>.mp h with h1 | h1
  · have hf : ⌊q⌋ = m := Int.floor_eq_iff.mpr ⟨by linarith, by linarith⟩
    rw [hf, if_neg (by linarith), if_neg (by linarith), if_pos hm]
  · have hf : ⌊q⌋ = m - 1 :=
      Int.floor_eq_iff.mpr ⟨by push_cast; linarith, by push_cast; linarith⟩
    rw [hf]
    have e1 : q - ((m - 1 : ℤ) : T) = 1 / 2 := by push_cast; linarith
    rw [e1, if_neg (lt_irrefl _), if_neg (lt_irrefl _), if_neg (by omega)]
    ring

/-- The value of `round_nearest` at a number half way between two neighbours of the binade of
exponent `e + 52`. -/
theorem round_nearest_of_tie (x : T) (e m : ℤ) (he : -1074 ≤ e) (h1 : 2 ^ (e + 52) ≤ |x|)
    (h2 : |x| < 2 ^ (e + 53)) (hm : m % 2 = 0) (htie : |x / 2 ^ e - m| = 1 / 2) :
    round_nearest x = m * 2 ^ e := by
  unfold round_nearest
  rw [ulp_exponent_of_binade x e he h1 h2, nearest_even_of_tie _ m hm htie]

/-- A number below half of the least positive `double` is rounded to 0. -/
theorem round_nearest_of_tiny (x : T) (h : |x| < 1 / 2 ^ 1075) : round_nearest x = 0 := by
  by_cases hx0 : x = 0
  · subst hx0
    exact round_nearest_zero
  have hx : (0 : T) < |x| := abs_pos.mpr hx0
  have h1075 : (1 : T) / 2 ^ 1075 = 2 ^ (-1075 : ℤ) := by
    rw [zpow_neg, one_div, ← zpow_natCast]
    rfl
  have hlog : Int.log 2 |x| < -1075 := by
    apply (Int.lt_zpow_iff_log_lt (R := T) (b := 2) (by norm_num) hx).mp
    rw [Nat.cast_ofNat, ← h1075]
    exact h
  have he : ulp_exponent x = -1074 := by
    unfold ulp_exponent
    rw [max_eq_right (by omega)]
    norm_num
  unfold round_nearest
  rw [he]
  have hq : nearest_even (x / 2 ^ (-1074 : ℤ)) = 0 := by
    apply nearest_even_of_near
    rw [Int.cast_zero, sub_zero, abs_div, abs_of_pos (zpow_pos (by norm_num : (0 : T) < 2) _),
      div_lt_iff₀ (zpow_pos (by norm_num) _)]
    have : (1 : T) / 2 * 2 ^ (-1074 : ℤ) = 1 / 2 ^ 1075 := by
      rw [h1075, show (-1075 : ℤ) = -1074 - 1 from rfl, zpow_sub₀ (by norm_num : (2 : T) ≠ 0)]
      simp
      ring
    rw [this]
    exact h
  rw [hq]
  simp

/-- The result of `round_nearest` is a `double`: rounding it again changes nothing. -/
theorem round_nearest_idem (x : T) : round_nearest (round_nearest x) = round_nearest x := by
  have h2pos : ∀ z : ℤ, (0 : T) < 2 ^ z := fun z => zpow_pos (by norm_num) z
  by_cases hx0 : x = 0
  · subst hx0
    rw [round_nearest_zero, round_nearest_zero]
  have hx : (0 : T) < |x| := abs_pos.mpr hx0
  have he : -1074 ≤ ulp_exponent x := by
    unfold ulp_exponent
    have := le_max_right (Int.log 2 |x|) (-1022)
    omega
  have hxlt : |x| < 2 ^ (ulp_exponent x + 53) := by
    have h1 := Int.lt_zpow_succ_log_self (R := T) (b := 2) (by norm_num) |x|
    rw [Nat.cast_ofNat] at h1
    apply lt_of_lt_of_le h1
    apply zpow_le_zpow_right₀ (by norm_num)
    unfold ulp_exponent
    have := le_max_left (Int.log 2 |x|) (-1022)
    omega
  have hq : |x / 2 ^ ulp_exponent x| < 2 ^ (53 : ℤ) := by
    rw [abs_div, abs_of_pos (h2pos _), div_lt_iff₀ (h2pos _), ← zpow_add₀ (by norm_num : (2 : T) ≠ 0),
      add_comm]
    exact hxlt
  have hM : |(nearest_even (x / 2 ^ ulp_exponent x) : T)| < 2 ^ (53 : ℤ) + 1 := by
    have h1 := nearest_even_error (x / 2 ^ ulp_exponent x)
    have h2 : |(nearest_even (x / 2 ^ ulp_exponent x) : T)| ≤
        |(nearest_even (x / 2 ^ ulp_exponent x) : T) - x / 2 ^ ulp_exponent x| +
          |x / 2 ^ ulp_exponent x| := by
      have := abs_add ((nearest_even (x / 2 ^ ulp_exponent x) : T) - x / 2 ^ ulp_exponent x)
        (x / 2 ^ ulp_exponent x)
      simpa using this
    linarith
  have hMi : |nearest_even (x / 2 ^ ulp_exponent x)| ≤ 2 ^ 53 := by
    have h3 : ((|nearest_even (x / 2 ^ ulp_exponent x)| : ℤ) : T) < ((2 ^ 53 + 1 : ℤ) : T) := by
      rw [Int.cast_abs]
      calc |(nearest_even (x / 2 ^ ulp_exponent x) : T)| < 2 ^ (53 : ℤ) + 1 := hM
        _ = ((2 ^ 53 + 1 : ℤ) : T) := by norm_num
    have := Int.cast_lt.mp h3
    omega
  unfold round_nearest
  generalize nearest_even (x / 2 ^ ulp_exponent x) = M at hMi ⊢
  generalize ulp_exponent x = e at he ⊢
  show round_nearest ((M : T) * 2 ^ e) = (M : T) * 2 ^ e
  by_cases hlt : |M| < 2 ^ 53
  · exact round_nearest_of_representable M e hlt he
  · have hMe : |M| = 2 ^ 53 := le_antisymm hMi (not_lt.mp hlt)
    have hrep : (M : T) * 2 ^ e = ((M / 2 : ℤ) : T) * 2 ^ (e + 1) := by
      have hM2 : M = (M / 2) * 2 := by
        rcases abs_eq (by norm_num : (0 : ℤ) ≤ 2 ^ 53) |>.mp hMe with h | h <;> rw [h] <;> norm_num
      rw [zpow_add₀ (by norm_num : (2 : T) ≠ 0)]
      nth_rewrite 1 [hM2]
      push_cast
      ring
    rw [hrep]
    apply round_nearest_of_representable
    · rcases abs_eq (by norm_num : (0 : ℤ) ≤ 2 ^ 53) |>.mp hMe with h | h <;> rw [h] <;> norm_num
    · omega

/-- A natural number below `2^53` is a `double`. -/
theorem round_nearest_natCast (n : Nat) (h : n < 2 ^ 53) : round_nearest (n : T) = n := by
  have := round_nearest_of_representable (T := T) (n : ℤ) 0
    (by rw [abs_of_nonneg (Int.natCast_nonneg n)]; exact_mod_cast h) (by norm_num)
  simpa using this

/-- The computed sum of `n` ones. -/
theorem sum_ones (n : Nat) (h : n < 2 ^ 53) :
    rounded.sum round_nearest (List.replicate n (1 : T)) = n := by
  induction n with
  | zero => simp [rounded.sum]
  | succ n ih =>
    rw [List.replicate_succ', rounded.sum_append_fl, ih (by omega)]
    have := round_nearest_natCast (T := T) (n + 1) h
    push_cast at this ⊢
    exact this

/-- In `double` arithmetic `1 / 10` is rounded to the `double` written `0.1`. -/
theorem round_tenth :
    round_nearest (1 / 10 : ℝ) = 3602879701896397 / 36028797018963968 := by
  rw [binary64.round_nearest_of_near _ (-56) (7205759403792794) (by norm_num) (by norm_num [abs_of_pos, abs_of_neg]) (by norm_num [abs_of_pos, abs_of_neg])
    (by norm_num [abs_lt])]
  norm_num

/-- In `double` arithmetic ten times `0.1`, added one by one, is `1 - 2^-53`. -/
theorem sum_ten_tenths :
    rounded.sum round_nearest (List.replicate 10 (3602879701896397 / 36028797018963968 : ℝ)) =
      9007199254740991 / 9007199254740992 := by
  have h1 : binary64.round_nearest (0 + (3602879701896397 / 36028797018963968) : ℝ) = (3602879701896397 / 36028797018963968) := by
    rw [binary64.round_nearest_of_near _ (-56) (7205759403792794) (by norm_num) (by norm_num [abs_of_pos, abs_of_neg]) (by norm_num [abs_of_pos, abs_of_neg])
      (by norm_num [abs_lt])]
    norm_num
  have h2 : binary64.round_nearest ((3602879701896397 / 36028797018963968) + (3602879701896397 / 36028797018963968) : ℝ) = (3602879701896397 / 18014398509481984) := by
    rw [binary64.round_nearest_of_near _ (-55) (7205759403792794) (by norm_num) (by norm_num [abs_of_pos, abs_of_neg]) (by norm_num [abs_of_pos, abs_of_neg])
      (by norm_num [abs_lt])]
    norm_num
  have h3 : binary64.round_nearest ((3602879701896397 / 18014398509481984) + (3602879701896397 / 36028797018963968) : ℝ) = (1351079888211149 / 4503599627370496) := by
    rw [binary64.round_nearest_of_tie _ (-54) (5404319552844596) (by norm_num) (by norm_num [abs_of_pos, abs_of_neg]) (by norm_num [abs_of_pos, abs_of_neg]) (by decide)
      (by norm_num [abs_of_pos, abs_of_neg])]
    norm_num
  have h4 : binary64.round_nearest ((1351079888211149 / 4503599627370496) + (3602879701896397 / 36028797018963968) : ℝ) = (3602879701896397 / 9007199254740992) := by
    rw [binary64.round_nearest_of_tie _ (-54) (7205759403792794) (by norm_num) (by norm_num [abs_of_pos, abs_of_neg]) (by norm_num [abs_of_pos, abs_of_neg]) (by decide)
      (by norm_num [abs_of_pos, abs_of_neg])]
    norm_num
  have h5 : binary64.round_nearest ((3602879701896397 / 9007199254740992) + (3602879701896397 / 36028797018963968) : ℝ) = (1 / 2) := by
    rw [binary64.round_nearest_of_near _ (-53) (4503599627370496) (by norm_num) (by norm_num [abs_of_pos, abs_of_neg]) (by norm_num [abs_of_pos, abs_of_neg])
      (by norm_num [abs_lt])]
    norm_num
  have h6 : binary64.round_nearest ((1 / 2) + (3602879701896397 / 36028797018963968) : ℝ) = (5404319552844595 / 9007199254740992) := by
    rw [binary64.round_nearest_of_near _ (-53) (5404319552844595) (by norm_num) (by norm_num [abs_of_pos, abs_of_neg]) (by norm_num [abs_of_pos, abs_of_neg])
      (by norm_num [abs_lt])]
    norm_num
  have h7 : binary64.round_nearest ((5404319552844595 / 9007199254740992) + (3602879701896397 / 36028797018963968) : ℝ) = (3152519739159347 / 4503599627370496) := by
    rw [binary64.round_nearest_of_near _ (-53) (6305039478318694) (by norm_num) (by norm_num [abs_of_pos, abs_of_neg]) (by norm_num [abs_of_pos, abs_of_neg])
      (by norm_num [abs_lt])]
    norm_num
  have h8 : binary64.round_nearest ((3152519739159347 / 4503599627370496) + (3602879701896397 / 36028797018963968) : ℝ) = (7205759403792793 / 9007199254740992) := by
    rw [binary64.round_nearest_of_near _ (-53) (7205759403792793) (by norm_num) (by norm_num [abs_of_pos, abs_of_neg]) (by norm_num [abs_of_pos, abs_of_neg])
      (by norm_num [abs_lt])]
    norm_num
  have h9 : binary64.round_nearest ((7205759403792793 / 9007199254740992) + (3602879701896397 / 36028797018963968) : ℝ) = (2026619832316723 / 2251799813685248) := by
    rw [binary64.round_nearest_of_near _ (-53) (8106479329266892) (by norm_num) (by norm_num [abs_of_pos, abs_of_neg]) (by norm_num [abs_of_pos, abs_of_neg])
      (by norm_num [abs_lt])]
    norm_num
  have h10 : binary64.round_nearest ((2026619832316723 / 2251799813685248) + (3602879701896397 / 36028797018963968) : ℝ) = (9007199254740991 / 9007199254740992) := by
    rw [binary64.round_nearest_of_near _ (-53) (9007199254740991) (by norm_num) (by norm_num [abs_of_pos, abs_of_neg]) (by norm_num [abs_of_pos, abs_of_neg])
      (by norm_num [abs_lt])]
    norm_num
  simp only [rounded.sum, List.replicate, List.foldl_cons, List.foldl_nil]
  rw [h1, h2, h3, h4, h5, h6, h7, h8, h9, h10]

/-- In `double` arithmetic `0.1 / (1 - 2^-53)` is rounded to the `double` after `0.1`. -/
theorem round_tenth_again :
    round_nearest ((3602879701896397 / 36028797018963968 : ℝ) / (9007199254740991 / 9007199254740992)) =
      7205759403792795 / 72057594037927936 := by
  rw [binary64.round_nearest_of_near _ (-56) (7205759403792795) (by norm_num) (by norm_num [abs_of_pos, abs_of_neg]) (by norm_num [abs_of_pos, abs_of_neg])
    (by norm_num [abs_lt])]
  norm_num

/-- The row that the normalisation loop makes of ten ones in `double` arithmetic. -/
theorem ten_ones_normalized (c : Nat) (hc : c < 10) :
    (rounded.normalize_closed round_nearest (Tools.ofSpec (1 / 2 ^ 52) Real.exp Real.rpow)
      (example_input.ten_ones ℝ)).data 0 c = 3602879701896397 / 36028797018963968 := by
  rw [rounded.normalize_closed_data_fl _ _ _ 0 c (by decide) hc]
  unfold rounded.normalized_data
  rw [ten_ones_row, sum_ones 10 (by norm_num)]
  have hz : (Tools.ofSpec (1 / 2 ^ 52) Real.exp Real.rpow).isNumericalZero ((10 : ℕ) : ℝ) =
      false := isNumericalZero_of_one_le _ (by norm_num) _ (by norm_num)
  rw [hz]
  simp only [Bool.false_eq_true, if_false]
  have : (example_input.ten_ones ℝ).data 0 c / ((10 : ℕ) : ℝ) = 1 / 10 := by
    simp [example_input.ten_ones]
  rw [this]
  exact round_tenth

/-- The row of `ten_ones` after the normalisation loop in `double` arithmetic. -/
theorem ten_ones_normalized_row :
    ublas.row (rounded.normalize_closed round_nearest
      (Tools.ofSpec (1 / 2 ^ 52) Real.exp Real.rpow) (example_input.ten_ones ℝ)) 0 =
      List.replicate 10 (3602879701896397 / 36028797018963968 : ℝ) := by
  unfold ublas.row
  have hs : (rounded.normalize_closed round_nearest
      (Tools.ofSpec (1 / 2 ^ 52) Real.exp Real.rpow) (example_input.ten_ones ℝ)).size2 = 10 := rfl
  rw [hs]
  have : ∀ c, c ∈ List.range 10 → (rounded.normalize_closed round_nearest
      (Tools.ofSpec (1 / 2 ^ 52) Real.exp Real.rpow) (example_input.ten_ones ℝ)).data 0 c =
      (fun _ => (3602879701896397 / 36028797018963968 : ℝ)) c :=
    fun c hc => ten_ones_normalized c (List.mem_range.mp hc)
  rw [List.map_congr_left this]
  simp [List.range_succ, List.replicate]

/-- A second pass of the normalisation loop over the row of ten ones in `double` arithmetic. -/
theorem ten_ones_normalized_twice (c : Nat) (hc : c < 10) :
    (rounded.normalize_closed round_nearest (Tools.ofSpec (1 / 2 ^ 52) Real.exp Real.rpow)
      (rounded.normalize_closed round_nearest (Tools.ofSpec (1 / 2 ^ 52) Real.exp Real.rpow)
        (example_input.ten_ones ℝ))).data 0 c = 7205759403792795 / 72057594037927936 := by
  rw [rounded.normalize_closed_data_fl _ _ _ 0 c (by decide) hc]
  unfold rounded.normalized_data
  rw [ten_ones_normalized_row, sum_ten_tenths, ten_ones_normalized c hc]
  have hz : (Tools.ofSpec (1 / 2 ^ 52) Real.exp Real.rpow).isNumericalZero
      (9007199254740991 / 9007199254740992 : ℝ) = false :=
    isNumericalZero_of_lt _ _ (by norm_num [abs_of_pos])
  rw [hz]
  simp only [Bool.false_eq_true, if_false]
  exact round_tenth_again

/-- A number that is not positive is rounded to a number that is not positive. -/
theorem round_nearest_nonpos (x : T) (h : x ≤ 0) : round_nearest x ≤ 0 := by
  unfold round_nearest
  have h2pos : (0 : T) < 2 ^ ulp_exponent x := zpow_pos (by norm_num) _
  apply mul_nonpos_of_nonpos_of_nonneg _ (le_of_lt h2pos)
  have hq : x / 2 ^ ulp_exponent x ≤ 0 := div_nonpos_of_nonpos_of_nonneg h (le_of_lt h2pos)
  generalize x / 2 ^ ulp_exponent x = q at hq
  have hf : (⌊q⌋ : T) ≤ q := Int.floor_le q
  have hf0 : ⌊q⌋ ≤ 0 := by
    have : ((⌊q⌋ : ℤ) : T) ≤ ((0 : ℤ) : T) := by simpa using le_trans hf hq
    exact Int.cast_le.mp this
  have key : nearest_even q ≤ 0 := by
    unfold nearest_even
    by_cases ha : q - ⌊q⌋ < 1 / 2
    · rw [if_pos ha]
      exact hf0
    · have hlt : (⌊q⌋ : T) < 0 := by linarith
      have hfi : ⌊q⌋ < 0 := by
        have : ((⌊q⌋ : ℤ) : T) < ((0 : ℤ) : T) := by simpa using hlt
        exact Int.cast_lt.mp this
      rw [if_neg ha]
      split_ifs <;> omega
  exact_mod_cast key

/-- The real `exp` at `-2048` is below half of the least positive `double`. -/
theorem exp_tiny : |Real.exp (-2048)| < 1 / 2 ^ 1075 := by
  rw [abs_of_pos (Real.exp_pos _), Real.exp_neg, ← one_div]
  apply one_div_lt_one_div_of_lt (by positivity)
  have h2 : (2 : ℝ) ≤ Real.exp 1 := by
    have := Real.add_one_le_exp (1 : ℝ)
    linarith
  have h3 : Real.exp 2048 = Real.exp 1 ^ 2048 := by
    rw [← Real.exp_nat_mul]
    norm_num
  rw [h3]
  calc (2 : ℝ) ^ 1075 < 2 ^ 2048 := pow_lt_pow_right₀ (by norm_num) (by norm_num)
    _ ≤ Real.exp 1 ^ 2048 := pow_le_pow_left₀ (by norm_num) h2 _

/-- A number that is not negative is rounded to a number that is not negative. -/
theorem round_nearest_nonneg (x : T) (h : 0 ≤ x) : 0 ≤ round_nearest x := by
  unfold round_nearest
  have h2pos : (0 : T) < 2 ^ ulp_exponent x := zpow_pos (by norm_num) _
  apply mul_nonneg _ (le_of_lt h2pos)
  have hq : 0 ≤ x / 2 ^ ulp_exponent x := div_nonneg h (le_of_lt h2pos)
  generalize x / 2 ^ ulp_exponent x = q at hq
  have hf0 : 0 ≤ ⌊q⌋ := Int.floor_nonneg.mpr hq
  have key : 0 ≤ nearest_even q := by
    unfold nearest_even
    split_ifs <;> omega
  exact_mod_cast key

/-- A number that is at most 1 is rounded to a number that is at most 1. -/
theorem round_nearest_le_one (x : T) (h : x ≤ 1) : round_nearest x ≤ 1 := by
  rcases le_or_lt x 0 with h0 | h0
  · exact le_trans (round_nearest_nonpos x h0) zero_le_one
  rcases eq_or_lt_of_le h with h1 | h1
  · subst h1
    have := round_nearest_of_representable (T := T) 1 0 (by norm_num) (by norm_num)
    simp only [Int.cast_one, zpow_zero, mul_one] at this
    rw [this]
  have habs : |x| = x := abs_of_pos h0
  have hlog : Int.log 2 |x| < 0 := by
    apply (Int.lt_zpow_iff_log_lt (R := T) (b := 2) (by norm_num) (by rw [habs]; exact h0)).mp
    rw [habs]
    simpa using h1
  have he : ulp_exponent x ≤ -53 := by
    unfold ulp_exponent
    omega
  unfold round_nearest
  generalize ulp_exponent x = e at he
  obtain ⟨k, hk⟩ : ∃ k : ℕ, e = -(k : ℤ) := ⟨(-e).toNat, by omega⟩
  subst hk
  have h2k : (0 : T) < 2 ^ k := pow_pos (by norm_num) k
  have hz : (2 : T) ^ (-(k : ℤ)) = 1 / 2 ^ k := by
    rw [zpow_neg, zpow_natCast, one_div]
  rw [hz]
  have hq : x / (1 / 2 ^ k) < ((2 ^ k : ℤ) : T) := by
    rw [div_div_eq_mul_div, div_one]
    push_cast
    calc x * 2 ^ k < 1 * 2 ^ k := mul_lt_mul_of_pos_right h1 h2k
      _ = 2 ^ k := one_mul _
  generalize x / (1 / 2 ^ k) = q at hq
  have hf : ⌊q⌋ < 2 ^ k := Int.floor_lt.mpr hq
  have key : nearest_even q ≤ 2 ^ k := by
    unfold nearest_even
    split_ifs <;> omega
  have keyT : (nearest_even q : T) ≤ 2 ^ k := by exact_mod_cast key
  calc (nearest_even q : T) * (1 / 2 ^ k) ≤ 2 ^ k * (1 / 2 ^ k) :=
        mul_le_mul_of_nonneg_right keyT (by positivity)
    _ = 1 := by field_simp

/-- In `double` arithmetic `1 / 2` is a `double`. -/
theorem round_half : round_nearest (1 / 2 : T) = 1 / 2 := by
  have := round_nearest_of_representable (T := T) 1 (-1) (by norm_num) (by norm_num)
  simp only [Int.cast_one, one_mul, zpow_neg, zpow_one] at this
  rw [one_div]
  exact this

/-- The row that the normalisation loop makes of two ones in `double` arithmetic. -/
theorem pair_ones_normalized_row :
    ublas.row (rounded.normalize_closed round_nearest
      (Tools.ofSpec (1 / 2 ^ 52) Real.exp Real.rpow) (example_input.pair_ones ℝ)) 0 =
      [1 / 2, 1 / 2] := by
  have hrow : ublas.row (example_input.pair_ones ℝ) 0 = List.replicate 2 1 := by
    simp [ublas.row, example_input.pair_ones, List.range_succ, List.replicate]
  have hz : (Tools.ofSpec (1 / 2 ^ 52) Real.exp Real.rpow).isNumericalZero ((2 : ℕ) : ℝ) =
      false := isNumericalZero_of_one_le _ (by norm_num) _ (by norm_num)
  have hd : ∀ c, c < 2 → (rounded.normalize_closed round_nearest
      (Tools.ofSpec (1 / 2 ^ 52) Real.exp Real.rpow) (example_input.pair_ones ℝ)).data 0 c =
      1 / 2 := by
    intro c hc
    rw [rounded.normalize_closed_data_fl _ _ _ 0 c (by decide) hc]
    unfold rounded.normalized_data
    rw [hrow, sum_ones 2 (by norm_num), hz]
    simp only [Bool.false_eq_true, if_false]
    have : (example_input.pair_ones ℝ).data 0 c / ((2 : ℕ) : ℝ) = 1 / 2 := by
      simp [example_input.pair_ones]
    rw [this]
    exact round_half
  show [(rounded.normalize_closed round_nearest
      (Tools.ofSpec (1 / 2 ^ 52) Real.exp Real.rpow) (example_input.pair_ones ℝ)).data 0 0,
    (rounded.normalize_closed round_nearest
      (Tools.ofSpec (1 / 2 ^ 52) Real.exp Real.rpow) (example_input.pair_ones ℝ)).data 0 1] = _
  rw [hd 0 (by norm_num), hd 1 (by norm_num)]

/-- In `double` arithmetic the computed sum of the normalised row of two ones is 1. -/
theorem pair_ones_normalized_sum :
    rounded.sum round_nearest (ublas.row (rounded.normalize_closed round_nearest
      (Tools.ofSpec (1 / 2 ^ 52) Real.exp Real.rpow) (example_input.pair_ones ℝ)) 0) = 1 := by
  rw [pair_ones_normalized_row]
  simp only [rounded.sum, List.foldl_cons, List.foldl_nil, zero_add]
  rw [round_half]
  have : (1 / 2 : ℝ) + 1 / 2 = ((1 : ℕ) : ℝ) := by norm_num
  rw [this, round_nearest_natCast 1 (by norm_num)]
  norm_num

end binary64_lemmas

end binary64

open relational_neuralgas

/-! ## Claims about `train` -/

section train_claims

variable {T : Type} [LinearOrderedField T]

/-- C1 (as stated, refuted). With the helpers as the spec describes them (tolerance `2^-52`), the
real `exp` and `pow`, three prototypes over the points `0`, `1`, `2` of the line and one
iteration at `lambda = 0.01`: `train` succeeds, and row 2 of the prototypes afterwards is
`[exp(-100), exp(-100), exp(-100)]`, which neither sums to 1 nor is entirely zero. -/
theorem C1_counterexample_row_neither_normalized_nor_zero :
    train_accepts (example_input.line_object ℝ) (example_input.line_data ℝ) 1 (1 / 100) ∧
    (train (Tools.ofSpec (1 / 2 ^ 52) Real.exp Real.rpow) (example_input.line_object ℝ)
      (example_input.line_data ℝ) 1 (1 / 100)).1 = .ok () ∧
    ¬ (ublas.sum (ublas.row (train (Tools.ofSpec (1 / 2 ^ 52) Real.exp Real.rpow)
          (example_input.line_object ℝ) (example_input.line_data ℝ) 1
          (1 / 100)).2.m_prototypes 2) = 1 ∨
        ublas.row (train (Tools.ofSpec (1 / 2 ^ 52) Real.exp Real.rpow)
          (example_input.line_object ℝ) (example_input.line_data ℝ) 1
          (1 / 100)).2.m_prototypes 2 = [0, 0, 0]) := by
  have hacc : train_accepts (example_input.line_object ℝ) (example_input.line_data ℝ) 1
      (1 / 100) :=
    ⟨by decide, by decide, by decide, rfl, by norm_num, rfl⟩
  refine ⟨hacc, ?_, ?_⟩
  · rw [train_eq _ _ _ _ _ hacc]
  rw [train_eq _ _ _ _ _ hacc]
  simp only
  rw [loop_closed_range_one]
  have hP : (train_start (example_input.line_object ℝ)).m_prototypes =
      example_input.line_prototypes ℝ := rfl
  rw [hP, iteration_prototypes, line_lambda]
  have hrowW : ublas.row (rank_closed (Tools.ofSpec (1 / 2 ^ 52) Real.exp Real.rpow) (1 / 100 : ℝ)
      (adapt_closed (example_input.line_prototypes ℝ) (example_input.line_data ℝ))) 2 =
      [Real.exp (-100), Real.exp (-100), Real.exp (-100)] := by
    have hs2 : (rank_closed (Tools.ofSpec (1 / 2 ^ 52) Real.exp Real.rpow) (1 / 100 : ℝ)
      (adapt_closed (example_input.line_prototypes ℝ) (example_input.line_data ℝ))).size2 = 3 :=
      rfl
    simp only [ublas.row, hs2, List.range_succ, List.range_zero, List.nil_append, List.map_append,
      List.map_cons, List.map_nil, List.cons_append]
    rw [line_weights 0 (by norm_num), line_weights 1 (by norm_num), line_weights 2 (by norm_num)]
  have hpos := Real.exp_pos (-100)
  have hsmall := exp_neg_100_small
  have hsum : ublas.sum [Real.exp (-100), Real.exp (-100), Real.exp (-100)] =
      3 * Real.exp (-100) := by
    simp only [ublas.sum, List.sum_cons, List.sum_nil]
    ring
  have hnz : (Tools.ofSpec (1 / 2 ^ 52) Real.exp Real.rpow).isNumericalZero
      (ublas.sum (ublas.row (rank_closed (Tools.ofSpec (1 / 2 ^ 52) Real.exp Real.rpow)
        (1 / 100 : ℝ) (adapt_closed (example_input.line_prototypes ℝ)
          (example_input.line_data ℝ))) 2)) = true := by
    rw [hrowW, hsum]
    simp only [Tools.ofSpec, tools.function.isNumericalZero, decide_eq_true_eq]
    rw [abs_of_pos (by linarith)]
    exact hsmall
  rw [normalize_closed_row_of_zero _ _ 2 (by show 2 < 3; norm_num) hnz, hrowW, hsum]
  rintro (h | h)
  · have : (1 : ℝ) / 2 ^ 52 < 1 := by norm_num
    linarith
  · have h0 : Real.exp (-100) = 0 := (List.cons.inj h).1
    linarith

/-- C1 (as amended). With the arithmetic of the number type rounded by `fl`, where a rounding
has a relative error of at most `u` and an absolute error of at most `eta` and rounds no
number above 0 to a number below 0, an `exp` that is never negative and sums of at least `tau`
in absolute value when they are not numerically zero: for every input that passes the checks
of `train` (and `(1 + u)^N - 1 <= 1/2`), `train` succeeds and afterwards every row of the
prototypes sums to 1 within a floating tolerance, or the computed sum of the row is
numerically zero (such a row was left un-normalised; it need not be zero). The sum of the
stored entries is 1 up to `row_sum_tolerance u eta tau N` and the sum as the machine computes
it is 1 up to `computed_sum_tolerance u eta tau N`; both tolerances are 0 in exact
arithmetic. -/
theorem C1_train_rows_sum_one_or_numerically_zero (fl : T → T) (tl : Tools T) (u eta tau : T)
    (hu : 0 ≤ u) (heta : 0 ≤ eta) (htau : 0 < tau)
    (hfl : ∀ x, |fl x - x| ≤ u * |x| + eta) (hnn : ∀ x, 0 ≤ x → 0 ≤ fl x)
    (hexp : ∀ x, 0 ≤ tl.exp x)
    (hzero : ∀ x, tl.isNumericalZero x = false → tau ≤ |x|)
    (self : relational_neuralgas T) (D : ublas.matrix T) (iterations : Nat) (lambda : T)
    (h : train_accepts self D iterations lambda)
    (hN : (1 + u) ^ self.getPrototypeSize - 1 ≤ 1 / 2) :
    (rounded.train fl tl self D iterations lambda).1 = .ok () ∧
    ∀ r, r < self.getPrototypeCount →
      (|ublas.sum (ublas.row (rounded.train fl tl self D iterations lambda).2.getPrototypes r) -
            1| ≤ rounded.row_sum_tolerance u eta tau self.getPrototypeSize ∧
        |rounded.sum fl
            (ublas.row (rounded.train fl tl self D iterations lambda).2.getPrototypes r) -
            1| ≤ rounded.computed_sum_tolerance u eta tau self.getPrototypeSize) ∨
      tl.isNumericalZero (rounded.sum fl
        (ublas.row (rounded.train fl tl self D iterations lambda).2.getPrototypes r)) = true := by
  refine ⟨by rw [rounded.train_eq_fl fl tl self D iterations lambda h], ?_⟩
  intro r hr
  simp only [getPrototypeCount, getPrototypeSize, getPrototypes] at hr hN ⊢
  obtain ⟨P, hP, hlast⟩ := rounded.train_last_iteration_fl fl tl self D iterations lambda h
  rw [hlast]
  unfold rounded.iteration_prototypes
  have hsz : self.m_prototypes.size2 = (rank_closed (rounded.exp_tools fl tl)
      (rounded.train_lambda fl tl iterations lambda (iterations - 1))
      (rounded.adapt_closed fl P D)).size2 := h.2.2.2.1.symm
  rw [hsz] at hN ⊢
  apply rounded.normalize_closed_rows_fl fl tl u eta tau hu heta htau hfl hnn hzero _ _ hN r
  · show r < P.size1
    rw [hP]
    exact hr
  · intro k c hk hc
    rw [rank_closed_data (rounded.exp_tools fl tl) _ (rounded.adapt_closed fl P D) k c hk hc]
    exact rank_weight_nonneg (rounded.exp_tools fl tl) (fun x => hexp (fl x)) _ _ k c

/-- Witness of C1 (as amended): `double` arithmetic with the tolerance `2^-52` of numerical
zero, the real `exp` and `pow`, the data of the line and its three prototypes; the tolerances
of the row sums are then at most `10^-15` and `2 * 10^-15`. -/
theorem C1_train_rows_sum_one_or_numerically_zero_witness :
    (∀ x : ℝ, |binary64.round_nearest x - x| ≤ 1 / 2 ^ 53 * |x| + 1 / 2 ^ 1075) ∧
    (∀ x : ℝ, 0 ≤ x → 0 ≤ binary64.round_nearest x) ∧
    (∀ x, (Tools.ofSpec (1 / 2 ^ 52) Real.exp Real.rpow).isNumericalZero x = false → (1 : ℝ) / 2 ^ 52 ≤ |x|) ∧
    train_accepts (example_input.line_object ℝ) (example_input.line_data ℝ) 1 (1 / 100) ∧
    rounded.row_sum_tolerance (1 / 2 ^ 53 : ℝ) (1 / 2 ^ 1075) (1 / 2 ^ 52) 3 ≤ 1 / 10 ^ 15 ∧
    rounded.computed_sum_tolerance (1 / 2 ^ 53 : ℝ) (1 / 2 ^ 1075) (1 / 2 ^ 52) 3 ≤
      2 / 10 ^ 15 ∧
    ∀ r, r < 3 →
      (|ublas.sum (ublas.row (rounded.train binary64.round_nearest (Tools.ofSpec (1 / 2 ^ 52) Real.exp Real.rpow)
            (example_input.line_object ℝ) (example_input.line_data ℝ) 1
            (1 / 100)).2.getPrototypes r) - 1| ≤
          rounded.row_sum_tolerance (1 / 2 ^ 53 : ℝ) (1 / 2 ^ 1075) (1 / 2 ^ 52) 3 ∧
        |rounded.sum binary64.round_nearest (ublas.row (rounded.train binary64.round_nearest (Tools.ofSpec (1 / 2 ^ 52) Real.exp Real.rpow)
            (example_input.line_object ℝ) (example_input.line_data ℝ) 1
            (1 / 100)).2.getPrototypes r) - 1| ≤
          rounded.computed_sum_tolerance (1 / 2 ^ 53 : ℝ) (1 / 2 ^ 1075) (1 / 2 ^ 52) 3) ∨
      (Tools.ofSpec (1 / 2 ^ 52) Real.exp Real.rpow).isNumericalZero (rounded.sum binary64.round_nearest
        (ublas.row (rounded.train binary64.round_nearest (Tools.ofSpec (1 / 2 ^ 52) Real.exp Real.rpow)
          (example_input.line_object ℝ) (example_input.line_data ℝ) 1
          (1 / 100)).2.getPrototypes r)) = true :=
  have hacc : train_accepts (example_input.line_object ℝ) (example_input.line_data ℝ) 1
      (1 / 100) :=
    ⟨by decide, by decide, by decide, rfl, by norm_num, rfl⟩
  ⟨binary64.round_nearest_error, binary64.round_nearest_nonneg,
    fun x hx => le_of_lt (lt_of_isNumericalZero_false _ x hx), hacc,
    by unfold rounded.row_sum_tolerance; norm_num,
    by unfold rounded.computed_sum_tolerance rounded.row_sum_tolerance; norm_num,
    (C1_train_rows_sum_one_or_numerically_zero binary64.round_nearest
      (Tools.ofSpec (1 / 2 ^ 52) Real.exp Real.rpow) (1 / 2 ^ 53) (1 / 2 ^ 1075) (1 / 2 ^ 52)
      (by norm_num) (by norm_num) (by norm_num) binary64.round_nearest_error
      binary64.round_nearest_nonneg (fun x => le_of_lt (Real.exp_pos x))
      (fun x hx => le_of_lt (lt_of_isNumericalZero_false _ x hx))
      (example_input.line_object ℝ) (example_input.line_data ℝ) 1 (1 / 100) hacc
      (by show (1 + (1 : ℝ) / 2 ^ 53) ^ 3 - 1 ≤ 1 / 2; norm_num)).2⟩

/-- C2. `train(D, iterations, lambda)` fails if and only if `K == 0`, or `D.rows < K`, or
`iterations == 0`, or `D.cols != N`, or `lambda <= 0`, or `D.rows != D.cols`; when none of
these holds it completes without error. -/
theorem C2_train_fails_iff_precondition_violated (tl : Tools T) (self : relational_neuralgas T)
    (D : ublas.matrix T) (iterations : Nat) (lambda : T) :
    ((∃ e, (train tl self D iterations lambda).1 = .error e) ↔
      (self.getPrototypeCount = 0 ∨ D.size1 < self.getPrototypeCount ∨ iterations = 0 ∨
        D.size2 ≠ self.getPrototypeSize ∨ lambda ≤ 0 ∨ D.size1 ≠ D.size2)) ∧
    (¬ (self.getPrototypeCount = 0 ∨ D.size1 < self.getPrototypeCount ∨ iterations = 0 ∨
        D.size2 ≠ self.getPrototypeSize ∨ lambda ≤ 0 ∨ D.size1 ≠ D.size2) →
      (train tl self D iterations lambda).1 = .ok ()) := by
  simp only [getPrototypeCount, getPrototypeSize]
  rw [← not_train_accepts_iff]
  constructor
  · constructor
    · rintro ⟨e, he⟩ hacc
      rw [train_eq tl self D iterations lambda hacc] at he
      exact Except.noConfusion he
    · intro hn
      exact (train_error_of_not_accepts tl self D iterations lambda hn).1
  · intro hacc
    rw [train_eq tl self D iterations lambda (not_not.mp hacc)]

/-- C3. Whenever a precondition of `train` is violated, the call fails and the object is left
exactly as it was: prototypes, both logs and the logging flag, with logging on or off. -/
theorem C3_train_failure_leaves_object_unchanged (tl : Tools T) (self : relational_neuralgas T)
    (D : ublas.matrix T) (iterations : Nat) (lambda : T)
    (h : self.getPrototypeCount = 0 ∨ D.size1 < self.getPrototypeCount ∨ iterations = 0 ∨
        D.size2 ≠ self.getPrototypeSize ∨ lambda ≤ 0 ∨ D.size1 ≠ D.size2) :
    (∃ e, (train tl self D iterations lambda).1 = .error e) ∧
      (train tl self D iterations lambda).2 = self := by
  simp only [getPrototypeCount, getPrototypeSize] at h
  exact train_error_of_not_accepts tl self D iterations lambda
    ((not_train_accepts_iff self D iterations lambda).mpr h)

/-- Witness of C3: zero iterations on an object with logging on and logs of an earlier run. -/
theorem C3_train_failure_leaves_object_unchanged_witness :
    ((example_input.logged_object ℝ).getPrototypeCount = 0 ∨
      (example_input.line_data ℝ).size1 < (example_input.logged_object ℝ).getPrototypeCount ∨
      0 = 0 ∨
      (example_input.line_data ℝ).size2 ≠ (example_input.logged_object ℝ).getPrototypeSize ∨
      (1 : ℝ) ≤ 0 ∨ (example_input.line_data ℝ).size1 ≠ (example_input.line_data ℝ).size2) ∧
    ((∃ e, (train (Tools.ofSpec (1 / 2 ^ 52) Real.exp Real.rpow) (example_input.logged_object ℝ)
        (example_input.line_data ℝ) 0 1).1 = .error e) ∧
      (train (Tools.ofSpec (1 / 2 ^ 52) Real.exp Real.rpow) (example_input.logged_object ℝ)
        (example_input.line_data ℝ) 0 1).2 = example_input.logged_object ℝ) :=
  ⟨Or.inr (Or.inr (Or.inl rfl)),
    C3_train_failure_leaves_object_unchanged _ _ _ 0 1 (Or.inr (Or.inr (Or.inl rfl)))⟩

/-- C4. `train(D, n)` and `train(D, n, 0.5 * K)` have the same outcome: the same failure, or the
same prototypes and logs. -/
theorem C4_train_default_lambda_eq (tl : Tools T) (self : relational_neuralgas T)
    (D : ublas.matrix T) (n : Nat) :
    train_default tl self D n = train tl self D n ((1 / 2) * (self.getPrototypeCount : T)) := by
  unfold train_default getPrototypeCount
  rw [mul_comm]

end train_claims

/-! ## Claims about the adaptation matrix and the quantization error -/

section adaptation_claims

/-- C6. For points `x 0 .. x (N-1)` of a real inner-product space, data `D[k][j] = ‖x k - x j‖²`
and a row `i` of the prototypes whose entries sum to 1, the matrix that `train` builds in lines
284-291 exists and its entry `(i, j)` is `‖x j - w_i‖²`, with `w_i` the combination
`sum_k alpha[i][k] * x k`. -/
theorem C6_adaptation_entry_is_squared_distance {E : Type} [NormedAddCommGroup E]
    [InnerProductSpace ℝ E] (N : Nat) (x : Nat → E) (alpha D : ublas.matrix ℝ)
    (hD1 : D.size1 = N) (hD2 : D.size2 = N) (hN : alpha.size2 = N)
    (hD : ∀ k j, k < N → j < N → D.data k j = ‖x k - x j‖ ^ 2)
    (i j : Nat) (hi : i < alpha.size1) (hj : j < N)
    (hsum : ublas.sum (ublas.row alpha i) = 1) :
    ∃ A, train_adaptmatrix alpha D = .ok A ∧
      A.data i j = ‖x j - Finset.sum (Finset.range N) fun k => alpha.data i k • x k‖ ^ 2 := by
  refine ⟨_, train_adaptmatrix_eq alpha D (by rw [hN, hD1]), ?_⟩
  simp only [adapt_closed]
  rw [if_pos ⟨hi, by rw [hD2]; exact hj⟩, adapt_data_eq_spec alpha D (by rw [hD2, hN])]
  unfold spec.adaptation spec.bias spec.product
  rw [hN]
  have ha : Finset.sum (Finset.range N) (fun k => alpha.data i k) = 1 := by
    rw [← hsum]
    unfold ublas.sum ublas.row
    rw [hN, list_sum_map_range]
  rw [← relational_distance N x (fun k => alpha.data i k) ha j]
  congr 1
  · apply Finset.sum_congr rfl
    intro k hk
    rw [hD k j (Finset.mem_range.mp hk) hj]
  · congr 1
    apply Finset.sum_congr rfl
    intro c hc
    congr 1
    apply Finset.sum_congr rfl
    intro k hk
    rw [hD k c (Finset.mem_range.mp hk) (Finset.mem_range.mp hc)]

/-- Witness of C6: the points `0`, `1`, `2` of the real line, the prototype half way between the
first two, and the third point. -/
theorem C6_adaptation_entry_is_squared_distance_witness :
    ublas.sum (ublas.row (example_input.line_prototypes ℝ) 2) = 1 ∧
    (∀ k j, k < 3 → j < 3 →
      (example_input.line_data ℝ).data k j = ‖((k : ℕ) : ℝ) - ((j : ℕ) : ℝ)‖ ^ 2) ∧
    ∃ A, train_adaptmatrix (example_input.line_prototypes ℝ) (example_input.line_data ℝ) = .ok A ∧
      A.data 2 2 = ‖(((2 : ℕ) : ℝ)) - Finset.sum (Finset.range 3) fun k =>
        (example_input.line_prototypes ℝ).data 2 k • ((k : ℕ) : ℝ)‖ ^ 2 :=
  have hsum : ublas.sum (ublas.row (example_input.line_prototypes ℝ) 2) = 1 := by
    simp [ublas.sum, ublas.row, example_input.line_prototypes, example_input.ofRows,
      List.range_succ]
    norm_num
  have hD : ∀ k j, k < 3 → j < 3 →
      (example_input.line_data ℝ).data k j = ‖((k : ℕ) : ℝ) - ((j : ℕ) : ℝ)‖ ^ 2 := by
    intro k j hk hj
    interval_cases k <;> interval_cases j <;>
      simp [example_input.line_data, example_input.ofRows] <;> norm_num
  ⟨hsum, hD,
    C6_adaptation_entry_is_squared_distance 3 (fun k => ((k : ℕ) : ℝ))
      (example_input.line_prototypes ℝ) (example_input.line_data ℝ) rfl rfl rfl hD 2 2
      (by decide) (by decide) hsum⟩

variable {T : Type} [LinearOrderedField T]

/-- C7. For a matrix `A` with at least one row, `calculateQuantizationError(A)` is
`0.5 * sum_j min_i A[i][j]`; the function is a `const` member that returns only this value. -/
theorem C7_quantization_error_is_half_sum_of_column_minima (self : relational_neuralgas T)
    (A : ublas.matrix T) (h : 0 < A.size1) :
    calculateQuantizationError self A =
      (1 / 2) * Finset.sum (Finset.range A.size2) fun j =>
        (Finset.range A.size1).inf' ⟨0, Finset.mem_range.mpr h⟩ fun i => A.data i j := by
  unfold calculateQuantizationError tools.matrix.min ublas.sum
  rw [list_sum_map_range]
  congr 1
  apply Finset.sum_congr rfl
  intro j _
  exact column_scan_eq_inf (fun i => A.data i j) A.size1 _

/-- Witness of C7: the squared distances of the three points of the line. -/
theorem C7_quantization_error_is_half_sum_of_column_minima_witness :
    ∃ h : 0 < (example_input.line_data ℚ).size1,
      calculateQuantizationError (example_input.line_object ℚ) (example_input.line_data ℚ) =
        (1 / 2) * Finset.sum (Finset.range (example_input.line_data ℚ).size2) fun j =>
          (Finset.range (example_input.line_data ℚ).size1).inf' ⟨0, Finset.mem_range.mpr h⟩
            fun i => (example_input.line_data ℚ).data i j :=
  ⟨by decide, C7_quantization_error_is_half_sum_of_column_minima _ _ (by decide)⟩

end adaptation_claims

/-! ## Claims about `use` -/

section use_claims

variable {T : Type} [LinearOrderedField T]

/-- C8 (as stated, refuted). One prototype over two objects (`K = 1`, `N = 2`) and data with
three rows and two columns pass both checks of `use`, yet `use` returns no sequence of
`D.cols = 2` indices: the index array is created with `D.rows = 3` entries, and the product of
the `1 x 2` prototypes with the `3 x 2` data has operands that do not fit. -/
theorem C8_counterexample_use_on_tall_data :
    (example_input.pair_object ℚ).getPrototypeCount ≠ 0 ∧
    (example_input.tall_data ℚ).size2 = (example_input.pair_object ℚ).getPrototypeSize ∧
    (use_index_array (example_input.tall_data ℚ)).length = 3 ∧
    use (example_input.pair_object ℚ) (example_input.tall_data ℚ) = .error .bad_argument ∧
    ¬ ∃ idx, use (example_input.pair_object ℚ) (example_input.tall_data ℚ) = .ok idx ∧
      idx.length = (example_input.tall_data ℚ).size2 ∧
      ∀ i, i ∈ idx → i < (example_input.pair_object ℚ).getPrototypeCount := by
  have herr : use (example_input.pair_object ℚ) (example_input.tall_data ℚ) =
      .error .bad_argument :=
    use_error_of_not_square (example_input.pair_object ℚ) (example_input.tall_data ℚ)
      (by decide) rfl (by decide)
  refine ⟨by decide, rfl, rfl, herr, ?_⟩
  rintro ⟨idx, hidx, _⟩
  rw [herr] at hidx
  exact Except.noConfusion hidx

/-- C8 (as amended). For every `D` with `K > 0`, `D.cols == N` and `D.rows == N` (the data on
which the product `alpha * D` exists), `use(D)` returns a sequence of exactly `D.cols` indices,
and every returned index lies in `[0, K)`. -/
theorem C8_use_returns_one_index_per_column (self : relational_neuralgas T)
    (D : ublas.matrix T) (hK : self.getPrototypeCount ≠ 0)
    (hc : D.size2 = self.getPrototypeSize) (hr : D.size1 = self.getPrototypeSize) :
    ∃ idx, use self D = .ok idx ∧ idx.length = D.size2 ∧
      ∀ i, i ∈ idx → i < self.getPrototypeCount := by
  simp only [getPrototypeCount, getPrototypeSize] at hK hc hr ⊢
  refine ⟨_, use_eq_of_square self D hK hc hr, by simp, ?_⟩
  intro i hi
  obtain ⟨j, _, rfl⟩ := List.mem_map.mp hi
  have hlen : (ublas.column (⟨self.m_prototypes.size1, D.size2, prod_data self.m_prototypes D⟩ :
      ublas.matrix T) j).length = self.m_prototypes.size1 := by
    simp [ublas.column]
  have h1 := (rankIndex_head
    (ublas.column (⟨self.m_prototypes.size1, D.size2, prod_data self.m_prototypes D⟩ :
      ublas.matrix T) j) (by rw [hlen]; exact Nat.pos_of_ne_zero hK)).1
  rw [hlen] at h1
  exact h1

/-- Witness of C8 (as amended): the three prototypes and the three points of the line. -/
theorem C8_use_returns_one_index_per_column_witness :
    (example_input.line_object ℚ).getPrototypeCount ≠ 0 ∧
    (example_input.line_data ℚ).size2 = (example_input.line_object ℚ).getPrototypeSize ∧
    (example_input.line_data ℚ).size1 = (example_input.line_object ℚ).getPrototypeSize ∧
    ∃ idx, use (example_input.line_object ℚ) (example_input.line_data ℚ) = .ok idx ∧
      idx.length = (example_input.line_data ℚ).size2 ∧
      ∀ i, i ∈ idx → i < (example_input.line_object ℚ).getPrototypeCount :=
  ⟨by decide, rfl, rfl,
    C8_use_returns_one_index_per_column (example_input.line_object ℚ)
      (example_input.line_data ℚ) (by decide) rfl rfl⟩

/-- C10 (as stated, refuted). One prototype over two objects and data with one row and two
columns: `K > 0` and `D.cols == N`, yet `use` fails, because the product of the `1 x 2`
prototypes with the `1 x 2` data does not exist. -/
theorem C10_counterexample_use_fails_on_flat_data :
    ¬ ((∃ e, use (example_input.pair_object ℚ) (example_input.flat_data ℚ) = .error e) ↔
      ((example_input.pair_object ℚ).getPrototypeCount = 0 ∨
        (example_input.flat_data ℚ).size2 ≠ (example_input.pair_object ℚ).getPrototypeSize)) := by
  intro h
  have hfail : ∃ e, use (example_input.pair_object ℚ) (example_input.flat_data ℚ) = .error e :=
    ⟨_, use_error_of_not_square _ _ (by decide) rfl (by decide)⟩
  rcases h.mp hfail with h0 | h0
  · exact absurd h0 (by decide)
  · exact h0 rfl

/-- C10 (as amended). `use(D)` raises one of its own two errors if and only if `K == 0` or
`D.cols != N`; and for every `D` with `K > 0`, `D.cols == N` and `D.rows == N` the product
`alpha * D` exists and `use(D)` succeeds. -/
theorem C10_use_precondition_errors_and_success (self : relational_neuralgas T)
    (D : ublas.matrix T) :
    ((use self D = .error .prototypes_zero ∨ use self D = .error .dimension_not_equal) ↔
      (self.getPrototypeCount = 0 ∨ D.size2 ≠ self.getPrototypeSize)) ∧
    (self.getPrototypeCount ≠ 0 → D.size2 = self.getPrototypeSize →
      D.size1 = self.getPrototypeSize →
      (∃ A, ublas.prod self.m_prototypes D = .ok A) ∧ ∃ idx, use self D = .ok idx) := by
  simp only [getPrototypeCount, getPrototypeSize]
  constructor
  · constructor
    · intro h
      by_contra hc
      push_neg at hc
      obtain ⟨hK, hcols⟩ := hc
      by_cases hr : D.size1 = self.m_prototypes.size2
      · rw [use_eq_of_square self D hK hcols hr] at h
        rcases h with h | h <;> exact Except.noConfusion h
      · rw [use_error_of_not_square self D hK hcols hr] at h
        rcases h with h | h
        · exact absurd (Except.error.inj h) (by decide)
        · exact absurd (Except.error.inj h) (by decide)
    · intro h
      unfold use
      by_cases hK : self.m_prototypes.size1 = 0
      · left
        rw [if_pos hK]
      · right
        rcases h with h | h
        · exact absurd h hK
        · rw [if_neg hK, if_pos h]
  · intro hK hcols hr
    exact ⟨⟨_, prod_ok _ _ hr.symm⟩, ⟨_, use_eq_of_square self D hK hcols hr⟩⟩

end use_claims

/-! ## Claims about purity of `use` and about the logs -/

section log_claims

variable {T : Type} [LinearOrderedField T]

/-- C11. The result of `use` depends only on the prototypes and on `D`: two objects with the same
prototypes (whatever their logs and logging flag) return the same outcome on the same `D`, so
two calls on the same object do; and the object after a call of `use` is the object before it. -/
theorem C11_use_is_a_function_of_prototypes_and_data (tl : Tools T)
    (self other : relational_neuralgas T) (D : ublas.matrix T)
    (h : self.getPrototypes = other.getPrototypes) :
    use self D = use other D ∧ after_call tl self (.use D) = self := by
  simp only [getPrototypes] at h
  refine ⟨?_, rfl⟩
  unfold use
  rw [h]

/-- Witness of C11: two objects with the same prototypes, one with logging on and filled logs. -/
theorem C11_use_is_a_function_of_prototypes_and_data_witness :
    (example_input.line_object ℝ).getPrototypes = (example_input.logged_object ℝ).getPrototypes ∧
    use (example_input.line_object ℝ) (example_input.line_data ℝ) =
      use (example_input.logged_object ℝ) (example_input.line_data ℝ) ∧
    after_call (Tools.ofSpec (1 / 2 ^ 52) Real.exp Real.rpow) (example_input.line_object ℝ)
      (.use (example_input.line_data ℝ)) = example_input.line_object ℝ :=
  ⟨rfl, C11_use_is_a_function_of_prototypes_and_data
    (Tools.ofSpec (1 / 2 ^ 52) Real.exp Real.rpow) (example_input.line_object ℝ)
    (example_input.logged_object ℝ) (example_input.line_data ℝ) rfl⟩

/-- C12. With logging on, after every successful `train(D, n, lambda)` the prototype log and the
quantization-error log each have exactly `n` entries, whatever they held before the call. -/
theorem C12_logs_have_one_entry_per_iteration (tl : Tools T) (self : relational_neuralgas T)
    (D : ublas.matrix T) (n : Nat) (lambda : T) (h : train_accepts self D n lambda)
    (hlog : self.getLogging = true) :
    (train tl self D n lambda).1 = .ok () ∧
    (train tl self D n lambda).2.getLoggedPrototypes.length = n ∧
    (train tl self D n lambda).2.getLoggedQuantizationError.length = n := by
  simp only [getLogging, getLoggedPrototypes, getLoggedQuantizationError] at hlog ⊢
  obtain ⟨h1, h2⟩ := train_logs_on tl self D n lambda h hlog
  rw [h1, h2, loop_prototypes_length, loop_errors_length, List.length_range]
  exact ⟨train_ok tl self D n lambda h, rfl, rfl⟩

/-- Witness of C12: two iterations on an object whose logs hold entries of an earlier run. -/
theorem C12_logs_have_one_entry_per_iteration_witness :
    train_accepts (example_input.logged_object ℝ) (example_input.line_data ℝ) 2 1 ∧
    (example_input.logged_object ℝ).getLogging = true ∧
    (example_input.logged_object ℝ).getLoggedPrototypes.length = 1 ∧
    (train (Tools.ofSpec (1 / 2 ^ 52) Real.exp Real.rpow) (example_input.logged_object ℝ)
      (example_input.line_data ℝ) 2 1).1 = .ok () ∧
    (train (Tools.ofSpec (1 / 2 ^ 52) Real.exp Real.rpow) (example_input.logged_object ℝ)
      (example_input.line_data ℝ) 2 1).2.getLoggedPrototypes.length = 2 ∧
    (train (Tools.ofSpec (1 / 2 ^ 52) Real.exp Real.rpow) (example_input.logged_object ℝ)
      (example_input.line_data ℝ) 2 1).2.getLoggedQuantizationError.length = 2 :=
  ⟨⟨by decide, by decide, by decide, rfl, by norm_num, rfl⟩, rfl, rfl,
    C12_logs_have_one_entry_per_iteration (Tools.ofSpec (1 / 2 ^ 52) Real.exp Real.rpow)
      (example_input.logged_object ℝ) (example_input.line_data ℝ) 2 1
      ⟨by decide, by decide, by decide, rfl, by norm_num, rfl⟩ rfl⟩

/-- C13 (as stated, refuted). An object is constructed with three prototypes of size three;
logging is switched on, one iteration is trained, logging is switched off. A further successful
`train` then leaves one entry in each log: with logging off the logs are not emptied. -/
theorem C13_counterexample_logs_of_earlier_run_stay :
    ∃ self0, construct (Tools.ofSpec (1 / 2 ^ 52) Real.exp Real.rpow) (fun _ _ => 1) 3 3 =
        .ok self0 ∧
      (after_calls (Tools.ofSpec (1 / 2 ^ 52) Real.exp Real.rpow) self0
        [.setLogging true, .train (example_input.line_data ℝ) 1 1,
          .setLogging false]).getLogging = false ∧
      (train (Tools.ofSpec (1 / 2 ^ 52) Real.exp Real.rpow)
        (after_calls (Tools.ofSpec (1 / 2 ^ 52) Real.exp Real.rpow) self0
          [.setLogging true, .train (example_input.line_data ℝ) 1 1, .setLogging false])
        (example_input.line_data ℝ) 1 1).1 = .ok () ∧
      (train (Tools.ofSpec (1 / 2 ^ 52) Real.exp Real.rpow)
        (after_calls (Tools.ofSpec (1 / 2 ^ 52) Real.exp Real.rpow) self0
          [.setLogging true, .train (example_input.line_data ℝ) 1 1, .setLogging false])
        (example_input.line_data ℝ) 1 1).2.getLoggedPrototypes.length = 1 ∧
      (train (Tools.ofSpec (1 / 2 ^ 52) Real.exp Real.rpow)
        (after_calls (Tools.ofSpec (1 / 2 ^ 52) Real.exp Real.rpow) self0
          [.setLogging true, .train (example_input.line_data ℝ) 1 1, .setLogging false])
        (example_input.line_data ℝ) 1 1).2.getLoggedQuantizationError.length = 1 := by
  refine ⟨_, construct_eq _ _ 3 3 (by decide), ?_⟩
  simp only [after_calls, List.foldl_cons, List.foldl_nil, after_call]
  generalize hs1 : setLogging (⟨normalize_closed (Tools.ofSpec (1 / 2 ^ 52) Real.exp Real.rpow)
    ⟨3, 3, fun _ _ => (1 : ℝ)⟩, false, [], [], true⟩ : relational_neuralgas ℝ) true = s1
  have hacc1 : train_accepts s1 (example_input.line_data ℝ) 1 1 := by
    rw [← hs1]
    exact ⟨by decide, by decide, by decide, rfl, by norm_num, rfl⟩
  have hlog1 : s1.m_logging = true := by rw [← hs1]; rfl
  obtain ⟨hz1, hz2, hz3⟩ := train_shape (Tools.ofSpec (1 / 2 ^ 52) Real.exp Real.rpow) s1
    (example_input.line_data ℝ) 1 1 hacc1
  obtain ⟨hl1, hl2⟩ := train_logs_on (Tools.ofSpec (1 / 2 ^ 52) Real.exp Real.rpow) s1
    (example_input.line_data ℝ) 1 1 hacc1 hlog1
  generalize hs2 : (train (Tools.ofSpec (1 / 2 ^ 52) Real.exp Real.rpow) s1
    (example_input.line_data ℝ) 1 1).2 = s2 at hz1 hz2 hz3 hl1 hl2
  have hacc3 : train_accepts (setLogging s2 false) (example_input.line_data ℝ) 1 1 := by
    refine ⟨?_, ?_, by decide, ?_, by norm_num, rfl⟩
    · show s2.m_prototypes.size1 ≠ 0
      rw [hz1]; exact hacc1.1
    · show s2.m_prototypes.size1 ≤ _
      rw [hz1]; exact hacc1.2.1
    · show _ = s2.m_prototypes.size2
      rw [hz2]; exact hacc1.2.2.2.1
  obtain ⟨hl3, hl4⟩ := train_logs_off (Tools.ofSpec (1 / 2 ^ 52) Real.exp Real.rpow)
    (setLogging s2 false) (example_input.line_data ℝ) 1 1 hacc3 rfl
  refine ⟨rfl, train_ok _ _ _ _ _ hacc3, ?_, ?_⟩
  · simp only [getLoggedPrototypes]
    rw [hl3]
    show s2.m_logprototypes.length = 1
    rw [hl1, loop_prototypes_length]
    rfl
  · simp only [getLoggedQuantizationError]
    rw [hl4]
    show s2.m_quantizationerror.length = 1
    rw [hl2, loop_errors_length]
    rfl

/-- C13 (as amended). With logging off, every successful `train` leaves both logs exactly as
they were before the call; they are empty afterwards when they were empty before, as on a newly
constructed object. -/
theorem C13_train_without_logging_keeps_logs (tl : Tools T) (self : relational_neuralgas T)
    (D : ublas.matrix T) (n : Nat) (lambda : T) (h : train_accepts self D n lambda)
    (hlog : self.getLogging = false) :
    (train tl self D n lambda).1 = .ok () ∧
    (train tl self D n lambda).2.getLoggedPrototypes = self.getLoggedPrototypes ∧
    (train tl self D n lambda).2.getLoggedQuantizationError =
      self.getLoggedQuantizationError := by
  simp only [getLogging, getLoggedPrototypes, getLoggedQuantizationError] at hlog ⊢
  exact ⟨train_ok tl self D n lambda h, train_logs_off tl self D n lambda h hlog⟩

/-- Witness of C13 (as amended): one iteration on an object with logging off and empty logs. -/
theorem C13_train_without_logging_keeps_logs_witness :
    train_accepts (example_input.line_object ℝ) (example_input.line_data ℝ) 1 1 ∧
    (example_input.line_object ℝ).getLogging = false ∧
    (train (Tools.ofSpec (1 / 2 ^ 52) Real.exp Real.rpow) (example_input.line_object ℝ)
      (example_input.line_data ℝ) 1 1).1 = .ok () ∧
    (train (Tools.ofSpec (1 / 2 ^ 52) Real.exp Real.rpow) (example_input.line_object ℝ)
      (example_input.line_data ℝ) 1 1).2.getLoggedPrototypes = [] ∧
    (train (Tools.ofSpec (1 / 2 ^ 52) Real.exp Real.rpow) (example_input.line_object ℝ)
      (example_input.line_data ℝ) 1 1).2.getLoggedQuantizationError = [] :=
  ⟨⟨by decide, by decide, by decide, rfl, by norm_num, rfl⟩, rfl,
    C13_train_without_logging_keeps_logs (Tools.ofSpec (1 / 2 ^ 52) Real.exp Real.rpow)
      (example_input.line_object ℝ) (example_input.line_data ℝ) 1 1
      ⟨by decide, by decide, by decide, rfl, by norm_num, rfl⟩ rfl⟩

/-- C14. With logging on, after a successful `train` of `n` iterations the prototype log has `n`
entries, entry `k` is the prototype matrix as the loop leaves it after the iterations `0..k`
(updated and row-normalised), and the last entry is `getPrototypes()`. -/
theorem C14_prototype_log_holds_prototypes_after_each_iteration (tl : Tools T)
    (self : relational_neuralgas T) (D : ublas.matrix T) (n : Nat) (lambda : T)
    (h : train_accepts self D n lambda) (hlog : self.getLogging = true) :
    (train tl self D n lambda).1 = .ok () ∧
    (train tl self D n lambda).2.getLoggedPrototypes.length = n ∧
    (∀ k, k < n →
      (train_loop tl D n lambda (List.range (k + 1)) (train_start self)).1 = .ok () ∧
      (train tl self D n lambda).2.getLoggedPrototypes[k]? =
        some (train_loop tl D n lambda (List.range (k + 1)) (train_start self)).2.m_prototypes) ∧
    (train tl self D n lambda).2.getLoggedPrototypes.getLast? =
      some (train tl self D n lambda).2.getPrototypes := by
  simp only [getLogging, getLoggedPrototypes, getPrototypes] at hlog ⊢
  obtain ⟨h1, _⟩ := train_logs_on tl self D n lambda h hlog
  have hentry : ∀ k, k < n →
      (loop_prototypes tl D n lambda (List.range n) self.m_prototypes)[k]? =
        some (loop_closed tl D n lambda (List.range (k + 1)) (train_start self)).m_prototypes := by
    intro k hk
    have := loop_prototypes_getElem tl D n lambda (List.range n) (train_start self) k
      (by rw [List.length_range]; exact hk)
    rw [train_start_prototypes, List.take_range, Nat.min_eq_left (Nat.succ_le_of_lt hk)] at this
    exact this
  rw [h1]
  refine ⟨train_ok tl self D n lambda h, ?_, ?_, ?_⟩
  · rw [loop_prototypes_length, List.length_range]
  · intro k hk
    rw [train_loop_prefix_eq tl self D n lambda h]
    exact ⟨rfl, hentry k hk⟩
  · obtain ⟨m, rfl⟩ := Nat.exists_eq_succ_of_ne_zero h.2.2.1
    rw [List.getLast?_eq_getElem?, loop_prototypes_length, List.length_range, Nat.succ_sub_one,
      hentry m (Nat.lt_succ_self m), train_eq tl self D (m + 1) lambda h]

/-- Witness of C14: two iterations on an object whose logs hold entries of an earlier run. -/
theorem C14_prototype_log_holds_prototypes_after_each_iteration_witness :
    train_accepts (example_input.logged_object ℝ) (example_input.line_data ℝ) 2 1 ∧
    (example_input.logged_object ℝ).getLogging = true ∧
    (train (Tools.ofSpec (1 / 2 ^ 52) Real.exp Real.rpow) (example_input.logged_object ℝ)
      (example_input.line_data ℝ) 2 1).2.getLoggedPrototypes.getLast? =
      some (train (Tools.ofSpec (1 / 2 ^ 52) Real.exp Real.rpow) (example_input.logged_object ℝ)
        (example_input.line_data ℝ) 2 1).2.getPrototypes :=
  ⟨⟨by decide, by decide, by decide, rfl, by norm_num, rfl⟩, rfl,
    (C14_prototype_log_holds_prototypes_after_each_iteration
      (Tools.ofSpec (1 / 2 ^ 52) Real.exp Real.rpow)
      (example_input.logged_object ℝ) (example_input.line_data ℝ) 2 1
      ⟨by decide, by decide, by decide, rfl, by norm_num, rfl⟩ rfl).2.2.2⟩

/-- C15. With logging on, after a successful `train` of `n` iterations the quantization-error
log has `n` entries, and entry `k` is `calculateQuantizationError` of the matrix that lines
284-291 build (bias-corrected, before the rank loop) from the prototypes as the loop leaves them
after the iterations `0..k-1`; entry 0 is built from the prototypes held before the call, and
no entry is built from the prototypes after the last iteration. -/
theorem C15_error_log_holds_error_at_start_of_each_iteration (tl : Tools T)
    (self : relational_neuralgas T) (D : ublas.matrix T) (n : Nat) (lambda : T)
    (h : train_accepts self D n lambda) (hlog : self.getLogging = true) :
    (train tl self D n lambda).1 = .ok () ∧
    (train tl self D n lambda).2.getLoggedQuantizationError.length = n ∧
    (∀ k, k < n →
      (train_loop tl D n lambda (List.range k) (train_start self)).1 = .ok () ∧
      ∃ A, train_adaptmatrix
          (train_loop tl D n lambda (List.range k) (train_start self)).2.m_prototypes D = .ok A ∧
        (train tl self D n lambda).2.getLoggedQuantizationError[k]? =
          some (calculateQuantizationError self A)) ∧
    ∃ A0, train_adaptmatrix self.m_prototypes D = .ok A0 ∧
      (train tl self D n lambda).2.getLoggedQuantizationError[0]? =
        some (calculateQuantizationError self A0) := by
  simp only [getLogging, getLoggedQuantizationError] at hlog ⊢
  obtain ⟨_, h2⟩ := train_logs_on tl self D n lambda h hlog
  have hsz : ∀ l, (loop_closed tl D n lambda l (train_start self)).m_prototypes.size2 =
      D.size1 := by
    intro l
    rw [loop_closed_size2 _ _ _ _ _ _
      (by rw [train_start_prototypes]; exact h.2.2.2.1.symm)]
    exact h.2.2.2.2.2.symm
  have hentry : ∀ k, k < n →
      (loop_errors tl D n lambda self (List.range n) self.m_prototypes)[k]? =
        some (calculateQuantizationError self (adapt_closed
          (loop_closed tl D n lambda (List.range k) (train_start self)).m_prototypes D)) := by
    intro k hk
    have := loop_errors_getElem tl D n lambda (List.range n) (train_start self) k
      (by rw [List.length_range]; exact hk)
    rw [train_start_prototypes, List.take_range, Nat.min_eq_left (Nat.le_of_lt hk),
      loop_errors_self tl D n lambda (train_start self) self] at this
    exact this
  rw [h2]
  refine ⟨train_ok tl self D n lambda h, ?_, ?_, ?_⟩
  · rw [loop_errors_length, List.length_range]
  · intro k hk
    rw [train_loop_prefix_eq tl self D n lambda h]
    exact ⟨rfl, _, train_adaptmatrix_eq _ D (hsz _), hentry k hk⟩
  · refine ⟨_, train_adaptmatrix_eq self.m_prototypes D ?_, ?_⟩
    · rw [← h.2.2.2.1]; exact h.2.2.2.2.2.symm
    · have := hentry 0 (Nat.pos_of_ne_zero h.2.2.1)
      rw [this, List.range_zero, loop_closed_nil, train_start_prototypes]

/-- Witness of C15: two iterations on an object whose logs hold entries of an earlier run. -/
theorem C15_error_log_holds_error_at_start_of_each_iteration_witness :
    train_accepts (example_input.logged_object ℝ) (example_input.line_data ℝ) 2 1 ∧
    (example_input.logged_object ℝ).getLogging = true ∧
    ∃ A0, train_adaptmatrix (example_input.logged_object ℝ).m_prototypes
        (example_input.line_data ℝ) = .ok A0 ∧
      (train (Tools.ofSpec (1 / 2 ^ 52) Real.exp Real.rpow) (example_input.logged_object ℝ)
        (example_input.line_data ℝ) 2 1).2.getLoggedQuantizationError[0]? =
        some (calculateQuantizationError (example_input.logged_object ℝ) A0) :=
  ⟨⟨by decide, by decide, by decide, rfl, by norm_num, rfl⟩, rfl,
    (C15_error_log_holds_error_at_start_of_each_iteration
      (Tools.ofSpec (1 / 2 ^ 52) Real.exp Real.rpow)
      (example_input.logged_object ℝ) (example_input.line_data ℝ) 2 1
      ⟨by decide, by decide, by decide, rfl, by norm_num, rfl⟩ rfl).2.2.2⟩

end log_claims

/-! ## Claims about the temperature -/

section temperature_claims

/-- C16. With the real power function for `std::pow`, for `lambda > 0`, `n > 0` and `i < n`:
the temperature of iteration `i` is `lambda * (0.01 / lambda) ^ (i / n)` with the real quotient
`i / n`, the temperature of iteration 0 is `lambda`, every temperature is positive, and
`lambda_{i+1} / lambda_i = (0.01 / lambda) ^ (1 / n)`. -/
theorem C16_temperature_is_geometric (tl : Tools ℝ) (hpow : ∀ x y, tl.pow x y = x ^ y)
    (lambda : ℝ) (hl : 0 < lambda) (n : Nat) (hn : 0 < n) (i : Nat) (_hi : i < n) :
    train_lambda tl n lambda i = lambda * ((1 / 100) / lambda) ^ ((i : ℝ) / (n : ℝ)) ∧
    train_lambda tl n lambda 0 = lambda ∧
    0 < train_lambda tl n lambda i ∧
    train_lambda tl n lambda (i + 1) / train_lambda tl n lambda i =
      ((1 / 100) / lambda) ^ ((1 : ℝ) / (n : ℝ)) := by
  have hx : (0 : ℝ) < (1 / 100) / lambda := by positivity
  have hnR : (0 : ℝ) < (n : ℝ) := by exact_mod_cast hn
  refine ⟨?_, ?_, ?_, ?_⟩ <;> simp only [train_lambda, hpow]
  · simp
  · exact mul_pos hl (Real.rpow_pos_of_pos hx _)
  · have hexp : (((i + 1 : ℕ) : ℝ)) / (n : ℝ) = (i : ℝ) / (n : ℝ) + 1 / (n : ℝ) := by
      push_cast
      ring
    rw [hexp, Real.rpow_add hx]
    have hp : (0 : ℝ) < ((1 / 100) / lambda) ^ ((i : ℝ) / (n : ℝ)) := Real.rpow_pos_of_pos hx _
    rw [div_eq_iff (ne_of_gt (mul_pos hl hp))]
    ring

/-- Witness of C16: the second of five iterations at `lambda = 3/2`. -/
theorem C16_temperature_is_geometric_witness :
    (∀ x y, (Tools.ofSpec (1 / 2 ^ 52) Real.exp Real.rpow).pow x y = x ^ y) ∧
    (0 : ℝ) < 3 / 2 ∧ 0 < 5 ∧ 1 < 5 ∧
    train_lambda (Tools.ofSpec (1 / 2 ^ 52) Real.exp Real.rpow) 5 (3 / 2) 0 = 3 / 2 ∧
    0 < train_lambda (Tools.ofSpec (1 / 2 ^ 52) Real.exp Real.rpow) 5 (3 / 2) 1 :=
  ⟨fun _ _ => rfl, by norm_num, by norm_num, by norm_num,
    (C16_temperature_is_geometric (Tools.ofSpec (1 / 2 ^ 52) Real.exp Real.rpow)
      (fun _ _ => rfl) (3 / 2) (by norm_num) 5 (by norm_num) 1 (by norm_num)).2.1,
    (C16_temperature_is_geometric (Tools.ofSpec (1 / 2 ^ 52) Real.exp Real.rpow)
      (fun _ _ => rfl) (3 / 2) (by norm_num) 5 (by norm_num) 1 (by norm_num)).2.2.1⟩

/-- C17 (as stated, refuted). With the real power function, `lambda = 0.0001` and two
iterations: the temperature of iteration 1 is larger than that of iteration 0. -/
theorem C17_counterexample_temperature_rises_for_small_lambda :
    (0 : ℝ) < 1 / 10000 ∧
    ¬ (train_lambda (Tools.ofSpec (1 / 2 ^ 52) Real.exp Real.rpow) 2 (1 / 10000) 1 ≤
      train_lambda (Tools.ofSpec (1 / 2 ^ 52) Real.exp Real.rpow) 2 (1 / 10000) 0) := by
  refine ⟨by norm_num, ?_⟩
  simp only [train_lambda, Tools.ofSpec]
  have h1 : (1 : ℝ) < Real.rpow ((1 / 100) / (1 / 10000)) (((1 : ℕ) : ℝ) / ((2 : ℕ) : ℝ)) :=
    Real.one_lt_rpow (by norm_num) (by norm_num)
  have h0 : Real.rpow ((1 / 100) / (1 / 10000)) (((0 : ℕ) : ℝ) / ((2 : ℕ) : ℝ)) = 1 := by
    simp
  rw [h0]
  intro hle
  nlinarith

/-- C17 (as amended). With the real power function, for `lambda > 0`, `n > 0` and `i < n`: if
`lambda >= 0.01` the temperatures do not increase and lie between `0.01` and `lambda`; if
`lambda <= 0.01` they do not decrease and lie between `lambda` and `0.01`. -/
theorem C17_temperature_moves_monotonically_toward_one_hundredth (tl : Tools ℝ)
    (hpow : ∀ x y, tl.pow x y = x ^ y) (lambda : ℝ) (hl : 0 < lambda) (n : Nat) (hn : 0 < n)
    (i : Nat) (hi : i < n) :
    (1 / 100 ≤ lambda →
      train_lambda tl n lambda (i + 1) ≤ train_lambda tl n lambda i ∧
      1 / 100 ≤ train_lambda tl n lambda i ∧ train_lambda tl n lambda i ≤ lambda) ∧
    (lambda ≤ 1 / 100 →
      train_lambda tl n lambda i ≤ train_lambda tl n lambda (i + 1) ∧
      lambda ≤ train_lambda tl n lambda i ∧ train_lambda tl n lambda i ≤ 1 / 100) := by
  have hx : (0 : ℝ) < (1 / 100) / lambda := by positivity
  have hnR : (0 : ℝ) < (n : ℝ) := by exact_mod_cast hn
  have ht0 : (0 : ℝ) ≤ (i : ℝ) / (n : ℝ) := by positivity
  have ht1 : (i : ℝ) / (n : ℝ) ≤ 1 := by
    rw [div_le_one hnR]
    exact_mod_cast le_of_lt hi
  have hstep : (i : ℝ) / (n : ℝ) ≤ ((i + 1 : ℕ) : ℝ) / (n : ℝ) := by
    apply div_le_div_of_nonneg_right _ (le_of_lt hnR)
    push_cast
    linarith
  have hxl : lambda * ((1 / 100) / lambda) = 1 / 100 := by
    field_simp
    ring
  simp only [train_lambda, hpow]
  constructor
  · intro hge
    have hx1 : (1 / 100) / lambda ≤ 1 := by
      rw [div_le_one hl]; exact hge
    refine ⟨?_, ?_, ?_⟩
    · exact mul_le_mul_of_nonneg_left
        (Real.rpow_le_rpow_of_exponent_ge hx hx1 hstep) (le_of_lt hl)
    · have := Real.rpow_le_rpow_of_exponent_ge hx hx1 ht1
      rw [Real.rpow_one] at this
      calc (1 : ℝ) / 100 = lambda * ((1 / 100) / lambda) := hxl.symm
        _ ≤ lambda * ((1 / 100) / lambda) ^ ((i : ℝ) / (n : ℝ)) :=
          mul_le_mul_of_nonneg_left this (le_of_lt hl)
    · have := Real.rpow_le_one (le_of_lt hx) hx1 ht0
      calc lambda * ((1 / 100) / lambda) ^ ((i : ℝ) / (n : ℝ)) ≤ lambda * 1 :=
          mul_le_mul_of_nonneg_left this (le_of_lt hl)
        _ = lambda := mul_one _
  · intro hle
    have hx1 : 1 ≤ (1 / 100) / lambda := by
      rw [le_div_iff₀ hl]; linarith
    refine ⟨?_, ?_, ?_⟩
    · exact mul_le_mul_of_nonneg_left
        (Real.rpow_le_rpow_of_exponent_le hx1 hstep) (le_of_lt hl)
    · have := Real.one_le_rpow hx1 ht0
      calc lambda = lambda * 1 := (mul_one _).symm
        _ ≤ lambda * ((1 / 100) / lambda) ^ ((i : ℝ) / (n : ℝ)) :=
          mul_le_mul_of_nonneg_left this (le_of_lt hl)
    · have := Real.rpow_le_rpow_of_exponent_le hx1 ht1
      rw [Real.rpow_one] at this
      calc lambda * ((1 / 100) / lambda) ^ ((i : ℝ) / (n : ℝ)) ≤
          lambda * ((1 / 100) / lambda) := mul_le_mul_of_nonneg_left this (le_of_lt hl)
        _ = 1 / 100 := hxl

/-- Witness of C17 (as amended): the second of five iterations at `lambda = 3/2`. -/
theorem C17_temperature_moves_monotonically_toward_one_hundredth_witness :
    (∀ x y, (Tools.ofSpec (1 / 2 ^ 52) Real.exp Real.rpow).pow x y = x ^ y) ∧
    (0 : ℝ) < 3 / 2 ∧ 0 < 5 ∧ 1 < 5 ∧ (1 : ℝ) / 100 ≤ 3 / 2 ∧
    train_lambda (Tools.ofSpec (1 / 2 ^ 52) Real.exp Real.rpow) 5 (3 / 2) (1 + 1) ≤
      train_lambda (Tools.ofSpec (1 / 2 ^ 52) Real.exp Real.rpow) 5 (3 / 2) 1 ∧
    1 / 100 ≤ train_lambda (Tools.ofSpec (1 / 2 ^ 52) Real.exp Real.rpow) 5 (3 / 2) 1 ∧
    train_lambda (Tools.ofSpec (1 / 2 ^ 52) Real.exp Real.rpow) 5 (3 / 2) 1 ≤ 3 / 2 :=
  ⟨fun _ _ => rfl, by norm_num, by norm_num, by norm_num, by norm_num,
    (C17_temperature_moves_monotonically_toward_one_hundredth
      (Tools.ofSpec (1 / 2 ^ 52) Real.exp Real.rpow)
      (fun _ _ => rfl) (3 / 2) (by norm_num) 5 (by norm_num) 1 (by norm_num)).1 (by norm_num)⟩

end temperature_claims

/-! ## Claims about the constructor -/

section constructor_claims

variable {T : Type} [LinearOrderedField T]

/-- C18. Construction with prototype count `K` and dimension `N` fails if and only if `N == 0`.
For `K == 0` and `N > 0` it yields an object with `getPrototypeCount() == 0`, and after every
sequence of calls on that object the count is still `0` and `train` (both overloads) and `use`
throw the zero-prototypes error. -/
theorem C18_construct_fails_iff_size_zero (tl : Tools T) (values : Nat → Nat → T) (K N : Nat) :
    ((∃ e, construct tl values K N = .error e) ↔ N = 0) ∧
    (N ≠ 0 → ∃ self, construct tl values 0 N = .ok self ∧ self.getPrototypeCount = 0 ∧
      ∀ (calls : List (call T)) (D : ublas.matrix T) (n : Nat) (lambda : T),
        (after_calls tl self calls).getPrototypeCount = 0 ∧
        (train tl (after_calls tl self calls) D n lambda).1 = .error .prototypes_zero ∧
        (train_default tl (after_calls tl self calls) D n).1 = .error .prototypes_zero ∧
        use (after_calls tl self calls) D = .error .prototypes_zero) := by
  constructor
  · constructor
    · rintro ⟨e, he⟩
      by_contra hN
      rw [construct_eq tl values K N hN] at he
      exact Except.noConfusion he
    · intro hN
      subst hN
      exact ⟨_, construct_error tl values K⟩
  · intro hN
    refine ⟨_, construct_eq tl values 0 N hN, rfl, ?_⟩
    intro calls D n lambda
    have h0 := after_calls_of_no_prototypes tl calls
      (⟨normalize_closed tl ⟨0, N, values⟩, false, [], [], true⟩ : relational_neuralgas T) rfl
    refine ⟨h0, ?_, ?_, use_of_no_prototypes _ D h0⟩
    · rw [train_of_no_prototypes tl _ D n lambda h0]
    · unfold train_default
      rw [train_of_no_prototypes tl _ D n _ h0]

/-- C19 (as stated, refuted). In `double` arithmetic the constructor makes of one row of ten
random values that are all 1 (a sum of 10, not numerically zero) the row of ten times the
`double` value `0.1`; neither the sum of that row nor the sum that the machine computes of
it is 1. -/
theorem C19_counterexample_row_of_tenths_does_not_sum_to_one :
    ∃ self, rounded.construct binary64.round_nearest (Tools.ofSpec (1 / 2 ^ 52) Real.exp Real.rpow)
        (fun _ _ => (1 : ℝ)) 1 10 = .ok self ∧
      (Tools.ofSpec (1 / 2 ^ 52) Real.exp Real.rpow).isNumericalZero
        (rounded.sum binary64.round_nearest ((List.range 10).map fun _ => (1 : ℝ))) = false ∧
      (∀ j, j < 10 → self.getPrototypes.data 0 j = 3602879701896397 / 36028797018963968) ∧
      ublas.sum (ublas.row self.getPrototypes 0) ≠ 1 ∧
      rounded.sum binary64.round_nearest (ublas.row self.getPrototypes 0) ≠ 1 := by
  refine ⟨_, rounded.construct_eq_fl _ _ _ 1 10 (by decide), ?_, ?_, ?_, ?_⟩
  · have : (List.range 10).map (fun _ => (1 : ℝ)) = List.replicate 10 1 := by
      simp [List.range_succ, List.replicate]
    rw [this, binary64.sum_ones 10 (by norm_num)]
    exact isNumericalZero_of_one_le _ (by norm_num) _ (by norm_num)
  · intro j hj
    exact binary64.ten_ones_normalized j hj
  · show ublas.sum (ublas.row (rounded.normalize_closed binary64.round_nearest (Tools.ofSpec (1 / 2 ^ 52) Real.exp Real.rpow)
      (example_input.ten_ones ℝ)) 0) ≠ 1
    rw [binary64.ten_ones_normalized_row]
    simp only [ublas.sum, List.replicate, List.sum_cons, List.sum_nil]
    norm_num
  · show rounded.sum binary64.round_nearest (ublas.row (rounded.normalize_closed
      binary64.round_nearest (Tools.ofSpec (1 / 2 ^ 52) Real.exp Real.rpow) (example_input.ten_ones ℝ)) 0) ≠ 1
    rw [binary64.ten_ones_normalized_row, binary64.sum_ten_tenths]
    norm_num

/-- C19 (as amended). With the arithmetic of the number type rounded by `fl`: a construction
with `K` prototypes of size `N > 0` from the random values `R` succeeds; logging is off, both
logs are empty, the prototypes are `K x N`; row `k` holds the rounded quotients of the entries
of the row of `R` by its computed sum when that sum is not numerically zero, and the row of `R`
unchanged otherwise. When the random values of a divided row are not negative, the row sums
to 1 within a floating tolerance: the sum of the stored entries up to
`row_sum_tolerance u eta tau N` and the sum as the machine computes it up to
`computed_sum_tolerance u eta tau N` (`u`, `eta` bound the relative and the absolute error of
a rounding, which rounds no number above 0 to a number below 0, sums that are not numerically
zero are at least `tau` in absolute value, and `(1 + u)^N - 1 <= 1/2`). -/
theorem C19_construct_normalizes_rows (fl : T → T) (tl : Tools T) (u eta tau : T)
    (hu : 0 ≤ u) (heta : 0 ≤ eta) (htau : 0 < tau)
    (hfl : ∀ x, |fl x - x| ≤ u * |x| + eta) (hnn : ∀ x, 0 ≤ x → 0 ≤ fl x)
    (hzero : ∀ x, tl.isNumericalZero x = false → tau ≤ |x|)
    (R : Nat → Nat → T) (K N : Nat) (hN : 0 < N) (hg : (1 + u) ^ N - 1 ≤ 1 / 2) :
    ∃ self, rounded.construct fl tl R K N = .ok self ∧
      self.getLogging = false ∧ self.getLoggedPrototypes = [] ∧
      self.getLoggedQuantizationError = [] ∧
      self.getPrototypeCount = K ∧ self.getPrototypeSize = N ∧
      ∀ k, k < K →
        (tl.isNumericalZero (rounded.sum fl ((List.range N).map fun c => R k c)) = false →
          (∀ j, j < N → self.getPrototypes.data k j =
            fl (R k j / rounded.sum fl ((List.range N).map fun c => R k c))) ∧
          ((∀ j, j < N → 0 ≤ R k j) →
            |ublas.sum (ublas.row self.getPrototypes k) - 1| ≤
              rounded.row_sum_tolerance u eta tau N ∧
            |rounded.sum fl (ublas.row self.getPrototypes k) - 1| ≤
              rounded.computed_sum_tolerance u eta tau N)) ∧
        (tl.isNumericalZero (rounded.sum fl ((List.range N).map fun c => R k c)) = true →
          ∀ j, j < N → self.getPrototypes.data k j = R k j) := by
  refine ⟨_, rounded.construct_eq_fl fl tl R K N (Nat.pos_iff_ne_zero.mp hN), rfl, rfl, rfl, rfl,
    rfl, ?_⟩
  intro k hk
  simp only [getPrototypes]
  have hrow : ublas.row (⟨K, N, R⟩ : ublas.matrix T) k = (List.range N).map fun c => R k c := rfl
  have hdata : ∀ j, j < N →
      (rounded.normalize_closed fl tl (⟨K, N, R⟩ : ublas.matrix T)).data k j =
        rounded.normalized_data fl tl ⟨K, N, R⟩ k j :=
    fun j hj => rounded.normalize_closed_data_fl fl tl ⟨K, N, R⟩ k j hk hj
  constructor
  · intro hnz
    constructor
    · intro j hj
      rw [hdata j hj]
      unfold rounded.normalized_data
      rw [hrow, hnz]
      simp
    · intro hR
      exact ⟨rounded.normalized_row_sum_fl fl tl u eta tau hu heta htau hfl hzero
          (⟨K, N, R⟩ : ublas.matrix T) k hk hR hg hnz,
        rounded.normalized_row_computed_sum_fl fl tl u eta tau hu heta htau hfl hnn hzero
          (⟨K, N, R⟩ : ublas.matrix T) k hk hR hg hnz⟩
  · intro hnz j hj
    rw [hdata j hj]
    unfold rounded.normalized_data
    rw [hrow, hnz]
    simp

/-- Witness of C19 (as amended): `double` arithmetic, three prototypes of size three from
random values that are all 1. -/
theorem C19_construct_normalizes_rows_witness :
    (∀ x : ℝ, |binary64.round_nearest x - x| ≤ 1 / 2 ^ 53 * |x| + 1 / 2 ^ 1075) ∧
    (∀ x : ℝ, 0 ≤ x → 0 ≤ binary64.round_nearest x) ∧
    (∀ x, (Tools.ofSpec (1 / 2 ^ 52) Real.exp Real.rpow).isNumericalZero x = false → (1 : ℝ) / 2 ^ 52 ≤ |x|) ∧
    0 < 3 ∧ (1 + (1 : ℝ) / 2 ^ 53) ^ 3 - 1 ≤ 1 / 2 ∧
    ∃ self, rounded.construct binary64.round_nearest (Tools.ofSpec (1 / 2 ^ 52) Real.exp Real.rpow) (fun _ _ => (1 : ℝ)) 3 3 = .ok self ∧
      self.getLogging = false ∧ self.getPrototypeCount = 3 ∧ self.getPrototypeSize = 3 :=
  ⟨binary64.round_nearest_error, binary64.round_nearest_nonneg,
    fun x hx => le_of_lt (lt_of_isNumericalZero_false _ x hx),
    by decide, by norm_num,
    (C19_construct_normalizes_rows binary64.round_nearest (Tools.ofSpec (1 / 2 ^ 52) Real.exp Real.rpow) (1 / 2 ^ 53) (1 / 2 ^ 1075)
      (1 / 2 ^ 52) (by norm_num) (by norm_num) (by norm_num) binary64.round_nearest_error
      binary64.round_nearest_nonneg
      (fun x hx => le_of_lt (lt_of_isNumericalZero_false _ x hx))
      (fun _ _ => (1 : ℝ)) 3 3 (by decide) (by norm_num)).imp
      fun _ h => ⟨h.1, h.2.1, h.2.2.2.2.1, h.2.2.2.2.2.1⟩⟩

end constructor_claims

/-! ## Claims about the scenario of two clusters -/

section cluster_claims

variable {T : Type} [LinearOrderedField T]

/-- C20 (as stated, refuted). Two prototypes of size four are constructed from random values
that are all 1, so every entry of the initial prototypes is `1/4` (non-negative rows that sum
to 1). After `train(D, 20)` on the data of the two clusters, `use(D)` gives all four objects
the same prototype index. -/
theorem C20_counterexample_equal_prototypes_stay_equal :
    ∃ self0, construct (Tools.ofSpec (1 / 2 ^ 52) Real.exp Real.rpow) (fun _ _ => 1) 2 4 =
        .ok self0 ∧
      (∀ k, k < 2 → ∀ j, j < 4 → self0.getPrototypes.data k j = 1 / 4) ∧
      (train_default (Tools.ofSpec (1 / 2 ^ 52) Real.exp Real.rpow) self0
        (example_input.cluster_data ℝ) 20).1 = .ok () ∧
      ∃ i, use (train_default (Tools.ofSpec (1 / 2 ^ 52) Real.exp Real.rpow) self0
        (example_input.cluster_data ℝ) 20).2 (example_input.cluster_data ℝ) =
          .ok [i, i, i, i] := by
  refine ⟨_, construct_eq _ _ 2 4 (by decide), ?_⟩
  have hent : ∀ k, k < 2 → ∀ j, j < 4 →
      (normalize_closed (Tools.ofSpec (1 / 2 ^ 52) Real.exp Real.rpow)
        (⟨2, 4, fun _ _ => (1 : ℝ)⟩ : ublas.matrix ℝ)).data k j = 1 / 4 := by
    intro k hk j hj
    rw [normalize_closed_data _ _ k j hk hj]
    have hrow : ublas.sum (ublas.row (⟨2, 4, fun _ _ => (1 : ℝ)⟩ : ublas.matrix ℝ) k) = 4 := by
      rw [row_of_four_columns _ rfl]
      simp only [ublas.sum, List.sum_cons, List.sum_nil]
      norm_num
    unfold normalized_data
    rw [hrow]
    have hz : (Tools.ofSpec (1 / 2 ^ 52) Real.exp Real.rpow).isNumericalZero (4 : ℝ) = false :=
      isNumericalZero_of_one_le _ (by norm_num) 4 (by norm_num)
    rw [hz]
    simp
  have hun : uniform_rows (normalize_closed (Tools.ofSpec (1 / 2 ^ 52) Real.exp Real.rpow)
      (⟨2, 4, fun _ _ => (1 : ℝ)⟩ : ublas.matrix ℝ)) := by
    refine ⟨rfl, rfl, ?_⟩
    intro k hk j hj
    rw [hent k hk j hj, hent k hk 0 (by norm_num)]
  exact ⟨hent, train_default_of_uniform_rows _ _ hun 20 (by decide)⟩

/-- C20 (as amended). On the data of the two clusters, with helpers that rank two different
values in ascending order, an `exp` with `exp 0 = 1` and values in `[0, 1)` below zero, a
positive `pow` and no value from one on numerically zero: for every initial `2 x 4` prototype
matrix whose first matrix `l_adaptmatrix` has prototype `a` strictly closer to the objects 0 and
1 and the other prototype `b` strictly closer to the objects 2 and 3, and every `n >= 1`,
`train(D, n)` succeeds and `use(D)` then returns `[a, a, b, b]`. -/
theorem C20_train_then_use_separates_clusters (tl : Tools T)
    (hr1 : ∀ x y : T, x < y → tl.rank [x, y] = [0, 1])
    (hr2 : ∀ x y : T, y < x → tl.rank [x, y] = [1, 0])
    (he0 : tl.exp 0 = 1) (he : ∀ x : T, x < 0 → 0 ≤ tl.exp x ∧ tl.exp x < 1)
    (hpow : ∀ x y : T, 0 < x → 0 < tl.pow x y)
    (hz : ∀ s : T, 1 ≤ s → tl.isNumericalZero s = false)
    (self : relational_neuralgas T) (hK : self.getPrototypeCount = 2)
    (hN : self.getPrototypeSize = 4) (a b : Nat) (hab : (a = 0 ∧ b = 1) ∨ (a = 1 ∧ b = 0))
    (hsep : ∃ A, train_adaptmatrix self.m_prototypes (example_input.cluster_data T) = .ok A ∧
      separates A a b)
    (n : Nat) (hn : 1 ≤ n) :
    (train_default tl self (example_input.cluster_data T) n).1 = .ok () ∧
    use (train_default tl self (example_input.cluster_data T) n).2
      (example_input.cluster_data T) = .ok [a, a, b, b] := by
  simp only [getPrototypeCount, getPrototypeSize] at hK hN
  have hlam0 : (0 : T) < ((self.m_prototypes.size1 : ℕ) : T) * (1 / 2) := by
    rw [hK]; norm_num
  have hacc : train_accepts self (example_input.cluster_data T) n
      (((self.m_prototypes.size1 : ℕ) : T) * (1 / 2)) := by
    refine ⟨by rw [hK]; norm_num, ?_, by omega, by rw [hN]; rfl, hlam0, rfl⟩
    rw [hK]
    show 2 ≤ 4
    norm_num
  have hlam : ∀ i, 0 < train_lambda tl n (((self.m_prototypes.size1 : ℕ) : T) * (1 / 2)) i := by
    intro i
    unfold train_lambda
    exact mul_pos hlam0 (hpow _ _ (div_pos (by norm_num) hlam0))
  obtain ⟨A, hA, hsepA⟩ := hsep
  rw [train_adaptmatrix_eq _ _ (by rw [hN]; rfl)] at hA
  have hA2 := (Except.ok.inj hA).symm
  subst hA2
  unfold train_default
  rw [train_eq _ _ _ _ _ hacc]
  refine ⟨rfl, ?_⟩
  apply use_of_cluster_split _ a b hab
  obtain ⟨m, rfl⟩ : ∃ m, n = m + 1 := ⟨n - 1, by omega⟩
  rw [List.range_succ_eq_map, loop_closed_cons]
  apply loop_cluster_split tl hr1 hr2 he0 he hz a b hab _ _ hlam
  have hP : (train_start self).m_prototypes = self.m_prototypes := train_start_prototypes self
  show cluster_split (iteration_prototypes tl (example_input.cluster_data T) (m + 1) _ 0
    (train_start self).m_prototypes) a b
  rw [hP]
  exact iteration_cluster_split tl hr1 hr2 he0 he hz self.m_prototypes hK a b hab hsepA
    (m + 1) _ 0 (hlam 0)

/-- Witness of C20 (as amended): the prototypes on object 0 and on object 2, twenty iterations,
the helpers as the spec describes them with the real `exp` and `pow`. -/
theorem C20_train_then_use_separates_clusters_witness :
    (example_input.cluster_object ℝ).getPrototypeCount = 2 ∧
    (example_input.cluster_object ℝ).getPrototypeSize = 4 ∧
    (∃ A, train_adaptmatrix (example_input.cluster_object ℝ).m_prototypes
        (example_input.cluster_data ℝ) = .ok A ∧ separates A 0 1) ∧
    (train_default (Tools.ofSpec (1 / 2 ^ 52) Real.exp Real.rpow) (example_input.cluster_object ℝ)
      (example_input.cluster_data ℝ) 20).1 = .ok () ∧
    use (train_default (Tools.ofSpec (1 / 2 ^ 52) Real.exp Real.rpow)
      (example_input.cluster_object ℝ) (example_input.cluster_data ℝ) 20).2
      (example_input.cluster_data ℝ) = .ok [0, 0, 1, 1] :=
  have hsep : ∃ A, train_adaptmatrix (example_input.cluster_object ℝ).m_prototypes
      (example_input.cluster_data ℝ) = .ok A ∧ separates A 0 1 :=
    ⟨_, train_adaptmatrix_eq _ _ rfl, cluster_object_separates⟩
  ⟨rfl, rfl, hsep,
    C20_train_then_use_separates_clusters (Tools.ofSpec (1 / 2 ^ 52) Real.exp Real.rpow)
      (fun x y h => rank_of_pair_lt x y h) (fun x y h => rank_of_pair_gt x y h)
      Real.exp_zero (fun x hx => ⟨le_of_lt (Real.exp_pos x), Real.exp_lt_one_iff.mpr hx⟩)
      (fun x y hx => Real.rpow_pos_of_pos hx y)
      (fun s hs => isNumericalZero_of_one_le _ (by norm_num) s hs)
      (example_input.cluster_object ℝ) rfl rfl 0 1 (Or.inl ⟨rfl, rfl⟩) hsep 20 (by norm_num)⟩

end cluster_claims

/-! ## Claims about the order of the checks, the shape and the normalisation -/

section invariant_claims

variable {T : Type} [LinearOrderedField T]

/-- C21. After a construction with `K` prototypes of size `N` that succeeds, and after every
sequence of calls of `train` (either overload), `use` and `setLogging` on the object, whether
the calls return or throw: `getPrototypes()` has `K` rows and `N` columns,
`getPrototypeCount() == K`, `getPrototypeSize() == N`, and every logged prototype matrix has
`K` rows and `N` columns. -/
theorem C21_shape_of_prototypes_is_invariant (tl : Tools T) (values : Nat → Nat → T)
    (K N : Nat) (self0 : relational_neuralgas T) (h : construct tl values K N = .ok self0)
    (calls : List (call T)) :
    (after_calls tl self0 calls).getPrototypes.size1 = K ∧
    (after_calls tl self0 calls).getPrototypes.size2 = N ∧
    (after_calls tl self0 calls).getPrototypeCount = K ∧
    (after_calls tl self0 calls).getPrototypeSize = N ∧
    ∀ M, M ∈ (after_calls tl self0 calls).getLoggedPrototypes → M.size1 = K ∧ M.size2 = N := by
  have hN : N ≠ 0 := by
    intro h0
    subst h0
    rw [construct_error] at h
    exact Except.noConfusion h
  rw [construct_eq tl values K N hN] at h
  have hs := (Except.ok.inj h).symm
  subst hs
  have := after_calls_keeps_shape tl calls
    (⟨normalize_closed tl ⟨K, N, values⟩, false, [], [], true⟩ : relational_neuralgas T) K N
    ⟨rfl, rfl, fun M hM => absurd hM (List.not_mem_nil M)⟩
  exact ⟨this.1, this.2.1, this.1, this.2.1, this.2.2⟩

/-- Witness of C21: three prototypes of size three; logging is switched on, `train` runs two
iterations on the data of the line, `use` is called, and `train` is called on data of the
wrong shape. -/
theorem C21_shape_of_prototypes_is_invariant_witness :
    construct (Tools.ofSpec (1 / 2 ^ 52) Real.exp Real.rpow) (fun _ _ => (1 : ℝ)) 3 3 =
      .ok ⟨normalize_closed (Tools.ofSpec (1 / 2 ^ 52) Real.exp Real.rpow)
        ⟨3, 3, fun _ _ => (1 : ℝ)⟩, false, [], [], true⟩ ∧
    (after_calls (Tools.ofSpec (1 / 2 ^ 52) Real.exp Real.rpow)
      ⟨normalize_closed (Tools.ofSpec (1 / 2 ^ 52) Real.exp Real.rpow)
        ⟨3, 3, fun _ _ => (1 : ℝ)⟩, false, [], [], true⟩
      [.setLogging true, .train (example_input.line_data ℝ) 2 1,
        .use (example_input.line_data ℝ), .train_default (example_input.tall_data ℝ) 2]
      ).getPrototypeCount = 3 :=
  ⟨construct_eq _ _ 3 3 (by decide),
    (C21_shape_of_prototypes_is_invariant (Tools.ofSpec (1 / 2 ^ 52) Real.exp Real.rpow)
      (fun _ _ => (1 : ℝ)) 3 3 _ (construct_eq _ _ 3 3 (by decide)) _).2.2.1⟩

/-- C24. The checks of `train` are made in a fixed order and the first one that is violated
gives the error: zero prototypes, then fewer data rows than prototypes, then zero iterations,
then a column count of the data other than the prototype size, then `lambda <= 0`, then data
that are not square. On an object without prototypes the default `lambda` of `train(D, n)` is
0 and the call reports the zero-prototypes error, not the error about `lambda`. -/
theorem C24_train_reports_first_violated_check (tl : Tools T) (self : relational_neuralgas T)
    (D : ublas.matrix T) (n : Nat) (lambda : T) :
    (self.getPrototypeCount = 0 →
      (train tl self D n lambda).1 = .error .prototypes_zero) ∧
    (self.getPrototypeCount ≠ 0 → D.size1 < self.getPrototypeCount →
      (train tl self D n lambda).1 = .error .datapoints_less) ∧
    (self.getPrototypeCount ≠ 0 → self.getPrototypeCount ≤ D.size1 → n = 0 →
      (train tl self D n lambda).1 = .error .iterations_zero) ∧
    (self.getPrototypeCount ≠ 0 → self.getPrototypeCount ≤ D.size1 → n ≠ 0 →
      D.size2 ≠ self.getPrototypeSize →
      (train tl self D n lambda).1 = .error .dimension_not_equal) ∧
    (self.getPrototypeCount ≠ 0 → self.getPrototypeCount ≤ D.size1 → n ≠ 0 →
      D.size2 = self.getPrototypeSize → lambda ≤ 0 →
      (train tl self D n lambda).1 = .error .lambda_not_positive) ∧
    (self.getPrototypeCount ≠ 0 → self.getPrototypeCount ≤ D.size1 → n ≠ 0 →
      D.size2 = self.getPrototypeSize → 0 < lambda → D.size1 ≠ D.size2 →
      (train tl self D n lambda).1 = .error .matrix_not_square) ∧
    (self.getPrototypeCount = 0 →
      ((self.getPrototypeCount : Nat) : T) * (1 / 2) = 0 ∧
      (train_default tl self D n).1 = .error .prototypes_zero ∧
      (train_default tl self D n).1 ≠ .error .lambda_not_positive) := by
  simp only [getPrototypeCount, getPrototypeSize]
  refine ⟨?_, ?_, ?_, ?_, ?_, ?_, ?_⟩
  · intro h0
    rw [train_of_no_prototypes tl self D n lambda h0]
  · intro h0 h1
    unfold train
    rw [if_neg h0, if_pos h1]
  · intro h0 h1 h2
    unfold train
    rw [if_neg h0, if_neg (not_lt.mpr h1), if_pos h2]
  · intro h0 h1 h2 h3
    unfold train
    rw [if_neg h0, if_neg (not_lt.mpr h1), if_neg h2, if_pos h3]
  · intro h0 h1 h2 h3 h4
    unfold train
    rw [if_neg h0, if_neg (not_lt.mpr h1), if_neg h2, if_neg (not_not.mpr h3), if_pos h4]
  · intro h0 h1 h2 h3 h4 h5
    unfold train
    rw [if_neg h0, if_neg (not_lt.mpr h1), if_neg h2, if_neg (not_not.mpr h3),
      if_neg (not_le.mpr h4), if_pos h5]
  · intro h0
    refine ⟨by rw [h0]; simp, ?_, ?_⟩
    · unfold train_default
      rw [train_of_no_prototypes tl self D n _ h0]
    · unfold train_default
      rw [train_of_no_prototypes tl self D n _ h0]
      intro h
      exact exception.noConfusion (Except.error.inj h)

/-- C28 (as stated, refuted). In `double` arithmetic, with the tolerance `2^-52` (so 1 is not
numerically zero), the normalisation loop makes of one row of ten ones the row of ten times
the `double` value `0.1`, whose computed sum is `1 - 2^-53`; a second pass of the loop
divides by that sum and changes every entry to the next `double`. -/
theorem C28_counterexample_second_pass_changes_row :
    (Tools.ofSpec (1 / 2 ^ 52) Real.exp Real.rpow).isNumericalZero 1 = false ∧
    ((List.range (example_input.ten_ones ℝ).size1).foldl
      (fun M i => rounded.train_normalize_row binary64.round_nearest (Tools.ofSpec (1 / 2 ^ 52) Real.exp Real.rpow) M i)
      (example_input.ten_ones ℝ)).data 0 0 = 3602879701896397 / 36028797018963968 ∧
    ((List.range ((List.range (example_input.ten_ones ℝ).size1).foldl
        (fun M i => rounded.train_normalize_row binary64.round_nearest (Tools.ofSpec (1 / 2 ^ 52) Real.exp Real.rpow) M i)
        (example_input.ten_ones ℝ)).size1).foldl
      (fun M i => rounded.train_normalize_row binary64.round_nearest (Tools.ofSpec (1 / 2 ^ 52) Real.exp Real.rpow) M i)
      ((List.range (example_input.ten_ones ℝ).size1).foldl
        (fun M i => rounded.train_normalize_row binary64.round_nearest (Tools.ofSpec (1 / 2 ^ 52) Real.exp Real.rpow) M i)
        (example_input.ten_ones ℝ))).data 0 0 = 7205759403792795 / 72057594037927936 ∧
    (7205759403792795 / 72057594037927936 : ℝ) ≠ 3602879701896397 / 36028797018963968 := by
  rw [rounded.train_normalize_loop_eq_fl, rounded.train_normalize_loop_eq_fl]
  exact ⟨isNumericalZero_of_one_le _ (by norm_num) 1 (le_refl 1),
    binary64.ten_ones_normalized 0 (by norm_num),
    binary64.ten_ones_normalized_twice 0 (by norm_num), by norm_num⟩

/-- C28 (as amended). With the arithmetic of the number type rounded by `fl`, a rounding that
leaves the values of the number type as they are: the loop over the rows in the constructor
and the loop at the end of an iteration of `train` are the same function of the matrix, and a
second pass of that loop returns unchanged every row whose computed sum after the first pass
is 1 or numerically zero (in exact arithmetic every row that was divided by a non-zero
sum has the sum 1). -/
theorem C28_normalization_is_shared_and_idempotent (fl : T → T) (tl : Tools T)
    (hid : ∀ x, fl (fl x) = fl x) (M : ublas.matrix T) :
    (List.range M.size1).foldl (fun M i => rounded.construct_normalize_row fl tl M i) M =
      (List.range M.size1).foldl (fun M i => rounded.train_normalize_row fl tl M i) M ∧
    ∀ r, r < M.size1 →
      (rounded.sum fl (ublas.row
          ((List.range M.size1).foldl (fun M i => rounded.train_normalize_row fl tl M i) M) r)
          = 1 ∨
        tl.isNumericalZero (rounded.sum fl (ublas.row
          ((List.range M.size1).foldl (fun M i => rounded.train_normalize_row fl tl M i) M) r))
          = true) →
      ∀ c, ((List.range ((List.range M.size1).foldl
            (fun M i => rounded.train_normalize_row fl tl M i) M).size1).foldl
          (fun M i => rounded.train_normalize_row fl tl M i)
          ((List.range M.size1).foldl
            (fun M i => rounded.train_normalize_row fl tl M i) M)).data r c =
        ((List.range M.size1).foldl
          (fun M i => rounded.train_normalize_row fl tl M i) M).data r c := by
  refine ⟨rfl, ?_⟩
  rw [rounded.train_normalize_loop_eq_fl, rounded.train_normalize_loop_eq_fl]
  intro r hr hs c
  exact rounded.normalize_twice_fl fl tl hid M r hr hs c

/-- Witness of C28 (as amended): `double` arithmetic and the row of two ones, which the
loop makes the row of two halves with the computed sum 1; a second pass leaves it as it
is. -/
theorem C28_normalization_is_shared_and_idempotent_witness :
    (∀ x : ℝ, binary64.round_nearest (binary64.round_nearest x) = binary64.round_nearest x) ∧
    rounded.sum binary64.round_nearest (ublas.row
      ((List.range (example_input.pair_ones ℝ).size1).foldl
        (fun M i => rounded.train_normalize_row binary64.round_nearest (Tools.ofSpec (1 / 2 ^ 52) Real.exp Real.rpow) M i)
        (example_input.pair_ones ℝ)) 0) = 1 ∧
    ∀ c, ((List.range ((List.range (example_input.pair_ones ℝ).size1).foldl
          (fun M i => rounded.train_normalize_row binary64.round_nearest (Tools.ofSpec (1 / 2 ^ 52) Real.exp Real.rpow) M i)
          (example_input.pair_ones ℝ)).size1).foldl
        (fun M i => rounded.train_normalize_row binary64.round_nearest (Tools.ofSpec (1 / 2 ^ 52) Real.exp Real.rpow) M i)
        ((List.range (example_input.pair_ones ℝ).size1).foldl
          (fun M i => rounded.train_normalize_row binary64.round_nearest (Tools.ofSpec (1 / 2 ^ 52) Real.exp Real.rpow) M i)
          (example_input.pair_ones ℝ))).data 0 c =
      ((List.range (example_input.pair_ones ℝ).size1).foldl
        (fun M i => rounded.train_normalize_row binary64.round_nearest (Tools.ofSpec (1 / 2 ^ 52) Real.exp Real.rpow) M i)
        (example_input.pair_ones ℝ)).data 0 c :=
  have hs : rounded.sum binary64.round_nearest (ublas.row
      ((List.range (example_input.pair_ones ℝ).size1).foldl
        (fun M i => rounded.train_normalize_row binary64.round_nearest (Tools.ofSpec (1 / 2 ^ 52) Real.exp Real.rpow) M i)
        (example_input.pair_ones ℝ)) 0) = 1 := by
    rw [rounded.train_normalize_loop_eq_fl]
    exact binary64.pair_ones_normalized_sum
  ⟨binary64.round_nearest_idem, hs,
    (C28_normalization_is_shared_and_idempotent binary64.round_nearest (Tools.ofSpec (1 / 2 ^ 52) Real.exp Real.rpow)
      binary64.round_nearest_idem (example_input.pair_ones ℝ)).2 0 (by decide) (Or.inl hs)⟩

end invariant_claims

/-! ## Claims about the entries of the prototypes -/

section entry_claims

variable {T : Type} [LinearOrderedField T]

/-- C22. With an `exp` that is never negative: (1) a construction with `K` prototypes of size
`N > 0` from random values that are not negative succeeds and leaves prototypes whose entries
are not negative, and at most 1 in every row that the constructor divided by its sum (the sum
of the random values of the row was not numerically zero); (2) every `train` call whose
arguments pass the checks succeeds and leaves prototypes whose entries are not negative, and
at most 1 in every row that was divided by its sum (such a row has a sum that is 1 or at
least not numerically zero). -/
theorem C22_prototype_entries_are_weights (tl : Tools T) (hexp : ∀ x, 0 ≤ tl.exp x) :
    (∀ (R : Nat → Nat → T) (K N : Nat), 0 < N → (∀ k j, k < K → j < N → 0 ≤ R k j) →
      ∃ self, construct tl R K N = .ok self ∧ ∀ k, k < K → ∀ j, j < N →
        0 ≤ self.getPrototypes.data k j ∧
        (tl.isNumericalZero (Finset.sum (Finset.range N) fun c => R k c) = false →
          self.getPrototypes.data k j ≤ 1)) ∧
    (∀ (self : relational_neuralgas T) (D : ublas.matrix T) (n : Nat) (lambda : T),
      train_accepts self D n lambda →
      (train tl self D n lambda).1 = .ok () ∧
      ∀ k, k < self.getPrototypeCount → ∀ j, j < self.getPrototypeSize →
        0 ≤ (train tl self D n lambda).2.getPrototypes.data k j ∧
        (tl.isNumericalZero
            (ublas.sum (ublas.row (train tl self D n lambda).2.getPrototypes k)) = false ∨
          ublas.sum (ublas.row (train tl self D n lambda).2.getPrototypes k) = 1 →
          (train tl self D n lambda).2.getPrototypes.data k j ≤ 1)) := by
  constructor
  · intro R K N hN hR
    refine ⟨_, construct_eq tl R K N (Nat.pos_iff_ne_zero.mp hN), ?_⟩
    intro k hk j hj
    have hsum : ublas.sum (ublas.row (⟨K, N, R⟩ : ublas.matrix T) k) =
        Finset.sum (Finset.range N) fun c => R k c := by
      unfold ublas.sum ublas.row
      exact list_sum_map_range _ _
    have hb := normalize_closed_bounds tl (⟨K, N, R⟩ : ublas.matrix T) hR k j hk hj
    rw [hsum] at hb
    exact ⟨hb.1, hb.2.1⟩
  · intro self D n lambda hacc
    refine ⟨train_ok tl self D n lambda hacc, ?_⟩
    intro k hk j hj
    simp only [getPrototypeCount, getPrototypeSize] at hk hj
    obtain ⟨P, hP, hlast⟩ := train_last_iteration tl self D n lambda hacc
    simp only [getPrototypes]
    rw [hlast]
    unfold iteration_prototypes
    have hk2 : k < P.size1 := by rw [hP]; exact hk
    have hj2 : j < D.size2 := by rw [hacc.2.2.2.1]; exact hj
    have hb := normalize_closed_bounds tl
      (rank_closed tl (train_lambda tl n lambda (n - 1)) (adapt_closed P D))
      (fun r c hr hc => by
        rw [rank_closed_data tl _ (adapt_closed P D) r c hr hc]
        exact rank_weight_nonneg tl hexp _ _ r c) k j hk2 hj2
    exact ⟨hb.1, hb.2.2⟩

/-- Witness of C22: the real `exp`; the data of the line and its three prototypes. -/
theorem C22_prototype_entries_are_weights_witness :
    (∀ x, 0 ≤ (Tools.ofSpec (1 / 2 ^ 52) Real.exp Real.rpow).exp x) ∧
    train_accepts (example_input.line_object ℝ) (example_input.line_data ℝ) 1 (1 / 100) ∧
    (train (Tools.ofSpec (1 / 2 ^ 52) Real.exp Real.rpow) (example_input.line_object ℝ)
      (example_input.line_data ℝ) 1 (1 / 100)).1 = .ok () :=
  have hacc : train_accepts (example_input.line_object ℝ) (example_input.line_data ℝ) 1
      (1 / 100) :=
    ⟨by decide, by decide, by decide, rfl, by norm_num, rfl⟩
  ⟨fun x => le_of_lt (Real.exp_pos x), hacc,
    ((C22_prototype_entries_are_weights (Tools.ofSpec (1 / 2 ^ 52) Real.exp Real.rpow)
      (fun x => le_of_lt (Real.exp_pos x))).2 (example_input.line_object ℝ)
      (example_input.line_data ℝ) 1 (1 / 100) hacc).1⟩

/-- C23 (as stated, refuted). For `double` and an object without prototypes the distributed
`train` without `lambda` passes on `epsilon() = 2^-52`; the smallest positive value of the
number type, `2^-1074`, is smaller. -/
theorem C23_counterexample_epsilon_is_not_the_smallest_positive_value :
    (example_input.empty_object ℚ).getPrototypeCount = 0 ∧
    train_mpi_lambda numeric_limits.double (example_input.empty_object ℚ) = 1 / 2 ^ 52 ∧
    0 < numeric_limits.double.denorm_min ∧
    numeric_limits.double.denorm_min <
      train_mpi_lambda numeric_limits.double (example_input.empty_object ℚ) := by
  refine ⟨rfl, rfl, ?_, ?_⟩
  · show (0 : ℚ) < 1 / 2 ^ 1074
    positivity
  · show (1 : ℚ) / 2 ^ 1074 < 1 / 2 ^ 52
    apply one_div_lt_one_div_of_lt (by positivity)
    exact pow_lt_pow_right₀ (by norm_num) (by norm_num)

/-- C23 (as amended). The distributed `train` without `lambda` calls the overload with
`lambda`, and the `lambda` it passes on is `0.5 * K` when the object has `K > 0` prototypes
and `std::numeric_limits<T>::epsilon()` when it has none; for a positive `epsilon()` it is
strictly positive for every `K`. -/
theorem C23_mpi_default_lambda_is_positive (limits : numeric_limits T)
    (heps : 0 < limits.epsilon) (self : relational_neuralgas T) (D : ublas.matrix T)
    (n : Nat) :
    train_mpi_default limits self D n = train_mpi self D n (train_mpi_lambda limits self) ∧
    (0 < self.getPrototypeCount →
      train_mpi_lambda limits self = (1 / 2) * (self.getPrototypeCount : T)) ∧
    (self.getPrototypeCount = 0 → train_mpi_lambda limits self = limits.epsilon) ∧
    0 < train_mpi_lambda limits self := by
  refine ⟨rfl, ?_, ?_, train_mpi_lambda_pos limits heps self⟩
  · intro hK
    simp only [getPrototypeCount] at hK ⊢
    unfold train_mpi_lambda
    rw [if_neg (Nat.pos_iff_ne_zero.mp hK)]
    ring
  · intro hK
    simp only [getPrototypeCount] at hK
    unfold train_mpi_lambda
    rw [if_pos hK]

/-- Witness of C23 (as amended): the limits of `double` and an object without prototypes. -/
theorem C23_mpi_default_lambda_is_positive_witness :
    0 < numeric_limits.double.epsilon ∧
    0 < train_mpi_lambda numeric_limits.double (example_input.empty_object ℚ) :=
  ⟨by show (0 : ℚ) < 1 / 2 ^ 52; positivity,
    (C23_mpi_default_lambda_is_positive numeric_limits.double
      (by show (0 : ℚ) < 1 / 2 ^ 52; positivity) (example_input.empty_object ℚ)
      (example_input.spread_data ℚ) 1).2.2.2⟩

end entry_claims

/-! ## Claims about the assignment of `use` and the conversion to a Java array -/

section assignment_claims

/-- C27. There are prototypes with rows that are not negative and sum to 1, square symmetric
data with a zero diagonal and a column `j` for which `use` returns a prototype other than the
one that has rank 0 in column `j` of the matrix `l_adaptmatrix` that `train` builds from the
same prototypes and data (and that has the strictly smallest entry of that column). -/
theorem C27_use_can_disagree_with_the_ranking_of_train :
    ∃ (self : relational_neuralgas ℚ) (D : ublas.matrix ℚ) (j : Nat),
      (∀ k, k < self.getPrototypeCount →
        (∀ c, c < self.getPrototypeSize → 0 ≤ self.getPrototypes.data k c) ∧
        ublas.sum (ublas.row self.getPrototypes k) = 1) ∧
      D.size1 = self.getPrototypeSize ∧ D.size2 = self.getPrototypeSize ∧
      (∀ a b, a < D.size1 → b < D.size2 → D.data a b = D.data b a) ∧
      (∀ a, a < D.size1 → D.data a a = 0) ∧ j < D.size2 ∧
      ∃ (idx : List Nat) (A : ublas.matrix ℚ) (i k : Nat),
        use self D = .ok idx ∧ idx[j]? = some i ∧
        train_adaptmatrix self.m_prototypes D = .ok A ∧ k < self.getPrototypeCount ∧
        (tools.vector.rank (ublas.column A j))[k]? = some 0 ∧
        (∀ m, m < self.getPrototypeCount → m ≠ k → A.data k j < A.data m j) ∧ i ≠ k := by
  refine ⟨example_input.spread_object ℚ, example_input.spread_data ℚ, 0, ?_, rfl, rfl, ?_, ?_,
    by decide, [0, 0, 1], _, 0, 1, spread_use, rfl, train_adaptmatrix_eq _ _ rfl, by decide,
    ?_, ?_, by decide⟩
  · intro k hk
    have hk2 : k < 2 := hk
    constructor
    · intro c hc
      have hc3 : c < 3 := hc
      interval_cases k <;> interval_cases c <;>
        simp [getPrototypes, example_input.spread_object, example_input.ofRows]
    · interval_cases k <;>
        simp [getPrototypes, ublas.sum, ublas.row, example_input.spread_object,
          example_input.ofRows, List.range_succ] <;> norm_num
  · intro a b ha hb
    have ha3 : a < 3 := ha
    have hb3 : b < 3 := hb
    interval_cases a <;> interval_cases b <;>
      simp [example_input.spread_data, example_input.ofRows]
  · intro a ha
    have ha3 : a < 3 := ha
    interval_cases a <;> simp [example_input.spread_data, example_input.ofRows]
  · rw [spread_adapt_col0, spread_rank_col0]
    rfl
  · intro m hm hne
    have hm2 : m < 2 := hm
    have h0 : m = 0 := by omega
    subst h0
    have hcol := spread_adapt_col0
    simp only [ublas.column] at hcol
    have hsz : (adapt_closed (example_input.spread_object ℚ).m_prototypes
      (example_input.spread_data ℚ)).size1 = 2 := rfl
    rw [hsz] at hcol
    simp only [List.range_succ, List.range_zero, List.nil_append, List.map_append,
      List.map_cons, List.map_nil, List.cons_append] at hcol
    have h1 := (List.cons.inj hcol).1
    have h2 := (List.cons.inj (List.cons.inj hcol).2).1
    rw [h1, h2]
    norm_num

/-- C29 (the code at the failing inputs). With the tolerance `2^-52`: for the matrix with the
rows `[1, 2]` and `[3, 4]` the row mode returns `[[1, 2], [3, 4]]` and the column mode
returns the same array, not the transpose `[[1, 3], [2, 4]]`; for the matrix with the single
row `[0, 1]` the column mode reads the element `(1, 0)`, which is outside the matrix. -/
theorem C29_column_mode_reads_swapped_indices :
    convert.getArrayFromMatrix (tools.function.isNumericalZero (1 / 2 ^ 52))
      (example_input.square_matrix ℚ) .row = .ok (some [[1, 2], [3, 4]]) ∧
    convert.getArrayFromMatrix (tools.function.isNumericalZero (1 / 2 ^ 52))
      (example_input.square_matrix ℚ) .column = .ok (some [[1, 2], [3, 4]]) ∧
    convert.getArrayFromMatrix (tools.function.isNumericalZero (1 / 2 ^ 52))
      (example_input.square_matrix ℚ) .column ≠ .ok (some [[1, 3], [2, 4]]) ∧
    ublas.element (example_input.flat_data ℚ) 1 0 = .error .bad_index ∧
    convert.getArrayFromMatrix (tools.function.isNumericalZero (1 / 2 ^ 52))
      (example_input.flat_data ℚ) .column = .error .bad_index := by
  have hz : ∀ x : ℚ, 1 ≤ x → tools.function.isNumericalZero ((2 ^ 52)⁻¹) x = false :=
    fun x hx => isNumericalZero_of_one_le _ (by norm_num) x hx
  have h1 := hz 1 (by norm_num)
  have h2 := hz 2 (by norm_num)
  have h3 := hz 3 (by norm_num)
  have h4 := hz 4 (by norm_num)
  have hsq : convert.getArrayFromMatrix (tools.function.isNumericalZero (1 / 2 ^ 52))
      (example_input.square_matrix ℚ) .column = .ok (some [[1, 2], [3, 4]]) := by
    simp [convert.getArrayFromMatrix, convert.getArrayFromMatrix_row, convert.getArrayFromMatrix_col, ublas.element,
      example_input.square_matrix, example_input.ofRows, List.range_succ, h1, h2, h3, h4]
  refine ⟨?_, hsq, ?_, ?_, ?_⟩
  · simp [convert.getArrayFromMatrix, convert.getArrayFromMatrix_row, convert.getArrayFromMatrix_col, ublas.element,
      example_input.square_matrix, example_input.ofRows, List.range_succ, h1, h2, h3, h4]
  · rw [hsq]
    intro h
    have := Option.some.inj (Except.ok.inj h)
    simp at this
  · simp [ublas.element, example_input.flat_data, example_input.ofRows]
  · simp [convert.getArrayFromMatrix, convert.getArrayFromMatrix_row, convert.getArrayFromMatrix_col, ublas.element,
      example_input.flat_data, example_input.ofRows, List.range_succ]

end assignment_claims

/-! ## Claims about the weights of an iteration -/

section weight_claims

variable {T : Type} [LinearOrderedField T]

/-- C25 (as stated, refuted). With `double` arithmetic and the correctly rounded `exp`: for two
prototypes over two objects and one iteration at `lambda = 2^-11`, `train` accepts the input
and `rank` returns a permutation of `0, 1` for both columns of `l_adaptmatrix`, and yet every
column of the matrix after the rank loop holds the entry 0, the rounded `exp(-2048)`; that
entry does not lie in `(0, 1]`. -/
theorem C25_counterexample_weight_underflows_to_zero :
    train_accepts (example_input.two_object ℝ) (example_input.two_data ℝ) 1 (1 / 2048) ∧
    ∃ A, rounded.train_adaptmatrix binary64.round_nearest
        (example_input.two_object ℝ).m_prototypes (example_input.two_data ℝ) = .ok A ∧
      ∀ j, j < (example_input.two_data ℝ).size2 →
        List.Perm ((Tools.ofSpec (1 / 2 ^ 52) (fun x => binary64.round_nearest (Real.exp x)) Real.rpow).rank (ublas.column A j))
          ((List.range (example_input.two_object ℝ).getPrototypeCount).map
            fun r : Nat => (r : ℝ)) ∧
        (0 : ℝ) ∈ ublas.column ((List.range A.size2).foldl
          (fun M c => rounded.train_rank_column binary64.round_nearest (Tools.ofSpec (1 / 2 ^ 52) (fun x => binary64.round_nearest (Real.exp x)) Real.rpow)
            (rounded.train_lambda binary64.round_nearest (Tools.ofSpec (1 / 2 ^ 52) (fun x => binary64.round_nearest (Real.exp x)) Real.rpow) 1 (1 / 2048) 0) M c) A) j := by
  refine ⟨⟨by decide, by decide, by decide, rfl, by norm_num, rfl⟩, _,
    rounded.train_adaptmatrix_eq_fl _ _ _ rfl, ?_⟩
  intro j hj
  have hlam : rounded.train_lambda binary64.round_nearest (Tools.ofSpec (1 / 2 ^ 52) (fun x => binary64.round_nearest (Real.exp x)) Real.rpow) 1 (1 / 2048) 0 = 1 / 2048 := by
    rw [rounded.train_lambda_zero_fl _ binary64.round_nearest_zero (Tools.ofSpec (1 / 2 ^ 52) (fun x => binary64.round_nearest (Real.exp x)) Real.rpow)
      (fun x => Real.rpow_zero x)]
    have := binary64.round_nearest_of_representable (T := ℝ) 1 (-11) (by norm_num)
      (by norm_num)
    norm_num at this
    norm_num
    exact this
  have h2048 : binary64.round_nearest (-2048 : ℝ) = -2048 := by
    have := binary64.round_nearest_of_representable (T := ℝ) (-2048) 0 (by norm_num)
      (by norm_num)
    norm_num at this
    exact this
  have hexp : binary64.round_nearest (Real.exp (-2048)) = 0 :=
    binary64.round_nearest_of_tiny _ binary64.exp_tiny
  have hcol : ublas.column (rounded.adapt_closed binary64.round_nearest
      (example_input.two_object ℝ).m_prototypes (example_input.two_data ℝ)) j =
      [(rounded.adapt_closed binary64.round_nearest
        (example_input.two_object ℝ).m_prototypes (example_input.two_data ℝ)).data 0 j,
       (rounded.adapt_closed binary64.round_nearest
        (example_input.two_object ℝ).m_prototypes (example_input.two_data ℝ)).data 1 j] := rfl
  have h01 : (List.range (example_input.two_object ℝ).getPrototypeCount).map
      (fun r : Nat => (r : ℝ)) = [0, 1] := by
    have : (example_input.two_object ℝ).getPrototypeCount = 2 := rfl
    rw [this]
    simp [List.range_succ]
  have hrk : (Tools.ofSpec (1 / 2 ^ 52) (fun x => binary64.round_nearest (Real.exp x)) Real.rpow).rank = tools.vector.rank := rfl
  rw [rounded.train_rank_loop_eq_fl, h01, hrk, hcol]
  rcases rank_of_pair_cases
    ((rounded.adapt_closed binary64.round_nearest
        (example_input.two_object ℝ).m_prototypes (example_input.two_data ℝ)).data 0 j)
    ((rounded.adapt_closed binary64.round_nearest
        (example_input.two_object ℝ).m_prototypes (example_input.two_data ℝ)).data 1 j)
    with h | h
  · refine ⟨by rw [h], ?_⟩
    rw [rounded.column_rank_closed_fl binary64.round_nearest _ _ (rounded.adapt_closed binary64.round_nearest
      (example_input.two_object ℝ).m_prototypes (example_input.two_data ℝ)) j hj
      (by rw [hrk, hcol, h]; rfl), hrk, hcol, h, hlam]
    simp only [List.map_cons, List.map_nil]
    have : binary64.round_nearest (-(1 : ℝ) / (1 / 2048)) = -2048 := by
      rw [show (-(1 : ℝ) / (1 / 2048)) = -2048 by norm_num]
      exact h2048
    show (0 : ℝ) ∈ [_, binary64.round_nearest (Real.exp (binary64.round_nearest _))]
    rw [this, hexp]
    simp
  · refine ⟨by rw [h]; exact List.Perm.swap 0 1 [], ?_⟩
    rw [rounded.column_rank_closed_fl binary64.round_nearest _ _ (rounded.adapt_closed binary64.round_nearest
      (example_input.two_object ℝ).m_prototypes (example_input.two_data ℝ)) j hj
      (by rw [hrk, hcol, h]; rfl), hrk, hcol, h, hlam]
    simp only [List.map_cons, List.map_nil]
    have : binary64.round_nearest (-(1 : ℝ) / (1 / 2048)) = -2048 := by
      rw [show (-(1 : ℝ) / (1 / 2048)) = -2048 by norm_num]
      exact h2048
    show (0 : ℝ) ∈ [binary64.round_nearest (Real.exp (binary64.round_nearest _)), _]
    rw [this, hexp]
    simp

/-- C25 (as amended). With the arithmetic of the number type rounded by `fl` (0 is rounded to
0, and no number below 0 to a number above 0) and an `exp` that is 1 at 0, never negative and
at most 1 at and below 0: for an object and arguments that pass the checks of `train`, every
iteration `i` whose temperature `lambda_i` is positive, and a `rank` that returns a
permutation of `0..K-1` for every column of `l_adaptmatrix`, every column of the matrix after
the rank loop (before the rows are normalised) is a permutation of the values
`exp(fl(-r / lambda_i))`, `r = 0..K-1`; every entry lies in `[0, 1]`, at least one entry of the
column is 1, and the column sums to the sum of those values, the same for all columns. The
entries are positive when `exp` does not underflow to 0 at those arguments, and exactly one
entry is 1 when `exp` is not rounded to 1 at the arguments of `r > 0`. -/
theorem C25_columns_of_weights_are_permutations (fl : T → T) (hz : fl 0 = 0)
    (hneg : ∀ x, x ≤ 0 → fl x ≤ 0) (tl : Tools T)
    (he0 : tl.exp 0 = 1) (henn : ∀ x, 0 ≤ tl.exp x) (hele : ∀ x : T, x ≤ 0 → tl.exp x ≤ 1)
    (self : relational_neuralgas T) (D : ublas.matrix T) (n : Nat) (lambda : T)
    (hacc : train_accepts self D n lambda) (i : Nat)
    (hlam : 0 < rounded.train_lambda fl tl n lambda i)
    (hrank : ∀ A, rounded.train_adaptmatrix fl self.m_prototypes D = .ok A → ∀ j, j < D.size2 →
      List.Perm (tl.rank (ublas.column A j))
        ((List.range self.getPrototypeCount).map fun r : Nat => (r : T))) :
    ∃ A, rounded.train_adaptmatrix fl self.m_prototypes D = .ok A ∧
      ∀ j, j < D.size2 →
        List.Perm
          (ublas.column ((List.range A.size2).foldl
            (fun M c => rounded.train_rank_column fl tl
              (rounded.train_lambda fl tl n lambda i) M c) A) j)
          ((List.range self.getPrototypeCount).map
            fun r : Nat => tl.exp (fl (-(r : T) / rounded.train_lambda fl tl n lambda i))) ∧
        (∀ x, x ∈ ublas.column ((List.range A.size2).foldl
            (fun M c => rounded.train_rank_column fl tl
              (rounded.train_lambda fl tl n lambda i) M c) A) j →
          0 ≤ x ∧ x ≤ 1) ∧
        1 ≤ (ublas.column ((List.range A.size2).foldl
            (fun M c => rounded.train_rank_column fl tl
              (rounded.train_lambda fl tl n lambda i) M c) A) j).count 1 ∧
        ublas.sum (ublas.column ((List.range A.size2).foldl
            (fun M c => rounded.train_rank_column fl tl
              (rounded.train_lambda fl tl n lambda i) M c) A) j) =
          Finset.sum (Finset.range self.getPrototypeCount)
            (fun r : Nat => tl.exp (fl (-(r : T) / rounded.train_lambda fl tl n lambda i))) ∧
        ((∀ r : Nat, r < self.getPrototypeCount →
            0 < tl.exp (fl (-(r : T) / rounded.train_lambda fl tl n lambda i))) →
          ∀ x, x ∈ ublas.column ((List.range A.size2).foldl
            (fun M c => rounded.train_rank_column fl tl
              (rounded.train_lambda fl tl n lambda i) M c) A) j → 0 < x) ∧
        ((∀ r : Nat, 0 < r → r < self.getPrototypeCount →
            tl.exp (fl (-(r : T) / rounded.train_lambda fl tl n lambda i)) ≠ 1) →
          (ublas.column ((List.range A.size2).foldl
            (fun M c => rounded.train_rank_column fl tl
              (rounded.train_lambda fl tl n lambda i) M c) A) j).count 1 = 1) := by
  have hPD : self.m_prototypes.size2 = D.size1 := by
    rw [← hacc.2.2.2.1, hacc.2.2.2.2.2]
  have hA := rounded.train_adaptmatrix_eq_fl fl self.m_prototypes D hPD
  refine ⟨_, hA, ?_⟩
  intro j hj
  rw [rounded.train_rank_loop_eq_fl]
  have hperm0 := hrank _ hA j hj
  have hlen : (tl.rank (ublas.column (rounded.adapt_closed fl self.m_prototypes D) j)).length =
      (rounded.adapt_closed fl self.m_prototypes D).size1 := by
    rw [hperm0.length_eq]
    simp [getPrototypeCount, rounded.adapt_closed]
  rw [rounded.column_rank_closed_fl fl tl _ (rounded.adapt_closed fl self.m_prototypes D) j hj
    hlen]
  have hperm : List.Perm
      ((tl.rank (ublas.column (rounded.adapt_closed fl self.m_prototypes D) j)).map
        fun p => tl.exp (fl (-p / rounded.train_lambda fl tl n lambda i)))
      ((List.range self.getPrototypeCount).map
        fun r : Nat => tl.exp (fl (-(r : T) / rounded.train_lambda fl tl n lambda i))) := by
    have := hperm0.map fun p => tl.exp (fl (-p / rounded.train_lambda fl tl n lambda i))
    rw [List.map_map] at this
    exact this
  have hspec := rounded.exp_ranks_spec_fl fl hz hneg tl he0 henn hele
    (rounded.train_lambda fl tl n lambda i) hlam self.getPrototypeCount hacc.1
  refine ⟨hperm, ?_, ?_, ?_, ?_, ?_⟩
  · intro x hx
    exact hspec.1 x (hperm.mem_iff.mp hx)
  · rw [hperm.count_eq]
    exact hspec.2
  · unfold ublas.sum
    rw [hperm.sum_eq]
    exact list_sum_map_range _ _
  · intro hpos x hx
    obtain ⟨r, hr, rfl⟩ := List.mem_map.mp (hperm.mem_iff.mp hx)
    exact hpos r (List.mem_range.mp hr)
  · intro hne
    rw [hperm.count_eq]
    obtain ⟨K, hK⟩ : ∃ K, self.getPrototypeCount = K + 1 :=
      ⟨self.getPrototypeCount - 1, by have := hacc.1; simp only [getPrototypeCount]; omega⟩
    rw [hK] at hne ⊢
    rw [List.range_succ_eq_map, List.map_cons, List.count_cons]
    have h0 : tl.exp (fl (-((0 : Nat) : T) / rounded.train_lambda fl tl n lambda i)) = 1 := by
      simp [hz, he0]
    rw [h0]
    have hrest : List.count 1 ((List.map Nat.succ (List.range K)).map
        fun r : Nat => tl.exp (fl (-(r : T) / rounded.train_lambda fl tl n lambda i))) = 0 := by
      apply List.count_eq_zero.mpr
      intro hmem
      obtain ⟨r, hr, hr1⟩ := List.mem_map.mp hmem
      obtain ⟨q, hq, rfl⟩ := List.mem_map.mp hr
      exact hne (q + 1) (Nat.succ_pos q) (Nat.succ_lt_succ (List.mem_range.mp hq)) hr1
    rw [hrest]
    simp

/-- Witness of C25 (as amended): `double` arithmetic with the correctly rounded `exp`, two
prototypes over two objects, one iteration at `lambda = 2^-11`. -/
theorem C25_columns_of_weights_are_permutations_witness :
    binary64.round_nearest (0 : ℝ) = 0 ∧
    (∀ x : ℝ, x ≤ 0 → binary64.round_nearest x ≤ 0) ∧
    (Tools.ofSpec (1 / 2 ^ 52) (fun x => binary64.round_nearest (Real.exp x)) Real.rpow).exp 0 = 1 ∧ (∀ x, 0 ≤ (Tools.ofSpec (1 / 2 ^ 52) (fun x => binary64.round_nearest (Real.exp x)) Real.rpow).exp x) ∧ (∀ x : ℝ, x ≤ 0 → (Tools.ofSpec (1 / 2 ^ 52) (fun x => binary64.round_nearest (Real.exp x)) Real.rpow).exp x ≤ 1) ∧
    train_accepts (example_input.two_object ℝ) (example_input.two_data ℝ) 1 (1 / 2048) ∧
    0 < rounded.train_lambda binary64.round_nearest (Tools.ofSpec (1 / 2 ^ 52) (fun x => binary64.round_nearest (Real.exp x)) Real.rpow) 1 (1 / 2048) 0 ∧
    (∀ A, rounded.train_adaptmatrix binary64.round_nearest
        (example_input.two_object ℝ).m_prototypes (example_input.two_data ℝ) = .ok A →
      ∀ j, j < (example_input.two_data ℝ).size2 →
        List.Perm ((Tools.ofSpec (1 / 2 ^ 52) (fun x => binary64.round_nearest (Real.exp x)) Real.rpow).rank (ublas.column A j))
          ((List.range (example_input.two_object ℝ).getPrototypeCount).map
            fun r : Nat => (r : ℝ))) ∧
    ∃ A, rounded.train_adaptmatrix binary64.round_nearest
        (example_input.two_object ℝ).m_prototypes (example_input.two_data ℝ) = .ok A ∧
      ∀ j, j < (example_input.two_data ℝ).size2 →
        1 ≤ (ublas.column ((List.range A.size2).foldl
            (fun M c => rounded.train_rank_column binary64.round_nearest (Tools.ofSpec (1 / 2 ^ 52) (fun x => binary64.round_nearest (Real.exp x)) Real.rpow)
              (rounded.train_lambda binary64.round_nearest (Tools.ofSpec (1 / 2 ^ 52) (fun x => binary64.round_nearest (Real.exp x)) Real.rpow) 1 (1 / 2048) 0) M c) A)
            j).count 1 :=
  have hacc : train_accepts (example_input.two_object ℝ) (example_input.two_data ℝ) 1
      (1 / 2048) :=
    ⟨by decide, by decide, by decide, rfl, by norm_num, rfl⟩
  have he0 : (Tools.ofSpec (1 / 2 ^ 52) (fun x => binary64.round_nearest (Real.exp x)) Real.rpow).exp 0 = 1 := by
    show binary64.round_nearest (Real.exp 0) = 1
    rw [Real.exp_zero]
    have := binary64.round_nearest_of_representable (T := ℝ) 1 0 (by norm_num) (by norm_num)
    norm_num at this
    exact this
  have henn : ∀ x, 0 ≤ (Tools.ofSpec (1 / 2 ^ 52) (fun x => binary64.round_nearest (Real.exp x)) Real.rpow).exp x :=
    fun x => binary64.round_nearest_nonneg _ (le_of_lt (Real.exp_pos x))
  have hele : ∀ x : ℝ, x ≤ 0 → (Tools.ofSpec (1 / 2 ^ 52) (fun x => binary64.round_nearest (Real.exp x)) Real.rpow).exp x ≤ 1 :=
    fun x hx => binary64.round_nearest_le_one _ (Real.exp_le_one_iff.mpr hx)
  have hlam : 0 < rounded.train_lambda binary64.round_nearest (Tools.ofSpec (1 / 2 ^ 52) (fun x => binary64.round_nearest (Real.exp x)) Real.rpow) 1 (1 / 2048) 0 := by
    rw [rounded.train_lambda_zero_fl _ binary64.round_nearest_zero (Tools.ofSpec (1 / 2 ^ 52) (fun x => binary64.round_nearest (Real.exp x)) Real.rpow)
      (fun x => Real.rpow_zero x)]
    have := binary64.round_nearest_of_representable (T := ℝ) 1 (-11) (by norm_num)
      (by norm_num)
    norm_num at this
    norm_num
    rw [this]
    norm_num
  have hrank : ∀ A, rounded.train_adaptmatrix binary64.round_nearest
        (example_input.two_object ℝ).m_prototypes (example_input.two_data ℝ) = .ok A →
      ∀ j, j < (example_input.two_data ℝ).size2 →
        List.Perm ((Tools.ofSpec (1 / 2 ^ 52) (fun x => binary64.round_nearest (Real.exp x)) Real.rpow).rank (ublas.column A j))
          ((List.range (example_input.two_object ℝ).getPrototypeCount).map
            fun r : Nat => (r : ℝ)) := by
    intro A hA j _
    rw [rounded.train_adaptmatrix_eq_fl _ _ _ rfl] at hA
    have hA2 := (Except.ok.inj hA).symm
    subst hA2
    have h01 : (List.range (example_input.two_object ℝ).getPrototypeCount).map
        (fun r : Nat => (r : ℝ)) = [0, 1] := by
      have : (example_input.two_object ℝ).getPrototypeCount = 2 := rfl
      rw [this]
      simp [List.range_succ]
    rw [h01]
    show List.Perm (tools.vector.rank [_, _]) _
    rcases rank_of_pair_cases
      ((rounded.adapt_closed binary64.round_nearest
          (example_input.two_object ℝ).m_prototypes (example_input.two_data ℝ)).data 0 j)
      ((rounded.adapt_closed binary64.round_nearest
          (example_input.two_object ℝ).m_prototypes (example_input.two_data ℝ)).data 1 j)
      with h | h
    · rw [h]
    · rw [h]
      exact List.Perm.swap 0 1 []
  ⟨binary64.round_nearest_zero, binary64.round_nearest_nonpos, he0, henn, hele, hacc, hlam,
    hrank,
    (C25_columns_of_weights_are_permutations binary64.round_nearest
      binary64.round_nearest_zero binary64.round_nearest_nonpos (Tools.ofSpec (1 / 2 ^ 52) (fun x => binary64.round_nearest (Real.exp x)) Real.rpow) he0 henn hele
      (example_input.two_object ℝ) (example_input.two_data ℝ) 1 (1 / 2048) hacc 0 hlam
      hrank).imp
      fun _ h => ⟨h.1, fun j hj => (h.2 j hj).2.2.1⟩⟩

end weight_claims

/-! ## Claims about rescaled data -/

section rescaling_claims

variable {T : Type} [LinearOrderedField T]

end rescaling_claims
